import Mathlib

/-!
Verification of the jsonlite JSON parser and value-query engine.

The Go sources are embedded shallowly: input buffers and Go strings become
lists of bytes (natural numbers), pure functions become Lean functions, and
the mutually recursive parser is given an explicit fuel argument.  The top
level entry points run with fuel strictly larger than the input length, which
is always sufficient because every token consumes at least one byte.
-/

namespace Jsonlite


/-- JSON whitespace per the tokenizer: space, tab, newline, carriage return. -/
def isWS (c : Nat) : Bool :=
  c = 32 || c = 9 || c = 10 || c = 13

/-- Delimiters that end a bare token: whitespace plus the seven structural
characters recognized by the tokenizer. -/
def isDelim (c : Nat) : Bool :=
  isWS c || c = 91 || c = 93 || c = 123 || c = 125 || c = 58 || c = 44 || c = 34

/-- The six one-character structural tokens. -/
def isStructural (c : Nat) : Bool :=
  c = 44 || c = 58 || c = 91 || c = 93 || c = 123 || c = 125

/-- A list made entirely of whitespace bytes. -/
def allWS (l : List Nat) : Bool := l.all isWS

/-- Index of the first byte satisfying the predicate (Go strings.IndexNat). -/
def firstIdx (p : Nat → Bool) : List Nat → Option Nat
  | [] => none
  | c :: r => if p c then some 0 else (firstIdx p r).map (· + 1)

/-- Number of consecutive backslash bytes at the end of the list. -/
def trailBS (l : List Nat) : Nat :=
  (l.reverse.takeWhile (· = 92)).length

theorem firstIdx_lt_length {p : Nat → Bool} {l : List Nat} {m : Nat}
    (h : firstIdx p l = some m) : m < l.length := by
  induction l generalizing m with
  | nil => simp [firstIdx] at h
  | cons c r ih =>
    simp only [firstIdx] at h
    split at h
    · cases h; simp
    · match h' : firstIdx p r with
      | none => rw [h'] at h; simp at h
      | some k =>
        rw [h'] at h
        simp only [Option.map_some'] at h
        cases h
        have := ih h'
        simp; omega

/-- Scan after an opening quote for the matching closing quote: the body of
Tokenizer.Next's string case.  Returns the token text after the opening quote
(including the closing quote when found) and the remaining input. -/
def quoteScanF : Nat → List Nat → List Nat × List Nat
  | 0, r => (r, [])
  | fuel + 1, r =>
    match firstIdx (· = 34) r with
    | none => (r, [])
    | some m =>
      if trailBS (r.take m) % 2 = 0 then
        (r.take (m + 1), r.drop (m + 1))
      else
        let p := quoteScanF fuel (r.drop (m + 1))
        (r.take (m + 1) ++ p.1, p.2)

def quoteScan (r : List Nat) : List Nat × List Nat :=
  quoteScanF (r.length + 1) r

/-- Token production for a non-whitespace first byte c with remaining bytes r:
a quoted string scanned to its unescaped closing quote, a one-character
structural token, or a maximal run of non-delimiter bytes. -/
def tokAt (c : Nat) (r : List Nat) : List Nat × List Nat :=
  if c = 34 then
    (34 :: (quoteScan r).1, (quoteScan r).2)
  else if isStructural c then
    ([c], r)
  else
    (c :: r.takeWhile (fun b => !isDelim b), r.dropWhile (fun b => !isDelim b))

/-- Tokenizer.Next (src/parse.go): skip whitespace, then produce one token.
Returns the token and the remaining input; none at end of input. -/
def nextTok (s : List Nat) : Option (List Nat × List Nat) :=
  match s.dropWhile isWS with
  | [] => none
  | c :: r => some (tokAt c r)

theorem nextTok_eq_some {s : List Nat} {p : List Nat × List Nat} :
    nextTok s = some p ↔ ∃ c r, s.dropWhile isWS = c :: r ∧ p = tokAt c r := by
  unfold nextTok
  match hd : s.dropWhile isWS with
  | [] => simp
  | c :: r =>
    simp only [Option.some.injEq]
    constructor
    · intro h; exact ⟨c, r, rfl, h.symm⟩
    · rintro ⟨c', r', h1, h2⟩
      cases h1; exact h2.symm

theorem quoteScanF_append (fuel : Nat) : ∀ r, (quoteScanF fuel r).1 ++ (quoteScanF fuel r).2 = r := by
  induction fuel with
  | zero => intro r; simp [quoteScanF]
  | succ n ih =>
    intro r
    rw [quoteScanF]
    split
    · simp
    · split
      · exact List.take_append_drop _ _
      · simp only []
        rw [List.append_assoc, ih, List.take_append_drop]

theorem quoteScan_append (r : List Nat) : (quoteScan r).1 ++ (quoteScan r).2 = r :=
  quoteScanF_append _ r

theorem tokAt_append (c : Nat) (r : List Nat) :
    (tokAt c r).1 ++ (tokAt c r).2 = c :: r := by
  unfold tokAt
  by_cases hc : c = 34
  · simp only [hc, if_pos rfl]
    simp [quoteScan_append r]
  · rw [if_neg hc]
    by_cases hs : isStructural c
    · simp [hs]
    · simp [hs, List.takeWhile_append_dropWhile]

theorem tokAt_ne_nil (c : Nat) (r : List Nat) : (tokAt c r).1 ≠ [] := by
  unfold tokAt
  by_cases hc : c = 34
  · simp [hc]
  · rw [if_neg hc]
    by_cases hs : isStructural c
    · simp [hs]
    · simp [hs]

theorem nextTok_append {s t r : List Nat} (h : nextTok s = some (t, r)) :
    t ++ r = s.dropWhile isWS := by
  obtain ⟨c, u, hd, hp⟩ := nextTok_eq_some.mp h
  have := tokAt_append c u
  rw [hd]
  rw [show t = (tokAt c u).1 from by rw [← hp], show r = (tokAt c u).2 from by rw [← hp]]
  exact this

/-- Whitespace-dropping produces a suffix. -/
theorem dropWhile_suffix (p : Nat → Bool) (s : List Nat) :
    ∃ w, s = w ++ s.dropWhile p ∧ w.all p := by
  induction s with
  | nil => exact ⟨[], rfl, rfl⟩
  | cons c r ih =>
    by_cases h : p c
    · obtain ⟨w, hw, hall⟩ := ih
      refine ⟨c :: w, ?_, ?_⟩
      · simp [List.dropWhile, h]; exact hw
      · simp [hall, h]
    · refine ⟨[], ?_, rfl⟩
      simp [List.dropWhile, h]

theorem nextTok_split {s t r : List Nat} (h : nextTok s = some (t, r)) :
    ∃ w, s = w ++ t ++ r ∧ allWS w := by
  obtain ⟨w, hw, hall⟩ := dropWhile_suffix isWS s
  exact ⟨w, by rw [List.append_assoc, nextTok_append h]; exact hw, hall⟩

theorem nextTok_token_ne_nil {s t r : List Nat} (h : nextTok s = some (t, r)) :
    t ≠ [] := by
  obtain ⟨c, u, hd, hp⟩ := nextTok_eq_some.mp h
  rw [show t = (tokAt c u).1 from by rw [← hp]]
  exact tokAt_ne_nil c u

theorem nextTok_progress {s t r : List Nat} (h : nextTok s = some (t, r)) :
    r.length < s.length := by
  obtain ⟨w, hw, _⟩ := nextTok_split h
  have ht := nextTok_token_ne_nil h
  have : t.length ≠ 0 := by simpa using ht
  rw [hw]
  simp [List.length_append]
  omega

theorem nextTok_none_iff (s : List Nat) :
    nextTok s = none ↔ s.dropWhile isWS = [] := by
  unfold nextTok
  match hd : s.dropWhile isWS with
  | [] => simp
  | c :: u => simp

/-! ### Characterization of the string scan by terminator positions -/

/-- Position m of the body r (the bytes after an opening quote) terminates the
string token: it holds a quote byte preceded by an even number of consecutive
backslashes. -/
def isTerm (r : List Nat) (m : Nat) : Prop :=
  r[m]? = some 34 ∧ trailBS (r.take m) % 2 = 0

instance (r : List Nat) (m : Nat) : Decidable (isTerm r m) := by
  unfold isTerm; infer_instance

theorem firstIdx_none {p : Nat → Bool} {l : List Nat}
    (h : firstIdx p l = none) : ∀ (k : Nat) (x : Nat), l[k]? = some x → p x = false := by
  induction l with
  | nil => intro k x hk; simp at hk
  | cons c r ih =>
    simp only [firstIdx] at h
    split at h
    · cases h
    · rename_i hpc
      intro k x hk
      match k with
      | 0 =>
        simp at hk
        cases hk
        simpa using hpc
      | k + 1 =>
        simp at hk
        refine ih ?_ k x hk
        match hf : firstIdx p r with
        | none => rfl
        | some m => rw [hf] at h; simp at h

theorem firstIdx_some {p : Nat → Bool} {l : List Nat} {m : Nat}
    (h : firstIdx p l = some m) :
    (∃ x, l[m]? = some x ∧ p x = true) ∧ ∀ (k : Nat) (x : Nat), k < m → l[k]? = some x → p x = false := by
  induction l generalizing m with
  | nil => simp [firstIdx] at h
  | cons c r ih =>
    simp only [firstIdx] at h
    split at h
    · rename_i hpc
      cases h
      exact ⟨⟨c, by simp, hpc⟩, by intro k x hk; omega⟩
    · rename_i hpc
      match hf : firstIdx p r with
      | none => rw [hf] at h; simp at h
      | some m' =>
        rw [hf] at h
        simp at h
        cases h
        obtain ⟨⟨x, hx, hpx⟩, hmin⟩ := ih hf
        refine ⟨⟨x, by simpa using hx, hpx⟩, ?_⟩
        intro k y hk hky
        match k with
        | 0 =>
          simp at hky
          cases hky
          simpa using hpc
        | k + 1 =>
          simp at hky
          exact hmin k y (by omega) hky

/-- Generic takeWhile over an append. -/
theorem takeWhile_append_cases (p : Nat → Bool) (u v : List Nat) :
    (u ++ v).takeWhile p =
      (if u.all p then u ++ v.takeWhile p else u.takeWhile p) := by
  induction u with
  | nil => simp
  | cons c r ih =>
    by_cases hc : p c
    · simp [List.takeWhile, List.all_cons, hc, ih]
      split <;> simp
    · simp [List.takeWhile, List.all_cons, hc]

theorem takeWhile_of_all {p : Nat → Bool} {l : List Nat} (h : l.all p) :
    l.takeWhile p = l := by
  induction l with
  | nil => rfl
  | cons c r ih =>
    simp only [List.all_cons, Bool.and_eq_true] at h
    simp [List.takeWhile, h.1, ih h.2]

theorem exists_concat_of_getLast {a : List Nat} {x : Nat}
    (hx : a.getLast? = some x) : ∃ a', a = a' ++ [x] := by
  induction a using List.reverseRecOn with
  | nil => simp at hx
  | append_singleton a' y _ =>
    rw [List.getLast?_concat] at hx
    cases hx
    exact ⟨a', rfl⟩

theorem trailBS_append_last_ne (a b : List Nat) (x : Nat)
    (hx : a.getLast? = some x) (hne : x ≠ 92) : trailBS (a ++ b) = trailBS b := by
  obtain ⟨a', rfl⟩ := exists_concat_of_getLast hx
  unfold trailBS
  rw [List.append_assoc, List.reverse_append, List.reverse_append]
  simp only [List.reverse_cons, List.reverse_nil, List.nil_append, List.reverse_singleton]
  rw [List.append_assoc, List.singleton_append, takeWhile_append_cases]
  have h1 : (x :: a'.reverse).takeWhile (· = 92) = [] := by
    simp only [List.takeWhile]
    have : (decide (x = 92)) = false := by simp [hne]
    rw [this]
  split
  · rename_i hall
    rw [h1, takeWhile_of_all hall]
    simp
  · rfl

theorem getLast?_take_succ {r : List Nat} {m : Nat}
    (h : r[m]? = some 34) : (r.take (m + 1)).getLast? = some 34 := by
  rw [List.take_succ, h]
  simp

theorem isTerm_shift {r : List Nat} {m : Nat} (k : Nat)
    (hq : r[m]? = some 34) :
    (isTerm r (m + 1 + k) ↔ isTerm (r.drop (m + 1)) k) := by
  unfold isTerm
  have h1 : r[m + 1 + k]? = (r.drop (m + 1))[k]? := by
    rw [List.getElem?_drop]
  have h2 : r.take (m + 1 + k) = r.take (m + 1) ++ (r.drop (m + 1)).take k :=
    List.take_add r (m + 1) k
  rw [h1, h2,
      trailBS_append_last_ne (r.take (m + 1)) ((r.drop (m + 1)).take k) 34
        (getLast?_take_succ hq) (by decide)]

theorem quoteScanF_eq_of_no_term (fuel : Nat) :
    ∀ r, (∀ k, ¬ isTerm r k) → quoteScanF fuel r = (r, []) := by
  induction fuel with
  | zero => intro r _; rfl
  | succ n ih =>
    intro r h
    rw [quoteScanF]
    split
    · rfl
    · rename_i m hf
      obtain ⟨⟨x, hx, hpx⟩, _⟩ := firstIdx_some hf
      have hx34 : r[m]? = some 34 := by
        rw [hx]; simp at hpx; rw [hpx]
      split
      · rename_i hpar
        exact absurd ⟨hx34, hpar⟩ (h m)
      · have hdrop : ∀ k, ¬ isTerm (r.drop (m + 1)) k := by
          intro k hk
          exact h (m + 1 + k) ((isTerm_shift k hx34).mpr hk)
        simp only [ih _ hdrop]
        rw [List.take_append_drop]

theorem quoteScan_eq_of_no_term {r : List Nat}
    (h : ∀ k, ¬ isTerm r k) : quoteScan r = (r, []) :=
  quoteScanF_eq_of_no_term _ r h

theorem quoteScanF_eq_of_first_term (fuel : Nat) :
    ∀ r m, m < fuel → isTerm r m → (∀ k, k < m → ¬ isTerm r k) →
      quoteScanF fuel r = (r.take (m + 1), r.drop (m + 1)) := by
  induction fuel with
  | zero => intro r m hm; exact absurd hm (Nat.not_lt_zero m)
  | succ n ih =>
    intro r m hfuel ht hmin
    rw [quoteScanF]
    split
    · rename_i hf
      exfalso
      have := firstIdx_none hf m 34 ht.1
      simp at this
    · rename_i m0 hf
      obtain ⟨⟨x, hx, hpx⟩, hno⟩ := firstIdx_some hf
      have hx34 : r[m0]? = some 34 := by
        rw [hx]; simp at hpx; rw [hpx]
      have hge : m0 ≤ m := by
        by_contra hlt
        have := hno m 34 (by omega) ht.1
        simp at this
      split
      · rename_i hpar
        have heq : m = m0 := by
          rcases Nat.eq_or_lt_of_le hge with h | h
          · exact h.symm
          · exact absurd ⟨hx34, hpar⟩ (hmin m0 h)
        rw [heq]
      · rename_i hpar
        have hgt : m0 < m := by
          rcases Nat.eq_or_lt_of_le hge with h | h
          · exfalso; subst h; exact hpar ht.2
          · exact h
        obtain ⟨k, rfl⟩ : ∃ k, m = m0 + 1 + k := ⟨m - (m0 + 1), by omega⟩
        have htd : isTerm (r.drop (m0 + 1)) k := (isTerm_shift k hx34).mp ht
        have hmind : ∀ k', k' < k → ¬ isTerm (r.drop (m0 + 1)) k' := by
          intro k' hk' hterm
          exact hmin (m0 + 1 + k') (by omega) ((isTerm_shift k' hx34).mpr hterm)
        simp only [ih _ k (by omega) htd hmind]
        rw [← List.take_add, List.drop_drop]
        have e1 : m0 + 1 + (k + 1) = m0 + 1 + k + 1 := by omega
        rw [e1]

theorem quoteScan_eq_of_first_term {r : List Nat} {m : Nat}
    (ht : isTerm r m) (hmin : ∀ k, k < m → ¬ isTerm r k) :
    quoteScan r = (r.take (m + 1), r.drop (m + 1)) := by
  have hm : m < r.length := by
    have := ht.1
    exact (List.getElem?_eq_some.mp this).1
  exact quoteScanF_eq_of_first_term _ r m (by omega) ht hmin

/-! ### Number validation -/

/-- ASCII decimal digit. -/
def isDigit (c : Nat) : Bool := 48 ≤ c && c ≤ 57

/-- Consume one or more digits; none if the list does not start with a digit. -/
def digitsRest : List Nat → Option (List Nat)
  | c :: r => if isDigit c then some (r.dropWhile isDigit) else none
  | [] => none

/-- Integer part after the first digit c: a leading zero must stand alone. -/
def intRest (c : Nat) (r : List Nat) : Option (List Nat) :=
  if c = 48 then
    match r with
    | d :: _ => if isDigit d then none else some r
    | [] => some []
  else if isDigit c then some (r.dropWhile isDigit)
  else none

/-- Optional fraction: a decimal point must be followed by at least one digit. -/
def fracRest : List Nat → Option (List Nat)
  | 46 :: r => digitsRest r
  | t => some t

/-- Optional exponent: e or E, an optional sign, then at least one digit. -/
def expRest : List Nat → Option (List Nat)
  | c :: r =>
    if c = 101 || c = 69 then
      match r with
      | s :: r' => if s = 43 || s = 45 then digitsRest r' else digitsRest r
      | [] => none
    else some (c :: r)
  | [] => some []

/-- Modelled from the spec: validNumber is called by Parse (src/parse.go line
137) but its definition is not under src.  Per the spec a number token must
match the standard JSON grammar: an optional minus sign, an integer part with
no leading zeros, an optional fraction with at least one digit (no bare
trailing decimal point), and an optional exponent with at least one digit. -/
def validNumber (t : List Nat) : Bool :=
  let t1 := match t with
    | 45 :: r => r
    | r => r
  match t1 with
  | [] => false
  | c :: r =>
    match intRest c r with
    | none => false
    | some r1 =>
      match fracRest r1 with
      | none => false
      | some r2 =>
        match expRest r2 with
        | none => false
        | some r3 => r3.isEmpty

/-! ### String unquoting (src/unquote.go) -/

/-- Value of one ASCII hex digit. -/
def hexDigit (c : Nat) : Option Nat :=
  if 48 ≤ c && c ≤ 57 then some (c - 48)
  else if 97 ≤ c && c ≤ 102 then some (c - 87)
  else if 65 ≤ c && c ≤ 70 then some (c - 55)
  else none

/-- Value of a four-digit hex sequence (strconv.ParseUint with base 16). -/
def hex4 (a b c d : Nat) : Option Nat :=
  match hexDigit a, hexDigit b, hexDigit c, hexDigit d with
  | some x, some y, some z, some w => some (((x * 16 + y) * 16 + z) * 16 + w)
  | _, _, _, _ => none

/-- UTF-8 encoding of a code point (utf8.AppendRune for valid runes). -/
def utf8Encode (n : Nat) : List Nat :=
  if n < 128 then [n]
  else if n < 2048 then [192 + n / 64, 128 + n % 64]
  else if n < 65536 then [224 + n / 4096, 128 + n / 64 % 64, 128 + n % 64]
  else [240 + n / 262144, 128 + n / 4096 % 64, 128 + n / 64 % 64, 128 + n % 64]

/-- The byte following a backslash escapes a single character. -/
def simpleEsc (c : Nat) : Option Nat :=
  if c = 34 then some 34
  else if c = 92 then some 92
  else if c = 47 then some 47
  else if c = 98 then some 8
  else if c = 102 then some 12
  else if c = 110 then some 10
  else if c = 114 then some 13
  else if c = 116 then some 9
  else none

/-- AppendUnquote's main loop (src/unquote.go lines 41-108) over the string
body s (quotes already stripped), with accumulator b: copy bytes up to the
next backslash, then decode one escape sequence, validating \\uXXXX escapes
and UTF-16 surrogate pairs.  none models returning an error. -/
def appendUnqF : Nat → List Nat → List Nat → Option (List Nat)
  | 0, _, _ => none
  | fuel + 1, b, s =>
    match firstIdx (· = 92) s with
    | none => some (b ++ s)
    | some i =>
      if s.length ≤ i + 1 then none
      else
        match simpleEsc (s.getD (i + 1) 0) with
        | some e => appendUnqF fuel (b ++ s.take i ++ [e]) (s.drop (i + 2))
        | none =>
          if s.getD (i + 1) 0 = 117 then
            if s.length < i + 6 then none
            else
              match hex4 (s.getD (i + 2) 0) (s.getD (i + 3) 0) (s.getD (i + 4) 0) (s.getD (i + 5) 0) with
              | none => none
              | some r1 =>
                if 55296 ≤ r1 && r1 ≤ 57343 then
                  if 56320 ≤ r1 then none
                  else if s.length < i + 12 then none
                  else if s.getD (i + 6) 0 ≠ 92 then none
                  else if s.getD (i + 7) 0 ≠ 117 then none
                  else
                    match hex4 (s.getD (i + 8) 0) (s.getD (i + 9) 0) (s.getD (i + 10) 0) (s.getD (i + 11) 0) with
                    | none => none
                    | some r2 =>
                      if r2 < 56320 || 57343 < r2 then none
                      else appendUnqF fuel (b ++ s.take i ++ utf8Encode (65536 + (r1 - 55296) * 1024 + (r2 - 56320))) (s.drop (i + 12))
                else appendUnqF fuel (b ++ s.take i ++ utf8Encode r1) (s.drop (i + 6))
          else none

def appendUnq (b : List Nat) (s : List Nat) : Option (List Nat) :=
  appendUnqF (s.length + 1) b s

/-- The wrapper check of Unquote and AppendUnquote: the input must be at least
two bytes long and start and end with a quote character. -/
def wrapped (s : List Nat) : Bool :=
  2 ≤ s.length && s.head? = some 34 && s.getLast? = some 34

/-- The body of a wrapped string literal: the bytes between the quotes. -/
def strBody (s : List Nat) : List Nat :=
  (s.drop 1).dropLast

/-- AppendUnquote (src/unquote.go): reject unwrapped input, then run the
unquoting loop on the body. -/
def appendUnquote (b s : List Nat) : Option (List Nat) :=
  if wrapped s then appendUnq b (strBody s) else none

/-- Unquote (src/unquote.go): reject unwrapped input; if the input contains no
backslash return the body unchanged, otherwise run AppendUnquote on an empty
buffer. -/
def unquote (s : List Nat) : Option (List Nat) :=
  if wrapped s then
    if firstIdx (· = 92) s = none then some (strBody s)
    else appendUnq [] (strBody s)
  else none

/-! ### The Value model (src/value.go)

A Value is a tagged union.  Scalars borrow their raw token text; String
values store the raw quoted token (including both quote characters); Array
and Object additionally carry the cached raw JSON span of the whole
container, which src/value.go keeps as a phantom first element and the spec
recommends modelling as a dedicated field.  Object fields pair the unquoted
key with the field value. -/

inductive JVal where
  | jnull : JVal
  | jtrue : JVal
  | jfalse : JVal
  | jnum (raw : List Nat) : JVal
  | jstr (raw : List Nat) : JVal
  | jarr (cached : List Nat) (elems : List JVal) : JVal
  | jobj (cached : List Nat) (fields : List (List Nat × JVal)) : JVal
  deriving Repr

def nullTok : List Nat := [110, 117, 108, 108]
def trueTok : List Nat := [116, 114, 117, 101]
def falseTok : List Nat := [102, 97, 108, 115, 101]

/-- Value.Append (src/value.go lines 485-494) on an empty buffer: scalars
emit their raw token text and containers emit their cached raw JSON span. -/
def JVal.appendV : JVal → List Nat
  | .jnull => nullTok
  | .jtrue => trueTok
  | .jfalse => falseTok
  | .jnum raw => raw
  | .jstr raw => raw
  | .jarr cached _ => cached
  | .jobj cached _ => cached

/-- Modelled from the spec: AppendQuote is called by Value.Compact
(src/value.go line 521) but its definition is not under src.  Per the spec the
quoting primitive escapes the quote and backslash characters and the named
control characters with short forms, escapes the remaining control characters
below 0x20 as a four-digit unicode escape, and leaves other bytes unescaped. -/
def escNat (c : Nat) : List Nat :=
  if c = 34 then [92, 34]
  else if c = 92 then [92, 92]
  else if c = 8 then [92, 98]
  else if c = 12 then [92, 102]
  else if c = 10 then [92, 110]
  else if c = 13 then [92, 114]
  else if c = 9 then [92, 116]
  else if c < 32 then
    [92, 117, 48, 48, (if c / 16 < 10 then 48 + c / 16 else 87 + c / 16),
      (if c % 16 < 10 then 48 + c % 16 else 87 + c % 16)]
  else [c]

/-- AppendQuote on an empty buffer: a quote, the escaped bytes, a quote. -/
def appendQuote (k : List Nat) : List Nat :=
  34 :: (k.map escNat).flatten ++ [34]

mutual

/-- Value.Compact (src/value.go lines 499-528) on an empty buffer: scalars
emit their raw token text; containers are rebuilt recursively with no
whitespace, requoting the object keys. -/
def JVal.compactV : JVal → List Nat
  | .jnull => nullTok
  | .jtrue => trueTok
  | .jfalse => falseTok
  | .jnum raw => raw
  | .jstr raw => raw
  | .jarr _ elems => 91 :: compactElems elems ++ [93]
  | .jobj _ fields => 123 :: compactFields fields ++ [125]

def compactElems : List JVal → List Nat
  | [] => []
  | [v] => v.compactV
  | v :: rest => v.compactV ++ 44 :: compactElems rest

def compactFields : List (List Nat × JVal) → List Nat
  | [] => []
  | [f] => appendQuote f.1 ++ 58 :: f.2.compactV
  | f :: rest => appendQuote f.1 ++ 58 :: f.2.compactV ++ 44 :: compactFields rest

end

/-! ### Key ordering and field sorting -/

/-- strings.Compare as a byte-lexicographic less-than test. -/
def lexLt : List Nat → List Nat → Bool
  | [], [] => false
  | [], _ :: _ => true
  | _ :: _, [] => false
  | x :: xs, y :: ys => if x < y then true else if y < x then false else lexLt xs ys

/-- Nat-lexicographic at-most test. -/
def lexLe (a b : List Nat) : Bool := !lexLt b a

/-- Insert one field into an already sorted run of fields, before the first
field whose key is not smaller (so equal keys keep their relative order). -/
def insertField (f : List Nat × JVal) : List (List Nat × JVal) → List (List Nat × JVal)
  | [] => [f]
  | g :: t => if lexLt g.1 f.1 then g :: insertField f t else f :: g :: t

/-- slices.SortFunc with the byte-lexicographic key comparator, modelled as an
insertion sort: the output is sorted by key and is a permutation of the
input. -/
def sortFields (l : List (List Nat × JVal)) : List (List Nat × JVal) :=
  l.foldr insertField []

/-! ### Field lookup (src/value.go lines 190-210) -/

/-- The loop of slices.BinarySearchFunc: lower-bound search on the half-open
interval i..j. -/
def bsLoopF : Nat → List (List Nat × JVal) → List Nat → Nat → Nat → Nat
  | 0, _, _, i, _ => i
  | fuel + 1, fs, k, i, j =>
    if i < j then
      let m := (i + j) / 2
      if lexLt ((fs.getD m ([], .jnull)).1) k then bsLoopF fuel fs k (m + 1) j
      else bsLoopF fuel fs k i m
    else i

def bsLoop (fs : List (List Nat × JVal)) (k : List Nat) (i j : Nat) : Nat :=
  bsLoopF (j - i) fs k i j

/-- Value.Lookup on the field list of an object: a linear scan when there are
at most 16 fields, otherwise a binary search with the byte-lexicographic key
comparator; nil is modelled as none. -/
def lookupFields (fs : List (List Nat × JVal)) (k : List Nat) : Option JVal :=
  if fs.length ≤ 16 then
    (fs.find? (fun f => f.1 = k)).map (·.2)
  else
    let i := bsLoop fs k 0 fs.length
    match fs[i]? with
    | some f => if f.1 = k then some f.2 else none
    | none => none

/-! ### The parser (src/parse.go), with the cached raw spans of src/value.go.

src/parse.go under src is an earlier revision that predates the cached-span
representation assumed by src/value.go (whose Len, Lookup, Append and
iteration all skip a phantom first element holding the raw JSON of the
container).  The parser below follows src/parse.go's grammar and control flow
exactly, and is additionally faithful to the spec and src/value.go in the two
points the src revision of parse.go predates: a String value borrows the raw
quoted token, and a container value records its raw JSON span (from its
opening bracket to its matching closing bracket). -/

inductive PErr where
  | endOfObject (rest : List Nat) : PErr
  | endOfArray (rest : List Nat) : PErr
  | unexpectedEndOfObject : PErr
  | unexpectedEndOfArray : PErr
  | invalidToken (t : List Nat) : PErr
  | invalidNumber (t : List Nat) : PErr
  | invalidKey (t : List Nat) : PErr
  | expectedCommaOrBracket (t : List Nat) : PErr
  | expectedCommaOrBrace (t : List Nat) : PErr
  | expectedColon (k t : List Nat) : PErr
  | unexpectedBracketAfterComma : PErr
  | keyCtx (k : List Nat) (e : PErr) : PErr
  | trailing (t : List Nat) : PErr
  | outOfFuel : PErr
  deriving DecidableEq, Repr

/-- The consumed span: the prefix of start that remains before rest. -/
def spanOf (start rest : List Nat) : List Nat :=
  start.take (start.length - rest.length)

mutual

/-- parseTokens / parseValue: dispatch on the first byte of the next token. -/
def parseValueF : Nat → List Nat → Except PErr (JVal × List Nat)
  | 0, _ => .error .outOfFuel
  | fuel + 1, s =>
    match nextTok s with
    | none => .error .unexpectedEndOfObject
    | some (tok, rest) =>
      match tok.head? with
      | some 110 => if tok = nullTok then .ok (.jnull, rest) else .error (.invalidToken tok)
      | some 116 => if tok = trueTok then .ok (.jtrue, rest) else .error (.invalidToken tok)
      | some 102 => if tok = falseTok then .ok (.jfalse, rest) else .error (.invalidToken tok)
      | some 34 =>
        match unquote tok with
        | some _ => .ok (.jstr tok, rest)
        | none => .error (.invalidToken tok)
      | some 91 => parseArrF fuel (tok ++ rest) rest []
      | some 123 => parseObjF fuel (tok ++ rest) rest []
      | some 93 => .error (.endOfArray rest)
      | some 125 => .error (.endOfObject rest)
      | some c =>
        if c = 45 ∨ (48 ≤ c ∧ c ≤ 57) then
          if validNumber tok then .ok (.jnum tok, rest) else .error (.invalidNumber tok)
        else .error (.invalidToken tok)
      | none => .error (.invalidToken tok)

/-- parseArray's loop: acc holds the elements parsed so far (acc is empty
exactly when the loop counter i is zero). -/
def parseArrF : Nat → List Nat → List Nat → List JVal → Except PErr (JVal × List Nat)
  | 0, _, _, _ => .error .outOfFuel
  | fuel + 1, start, json, acc =>
    if acc.isEmpty then
      match parseValueF fuel json with
      | .error (.endOfArray rest) => .ok (.jarr (spanOf start rest) [], rest)
      | .error e => .error e
      | .ok (v, rest) => parseArrF fuel start rest (acc ++ [v])
    else
      match nextTok json with
      | none => .error .unexpectedEndOfArray
      | some (tok, rest) =>
        if tok = [93] then .ok (.jarr (spanOf start rest) acc, rest)
        else if tok = [44] then
          match parseValueF fuel rest with
          | .error (.endOfArray _) => .error .unexpectedBracketAfterComma
          | .error e => .error e
          | .ok (v, rest2) => parseArrF fuel start rest2 (acc ++ [v])
        else .error (.expectedCommaOrBracket tok)

/-- parseObject's loop: read a token; a closing brace ends the object (fields
are then sorted by key); otherwise after the first iteration a comma is
required before the next key token. -/
def parseObjF : Nat → List Nat → List Nat → List (List Nat × JVal) → Except PErr (JVal × List Nat)
  | 0, _, _, _ => .error .outOfFuel
  | fuel + 1, start, json, acc =>
    match nextTok json with
    | none => .error .unexpectedEndOfObject
    | some (tok, rest) =>
      if tok = [125] then .ok (.jobj (spanOf start rest) (sortFields acc), rest)
      else if acc.isEmpty then parseFieldF fuel start tok rest acc
      else if tok = [44] then
        match nextTok rest with
        | none => .error .unexpectedEndOfObject
        | some (tok2, rest2) => parseFieldF fuel start tok2 rest2 acc
      else .error (.expectedCommaOrBrace tok)

/-- One object field: unquote the key token, require a colon, parse the value
(wrapping its errors with the key context), then continue the object loop. -/
def parseFieldF : Nat → List Nat → List Nat → List Nat → List (List Nat × JVal) → Except PErr (JVal × List Nat)
  | 0, _, _, _, _ => .error .outOfFuel
  | fuel + 1, start, keyTok, json, acc =>
    match unquote keyTok with
    | none => .error (.invalidKey keyTok)
    | some key =>
      match nextTok json with
      | none => .error .unexpectedEndOfObject
      | some (tok, rest) =>
        if tok = [58] then
          match parseValueF fuel rest with
          | .ok (v, rest2) => parseObjF fuel start rest2 (acc ++ [(key, v)])
          | .error e => .error (.keyCtx key e)
        else .error (.expectedColon key tok)

end

/-- Parse (src/parse.go lines 88-99): parse a root value, then fail if any
token remains in the stream. -/
def ParseJ (s : List Nat) : Except PErr JVal :=
  match parseValueF (s.length + 1) s with
  | .error e => .error e
  | .ok (v, rest) =>
    match nextTok rest with
    | some (t, _) => .error (.trailing t)
    | none => .ok v

/-! ### Basic parser facts: the remainder is a suffix of the input -/

theorem nextTok_suffix {s t r : List Nat} (h : nextTok s = some (t, r)) :
    r <:+ s := by
  obtain ⟨w, hw, _⟩ := nextTok_split h
  exact ⟨w ++ t, by rw [hw, List.append_assoc]⟩

/-- Every remainder a parse function can hand back — in a success or inside
an end-of-array or end-of-object signal — is a suffix of the input it was
given. -/
def RestOk (s : List Nat) : Except PErr (JVal × List Nat) → Prop
  | .ok (_, rest) => rest <:+ s
  | .error (.endOfArray rest) => rest <:+ s
  | .error (.endOfObject rest) => rest <:+ s
  | .error _ => True

theorem RestOk.mono {s' s : List Nat} {res : Except PErr (JVal × List Nat)}
    (h : RestOk s' res) (hs : s' <:+ s) : RestOk s res := by
  match res with
  | .ok (v, rest) => exact List.IsSuffix.trans h hs
  | .error (.endOfArray rest) => exact List.IsSuffix.trans h hs
  | .error (.endOfObject rest) => exact List.IsSuffix.trans h hs
  | .error (.unexpectedEndOfObject) => trivial
  | .error (.unexpectedEndOfArray) => trivial
  | .error (.invalidToken _) => trivial
  | .error (.invalidNumber _) => trivial
  | .error (.invalidKey _) => trivial
  | .error (.expectedCommaOrBracket _) => trivial
  | .error (.expectedCommaOrBrace _) => trivial
  | .error (.expectedColon _ _) => trivial
  | .error (.unexpectedBracketAfterComma) => trivial
  | .error (.keyCtx _ _) => trivial
  | .error (.trailing _) => trivial
  | .error (.outOfFuel) => trivial

theorem parse_restOk (fuel : Nat) :
    (∀ s, RestOk s (parseValueF fuel s)) ∧
    (∀ start json acc, RestOk json (parseArrF fuel start json acc)) ∧
    (∀ start json acc, RestOk json (parseObjF fuel start json acc)) ∧
    (∀ start keyTok json acc, RestOk json (parseFieldF fuel start keyTok json acc)) := by
  induction fuel with
  | zero =>
    refine ⟨?_, ?_, ?_, ?_⟩
    · intro s; rw [parseValueF]; trivial
    · intro start json acc; rw [parseArrF]; trivial
    · intro start json acc; rw [parseObjF]; trivial
    · intro start keyTok json acc
      rw [parseFieldF]
      trivial
  | succ n ih =>
    obtain ⟨ihV, ihA, ihO, ihF⟩ := ih
    have hV : ∀ s, RestOk s (parseValueF (n + 1) s) := by
      intro s
      rw [parseValueF]
      split
      · trivial
      · rename_i tok rest0 htok
        have hsuf : rest0 <:+ s := nextTok_suffix htok
        split
        · split
          · exact hsuf
          · trivial
        · split
          · exact hsuf
          · trivial
        · split
          · exact hsuf
          · trivial
        · split
          · exact hsuf
          · trivial
        · exact (ihA _ _ _).mono hsuf
        · exact (ihO _ _ _).mono hsuf
        · exact hsuf
        · exact hsuf
        · split
          · split
            · exact hsuf
            · trivial
          · trivial
        · trivial
    have hA : ∀ start json acc, RestOk json (parseArrF (n + 1) start json acc) := by
      intro start json acc
      rw [parseArrF]
      split
      · split
        · rename_i rest heq
          have h0 := ihV json
          rw [heq] at h0
          exact h0
        · rename_i e hno heq
          have h0 := ihV json
          rw [heq] at h0
          exact h0
        · rename_i v rest heq
          have h0 := ihV json
          rw [heq] at h0
          exact (ihA _ _ _).mono h0
      · split
        · trivial
        · rename_i tok rest htok
          have hsuf : rest <:+ json := nextTok_suffix htok
          split
          · exact hsuf
          · split
            · split
              · trivial
              · rename_i e hno heq
                have h0 := ihV rest
                rw [heq] at h0
                exact h0.mono hsuf
              · rename_i v rest2 heq
                have h0 := ihV rest
                rw [heq] at h0
                exact (ihA _ _ _).mono (List.IsSuffix.trans h0 hsuf)
            · trivial
    have hO : ∀ start json acc, RestOk json (parseObjF (n + 1) start json acc) := by
      intro start json acc
      rw [parseObjF]
      split
      · trivial
      · rename_i tok rest htok
        have hsuf : rest <:+ json := nextTok_suffix htok
        split
        · exact hsuf
        · split
          · exact (ihF _ _ _ _).mono hsuf
          · split
            · split
              · trivial
              · rename_i tok2 rest2 htok2
                exact (ihF _ _ _ _).mono ((nextTok_suffix htok2).trans hsuf)
            · trivial
    have hF : ∀ start keyTok json acc, RestOk json (parseFieldF (n + 1) start keyTok json acc) := by
      intro start keyTok json acc
      rw [parseFieldF]
      split
      · trivial
      · split
        · trivial
        · rename_i tok rest htok
          have hsuf : rest <:+ json := nextTok_suffix htok
          split
          · split
            · rename_i v rest2 heq
              have h0 := ihV rest
              rw [heq] at h0
              exact (ihO _ _ _).mono (List.IsSuffix.trans h0 hsuf)
            · trivial
          · trivial
    exact ⟨hV, hA, hO, hF⟩

theorem parseValueF_rest_suffix {fuel : Nat} {s v rest} (h : parseValueF fuel s = .ok (v, rest)) :
    rest <:+ s := by
  have h0 := (parse_restOk fuel).1 s
  rw [h] at h0
  exact h0

theorem parseArrF_rest_suffix {fuel : Nat} {start json acc v rest}
    (h : parseArrF fuel start json acc = .ok (v, rest)) : rest <:+ json := by
  have h0 := (parse_restOk fuel).2.1 start json acc
  rw [h] at h0
  exact h0

theorem parseObjF_rest_suffix {fuel : Nat} {start json acc v rest}
    (h : parseObjF fuel start json acc = .ok (v, rest)) : rest <:+ json := by
  have h0 := (parse_restOk fuel).2.2.1 start json acc
  rw [h] at h0
  exact h0

/-- spanOf recovers the consumed prefix. -/
theorem spanOf_append (q rest : List Nat) : spanOf (q ++ rest) rest = q := by
  unfold spanOf
  have : (q ++ rest).length - rest.length = q.length := by
    simp [List.length_append]
  rw [this]
  exact List.take_left q rest

/-- Every successful parseArrF result is an array carrying the span consumed
from start. -/
theorem parseArrF_shape : ∀ (fuel : Nat) {start json acc v rest},
    parseArrF fuel start json acc = .ok (v, rest) →
    ∃ elems, v = .jarr (spanOf start rest) elems := by
  intro fuel
  induction fuel with
  | zero => intro start json acc v rest h; rw [parseArrF] at h; cases h
  | succ n ih =>
    intro start json acc v rest h
    rw [parseArrF] at h
    split at h
    · split at h
      · simp only [Except.ok.injEq, Prod.mk.injEq] at h
        obtain ⟨h1, h2⟩ := h
        subst h2
        exact ⟨[], h1.symm⟩
      · cases h
      · exact ih h
    · split at h
      · cases h
      · split at h
        · simp only [Except.ok.injEq, Prod.mk.injEq] at h
          obtain ⟨h1, h2⟩ := h
          subst h2
          exact ⟨_, h1.symm⟩
        · split at h
          · split at h
            · cases h
            · cases h
            · exact ih h
          · cases h

/-- Every successful parseObjF or parseFieldF result is an object carrying the
span consumed from start, with sorted fields produced by sortFields. -/
def ObjShapeAt (fuel : Nat) : Prop :=
  (∀ start json acc v rest, parseObjF fuel start json acc = .ok (v, rest) →
    ∃ fields, v = .jobj (spanOf start rest) (sortFields fields)) ∧
  (∀ start keyTok json acc v rest, parseFieldF fuel start keyTok json acc = .ok (v, rest) →
    ∃ fields, v = .jobj (spanOf start rest) (sortFields fields))

theorem objShapeAt (fuel : Nat) : ObjShapeAt fuel := by
  induction fuel with
  | zero =>
    constructor
    · intro start json acc v rest h; rw [parseObjF] at h; cases h
    · intro start keyTok json acc v rest h
      rw [parseFieldF] at h
      cases h
  | succ n ih =>
    obtain ⟨ihO, ihF⟩ := ih
    have hO : ∀ start json acc v rest, parseObjF (n + 1) start json acc = .ok (v, rest) →
        ∃ fields, v = .jobj (spanOf start rest) (sortFields fields) := by
      intro start json acc v rest h
      rw [parseObjF] at h
      split at h
      · cases h
      · split at h
        · simp only [Except.ok.injEq, Prod.mk.injEq] at h
          obtain ⟨h1, h2⟩ := h
          subst h2
          exact ⟨acc, h1.symm⟩
        · split at h
          · exact ihF _ _ _ _ _ _ h
          · split at h
            · split at h
              · cases h
              · exact ihF _ _ _ _ _ _ h
            · cases h
    have hF : ∀ start keyTok json acc v rest, parseFieldF (n + 1) start keyTok json acc = .ok (v, rest) →
        ∃ fields, v = .jobj (spanOf start rest) (sortFields fields) := by
      intro start keyTok json acc v rest h
      rw [parseFieldF] at h
      split at h
      · cases h
      · split at h
        · cases h
        · split at h
          · split at h
            · exact ihO _ _ _ _ _ h
            · cases h
          · cases h
    exact ⟨hO, hF⟩

/-- Success of a parse reproduces the whitespace-trimmed input: the appended
raw form of the value followed by the unconsumed remainder is exactly the
input with its leading whitespace removed. -/
theorem parse_append {fuel : Nat} {s : List Nat} {v : JVal} {rest : List Nat}
    (h : parseValueF fuel s = .ok (v, rest)) :
    v.appendV ++ rest = s.dropWhile isWS := by
  match fuel with
  | 0 => rw [parseValueF] at h; cases h
  | n + 1 =>
    rw [parseValueF] at h
    split at h
    · cases h
    · rename_i tok rest0 htok
      have happ : tok ++ rest0 = s.dropWhile isWS := nextTok_append htok
      split at h
      · split at h
        · rename_i hcond
          simp only [Except.ok.injEq, Prod.mk.injEq] at h
          obtain ⟨h1, h2⟩ := h
          subst h2
          rw [← h1]
          simpa [JVal.appendV, ← hcond] using happ
        · cases h
      · split at h
        · rename_i hcond
          simp only [Except.ok.injEq, Prod.mk.injEq] at h
          obtain ⟨h1, h2⟩ := h
          subst h2
          rw [← h1]
          simpa [JVal.appendV, ← hcond] using happ
        · cases h
      · split at h
        · rename_i hcond
          simp only [Except.ok.injEq, Prod.mk.injEq] at h
          obtain ⟨h1, h2⟩ := h
          subst h2
          rw [← h1]
          simpa [JVal.appendV, ← hcond] using happ
        · cases h
      · split at h
        · simp only [Except.ok.injEq, Prod.mk.injEq] at h
          obtain ⟨h1, h2⟩ := h
          subst h2
          rw [← h1]
          simpa [JVal.appendV] using happ
        · cases h
      · -- array
        obtain ⟨elems, hv⟩ := parseArrF_shape n h
        obtain ⟨p, hp⟩ := parseArrF_rest_suffix h
        subst hv
        rw [show (JVal.jarr (spanOf (tok ++ rest0) rest) elems).appendV
              = spanOf (tok ++ rest0) rest from rfl]
        rw [← hp, ← List.append_assoc, spanOf_append, List.append_assoc, hp]
        exact happ
      · -- object
        obtain ⟨fields, hv⟩ := (objShapeAt n).1 _ _ _ _ _ h
        obtain ⟨p, hp⟩ := parseObjF_rest_suffix h
        subst hv
        rw [show (JVal.jobj (spanOf (tok ++ rest0) rest) (sortFields fields)).appendV
              = spanOf (tok ++ rest0) rest from rfl]
        rw [← hp, ← List.append_assoc, spanOf_append, List.append_assoc, hp]
        exact happ
      · cases h
      · cases h
      · split at h
        · split at h
          · simp only [Except.ok.injEq, Prod.mk.injEq] at h
            obtain ⟨h1, h2⟩ := h
            subst h2
            rw [← h1]
            simpa [JVal.appendV] using happ
          · cases h
        · cases h
      · cases h

/-! ### Token stream totality -/

/-- The full token stream of an input: repeated calls to the tokenizer until
it reports no more tokens.  Total for arbitrary input by strict progress. -/
def tokenList (s : List Nat) : List (List Nat) :=
  match h : nextTok s with
  | none => []
  | some (t, r) => t :: tokenList r
termination_by s.length
decreasing_by exact nextTok_progress h

theorem tokenList_length_le (s : List Nat) : (tokenList s).length ≤ s.length := by
  induction s using tokenList.induct with
  | case1 s h =>
    rw [tokenList.eq_def]
    split
    · simp
    · rename_i t r hm; rw [h] at hm; cases hm
  | case2 s t r h ih =>
    rw [tokenList.eq_def]
    split
    · simp
    · rename_i t' r' hm
      rw [h] at hm
      cases hm
      have := nextTok_progress h
      simp only [List.length_cons]
      omega

/-- C10: Tokenizer.Next is total and makes strict progress: whenever it
returns a token, the token is non-empty and the remaining input is strictly
shorter (so the cursor offset strictly increases); it returns no token
exactly when the input is exhausted or only whitespace remains; hence
repeatedly calling Next on any finite input, valid or not, terminates after
finitely many tokens — at most one per input byte. -/
theorem c10_tokenizer_total_progress (s : List Nat) :
    (∀ t r, nextTok s = some (t, r) → t ≠ [] ∧ r.length < s.length) ∧
    (nextTok s = none ↔ s.dropWhile isWS = []) ∧
    (tokenList s).length ≤ s.length := by
  refine ⟨?_, nextTok_none_iff s, tokenList_length_le s⟩
  intro t r h
  exact ⟨nextTok_token_ne_nil h, nextTok_progress h⟩

/-- Witness for C10 at the concrete input " 42": the tokenizer returns the
non-empty token "42" and consumes the whole input. -/
theorem c10_tokenizer_total_progress_witness :
    ([52, 50] : List Nat) ≠ [] ∧ ([] : List Nat).length < ([32, 52, 50] : List Nat).length :=
  (c10_tokenizer_total_progress [32, 52, 50]).1 [52, 50] [] (by decide)

/-- C7: whenever the root value parses successfully but at least one
non-whitespace byte (hence at least one token) remains in the stream, Parse
returns the trailing-content error rather than silently ignoring it. -/
theorem c7_trailing_content_error (s : List Nat) (v : JVal) (rest : List Nat)
    (hok : parseValueF (s.length + 1) s = .ok (v, rest))
    (hrem : rest.dropWhile isWS ≠ []) :
    ∃ t, ParseJ s = .error (.trailing t) := by
  unfold ParseJ
  rw [hok]
  match hn : nextTok rest with
  | none => exact absurd ((nextTok_none_iff rest).mp hn) hrem
  | some (t, r) =>
    refine ⟨t, ?_⟩
    simp only [hn]

/-- Witness for C7 at the concrete input "1 2": the root value 1 parses and
the trailing 2 makes Parse fail. -/
theorem c7_trailing_content_error_witness :
    ∃ t, ParseJ [49, 32, 50] = .error (.trailing t) :=
  c7_trailing_content_error [49, 32, 50] (.jnum [49]) [32, 50] (by rfl) (by decide)

/-- C9: when the next token begins with a quote character, the returned token
extends from the opening quote through the first subsequent quote that is
preceded by an even number of consecutive backslashes, inclusive, with no
decoding of escapes; a quote preceded by an odd number of backslashes does
not terminate the token (it is not a terminator position, so the scan
continues past it). -/
theorem c9_string_token_scan (s b : List Nat) (m : Nat)
    (hd : s.dropWhile isWS = 34 :: b)
    (ht : isTerm b m) (hmin : ∀ k, k < m → ¬ isTerm b k) :
    nextTok s = some (34 :: b.take (m + 1), b.drop (m + 1)) := by
  unfold nextTok
  rw [hd]
  show some (tokAt 34 b) = _
  unfold tokAt
  rw [if_pos rfl, quoteScan_eq_of_first_term ht hmin]

/-- Witness for C9 at the concrete literal "a\"b" followed by ",1": the scan
skips the backslash-escaped quote at body position 2 (one preceding
backslash, odd) and ends at body position 4 (no preceding backslash, even),
leaving the rest of the input untouched. -/
theorem c9_string_token_scan_witness :
    nextTok [34, 97, 92, 34, 98, 34, 44, 49]
      = some (34 :: ([97, 92, 34, 98, 34, 44, 49] : List Nat).take 5,
              ([97, 92, 34, 98, 34, 44, 49] : List Nat).drop 5) :=
  c9_string_token_scan _ _ 4 (by decide) (by decide) (by decide)

/-! ### Nat-lexicographic order facts -/

theorem lexLt_irrefl (a : List Nat) : lexLt a a = false := by
  induction a with
  | nil => rfl
  | cons x xs ih => simp [lexLt, ih]

theorem lexLt_asymm : ∀ {a b : List Nat}, lexLt a b = true → lexLt b a = false := by
  intro a
  induction a with
  | nil =>
    intro b h
    cases b with
    | nil => simp [lexLt] at h
    | cons y ys => simp [lexLt]
  | cons x xs ih =>
    intro b h
    cases b with
    | nil => simp [lexLt] at h
    | cons y ys =>
      simp only [lexLt] at h ⊢
      by_cases h1 : x < y
      · have h2 : ¬ y < x := Nat.lt_asymm h1
        rw [if_neg h2, if_pos h1]
      · rw [if_neg h1] at h
        by_cases h2 : y < x
        · rw [if_pos h2] at h; cases h
        · rw [if_neg h2] at h
          rw [if_neg h2, if_neg h1]
          exact ih h

theorem lexLt_eq_of_not : ∀ {a b : List Nat}, lexLt a b = false → lexLt b a = false → a = b := by
  intro a
  induction a with
  | nil =>
    intro b h1 h2
    cases b with
    | nil => rfl
    | cons y ys => simp [lexLt] at h1
  | cons x xs ih =>
    intro b h1 h2
    cases b with
    | nil => simp [lexLt] at h2
    | cons y ys =>
      simp only [lexLt] at h1 h2
      by_cases hxy : x < y
      · rw [if_pos hxy] at h1; cases h1
      · by_cases hyx : y < x
        · rw [if_pos hyx] at h2; cases h2
        · rw [if_neg hxy, if_neg hyx] at h1
          rw [if_neg hyx, if_neg hxy] at h2
          have hxy' : x = y := Nat.le_antisymm (Nat.le_of_not_lt hyx) (Nat.le_of_not_lt hxy)
          rw [hxy', ih h1 h2]

theorem lexLt_trans : ∀ {a b c : List Nat},
    lexLt a b = true → lexLt b c = true → lexLt a c = true := by
  intro a
  induction a with
  | nil =>
    intro b c h1 h2
    cases b with
    | nil => simp [lexLt] at h1
    | cons y ys =>
      cases c with
      | nil => simp [lexLt] at h2
      | cons z zs => simp [lexLt]
  | cons x xs ih =>
    intro b c h1 h2
    cases b with
    | nil => simp [lexLt] at h1
    | cons y ys =>
      cases c with
      | nil => simp [lexLt] at h2
      | cons z zs =>
        simp only [lexLt] at h1 h2 ⊢
        by_cases hxy : x < y
        · by_cases hyz : y < z
          · have hxz : x < z := Nat.lt_trans hxy hyz
            rw [if_pos hxz]
          · rw [if_neg hyz] at h2
            by_cases hzy : z < y
            · rw [if_pos hzy] at h2; cases h2
            · have hxz : x < z := Nat.lt_of_lt_of_le hxy (Nat.le_of_not_lt hzy)
              rw [if_pos hxz]
        · rw [if_neg hxy] at h1
          by_cases hyx : y < x
          · rw [if_pos hyx] at h1; cases h1
          · rw [if_neg hyx] at h1
            have hxy' : x = y := Nat.le_antisymm (Nat.le_of_not_lt hyx) (Nat.le_of_not_lt hxy)
            by_cases hyz : y < z
            · have hxz : x < z := by rw [hxy']; exact hyz
              rw [if_pos hxz]
            · rw [if_neg hyz] at h2
              by_cases hzy : z < y
              · rw [if_pos hzy] at h2; cases h2
              · rw [if_neg hzy] at h2
                have hxz1 : ¬ x < z := by rw [hxy']; exact hyz
                have hxz2 : ¬ z < x := by rw [hxy']; exact hzy
                rw [if_neg hxz1, if_neg hxz2]
                subst hxy'
                exact ih h1 h2

theorem not_lexLt_iff {a b : List Nat} :
    lexLt a b = false ↔ (a = b ∨ lexLt b a = true) := by
  constructor
  · intro h
    by_cases h2 : lexLt b a = true
    · exact Or.inr h2
    · exact Or.inl (lexLt_eq_of_not h (by simpa using h2))
  · intro h
    rcases h with rfl | h
    · exact lexLt_irrefl a
    · exact lexLt_asymm h

/-! ### Sorting facts -/

/-- The sortedness invariant on an object's field list: pairwise, no later key
is strictly smaller than an earlier one (byte-lexicographic). -/
def fieldsSorted (fs : List (List Nat × JVal)) : Prop :=
  List.Pairwise (fun f g => lexLt g.1 f.1 = false) fs

theorem insertField_mem {f g : List Nat × JVal} :
    ∀ {l : List (List Nat × JVal)}, g ∈ insertField f l ↔ (g = f ∨ g ∈ l) := by
  intro l
  induction l with
  | nil => simp [insertField]
  | cons x t ih =>
    simp only [insertField]
    split
    · simp only [List.mem_cons, ih]
      tauto
    · simp only [List.mem_cons]

theorem insertField_sorted {f : List Nat × JVal} :
    ∀ {l : List (List Nat × JVal)}, fieldsSorted l → fieldsSorted (insertField f l) := by
  intro l
  induction l with
  | nil => intro _; simp [insertField, fieldsSorted]
  | cons g t ih =>
    intro hs
    unfold fieldsSorted at hs
    rw [List.pairwise_cons] at hs
    obtain ⟨hg, ht⟩ := hs
    simp only [insertField]
    split
    · rename_i hlt
      unfold fieldsSorted
      rw [List.pairwise_cons]
      constructor
      · intro x hx
        rw [insertField_mem] at hx
        rcases hx with rfl | hx
        · exact lexLt_asymm hlt
        · exact hg x hx
      · exact ih ht
    · rename_i hnlt
      have hnlt' : lexLt g.1 f.1 = false := by simpa using hnlt
      unfold fieldsSorted
      rw [List.pairwise_cons]
      constructor
      · intro x hx
        rcases List.mem_cons.mp hx with rfl | hx
        · exact hnlt'
        · have hgx : lexLt x.1 g.1 = false := hg x hx
          rcases not_lexLt_iff.mp hgx with heq | hlt2
          · rw [heq]; exact hnlt'
          · rcases not_lexLt_iff.mp hnlt' with heq2 | hlt3
            · rw [heq2] at hlt2
              exact lexLt_asymm hlt2
            · by_cases hc : lexLt x.1 f.1 = true
              · have h4 := lexLt_asymm hlt2
                exact absurd (lexLt_trans hc hlt3) (by simp [h4])
              · simpa using hc
      · rw [List.pairwise_cons]
        exact ⟨hg, ht⟩

theorem insertField_perm (f : List Nat × JVal) :
    ∀ (l : List (List Nat × JVal)), (insertField f l).Perm (f :: l) := by
  intro l
  induction l with
  | nil => simp [insertField]
  | cons g t ih =>
    simp only [insertField]
    split
    · exact (List.Perm.cons g ih).trans (List.Perm.swap f g t)
    · exact List.Perm.refl _

theorem sortFields_sorted (l : List (List Nat × JVal)) : fieldsSorted (sortFields l) := by
  induction l with
  | nil => simp [sortFields, fieldsSorted]
  | cons f t ih => exact insertField_sorted ih

theorem sortFields_perm (l : List (List Nat × JVal)) : (sortFields l).Perm l := by
  induction l with
  | nil => simp [sortFields]
  | cons f t ih =>
    exact (insertField_perm f (sortFields t)).trans (List.Perm.cons f ih)

/-! ### Sortedness of all objects in a parsed tree -/

/-- Every object anywhere in the value tree stores its fields sorted by key. -/
inductive ObjsSorted : JVal → Prop where
  | onull : ObjsSorted .jnull
  | otrue : ObjsSorted .jtrue
  | ofalse : ObjsSorted .jfalse
  | onum (raw : List Nat) : ObjsSorted (.jnum raw)
  | ostr (raw : List Nat) : ObjsSorted (.jstr raw)
  | oarr (cached : List Nat) (elems : List JVal) :
      (∀ e ∈ elems, ObjsSorted e) → ObjsSorted (.jarr cached elems)
  | oobj (cached : List Nat) (fs : List (List Nat × JVal)) :
      fieldsSorted fs → (∀ f ∈ fs, ObjsSorted f.2) → ObjsSorted (.jobj cached fs)

/-- Unpacking ParseJ success. -/
theorem ParseJ_ok {s : List Nat} {v : JVal} :
    ParseJ s = .ok v ↔
      ∃ rest, parseValueF (s.length + 1) s = .ok (v, rest) ∧ nextTok rest = none := by
  unfold ParseJ
  constructor
  · intro h
    split at h
    · cases h
    · rename_i v' rest hp
      split at h
      · cases h
      · rename_i hn
        simp only [Except.ok.injEq] at h
        subst h
        exact ⟨rest, hp, hn⟩
  · rintro ⟨rest, hp, hn⟩
    rw [hp]
    simp only [hn]

/-- The sortedness facts for one fuel level. -/
def SortInvAt (fuel : Nat) : Prop :=
  (∀ s v rest, parseValueF fuel s = .ok (v, rest) → ObjsSorted v) ∧
  (∀ start json acc v rest, parseArrF fuel start json acc = .ok (v, rest) →
    (∀ e ∈ acc, ObjsSorted e) → ObjsSorted v) ∧
  (∀ start json acc v rest, parseObjF fuel start json acc = .ok (v, rest) →
    (∀ f ∈ acc, ObjsSorted f.2) → ObjsSorted v) ∧
  (∀ start keyTok json acc v rest, parseFieldF fuel start keyTok json acc = .ok (v, rest) →
    (∀ f ∈ acc, ObjsSorted f.2) → ObjsSorted v)

theorem sortInvAt (fuel : Nat) : SortInvAt fuel := by
  induction fuel with
  | zero =>
    refine ⟨?_, ?_, ?_, ?_⟩
    · intro s v rest h; rw [parseValueF] at h; cases h
    · intro start json acc v rest h; rw [parseArrF] at h; cases h
    · intro start json acc v rest h; rw [parseObjF] at h; cases h
    · intro start keyTok json acc v rest h; rw [parseFieldF] at h; cases h
  | succ n ih =>
    obtain ⟨ihV, ihA, ihO, ihF⟩ := ih
    have hV : ∀ s v rest, parseValueF (n + 1) s = .ok (v, rest) → ObjsSorted v := by
      intro s v rest h
      rw [parseValueF] at h
      split at h
      · cases h
      · split at h
        · split at h
          · simp only [Except.ok.injEq, Prod.mk.injEq] at h
            rw [← h.1]; exact .onull
          · cases h
        · split at h
          · simp only [Except.ok.injEq, Prod.mk.injEq] at h
            rw [← h.1]; exact .otrue
          · cases h
        · split at h
          · simp only [Except.ok.injEq, Prod.mk.injEq] at h
            rw [← h.1]; exact .ofalse
          · cases h
        · split at h
          · simp only [Except.ok.injEq, Prod.mk.injEq] at h
            rw [← h.1]; exact .ostr _
          · cases h
        · exact ihA _ _ _ _ _ h (by intro e he; cases he)
        · exact ihO _ _ _ _ _ h (by intro f hf; cases hf)
        · cases h
        · cases h
        · split at h
          · split at h
            · simp only [Except.ok.injEq, Prod.mk.injEq] at h
              rw [← h.1]; exact .onum _
            · cases h
          · cases h
        · cases h
    have hA : ∀ start json acc v rest, parseArrF (n + 1) start json acc = .ok (v, rest) →
        (∀ e ∈ acc, ObjsSorted e) → ObjsSorted v := by
      intro start json acc v rest h hacc
      rw [parseArrF] at h
      split at h
      · split at h
        · simp only [Except.ok.injEq, Prod.mk.injEq] at h
          rw [← h.1]
          exact .oarr _ _ (by intro e he; cases he)
        · cases h
        · rename_i v0 rest0 heq
          exact ihA _ _ _ _ _ h (by
            intro e he
            rcases List.mem_append.mp he with he | he
            · exact hacc e he
            · rcases List.mem_singleton.mp he with rfl
              exact ihV _ _ _ heq)
      · split at h
        · cases h
        · split at h
          · simp only [Except.ok.injEq, Prod.mk.injEq] at h
            rw [← h.1]
            exact .oarr _ _ hacc
          · split at h
            · split at h
              · cases h
              · cases h
              · rename_i v0 rest0 heq
                exact ihA _ _ _ _ _ h (by
                  intro e he
                  rcases List.mem_append.mp he with he | he
                  · exact hacc e he
                  · rcases List.mem_singleton.mp he with rfl
                    exact ihV _ _ _ heq)
            · cases h
    have hO : ∀ start json acc v rest, parseObjF (n + 1) start json acc = .ok (v, rest) →
        (∀ f ∈ acc, ObjsSorted f.2) → ObjsSorted v := by
      intro start json acc v rest h hacc
      rw [parseObjF] at h
      split at h
      · cases h
      · split at h
        · simp only [Except.ok.injEq, Prod.mk.injEq] at h
          rw [← h.1]
          refine .oobj _ _ (sortFields_sorted acc) ?_
          intro f hf
          exact hacc f ((sortFields_perm acc).mem_iff.mp hf)
        · split at h
          · exact ihF _ _ _ _ _ _ h hacc
          · split at h
            · split at h
              · cases h
              · exact ihF _ _ _ _ _ _ h hacc
            · cases h
    have hF : ∀ start keyTok json acc v rest, parseFieldF (n + 1) start keyTok json acc = .ok (v, rest) →
        (∀ f ∈ acc, ObjsSorted f.2) → ObjsSorted v := by
      intro start keyTok json acc v rest h hacc
      rw [parseFieldF] at h
      split at h
      · cases h
      · rename_i key hkey
        split at h
        · cases h
        · split at h
          · split at h
            · rename_i v0 rest0 heq
              exact ihO _ _ _ _ _ h (by
                intro f hf
                rcases List.mem_append.mp hf with hf | hf
                · exact hacc f hf
                · rcases List.mem_singleton.mp hf with rfl
                  exact ihV _ _ _ heq)
            · cases h
          · cases h
    exact ⟨hV, hA, hO, hF⟩

/-- C3: for every successfully parsed document, the fields of every Object value
in the resulting tree, at every nesting level, are stored sorted by key in
byte-lexicographic order (the sort applied at the end of parseObject is a
stable permutation of the fields in insertion order), and duplicate keys are
preserved rather than deduplicated: parsing \x7b"a":1,"a":2\x7d keeps both
bindings of key "a" in insertion order. -/
theorem c3_object_fields_sorted :
    (∀ s v, ParseJ s = .ok v → ObjsSorted v) ∧
    (∀ fs : List (List Nat × JVal), fieldsSorted (sortFields fs) ∧ (sortFields fs).Perm fs) ∧
    ParseJ [123, 34, 97, 34, 58, 49, 44, 34, 97, 34, 58, 50, 125] =
      .ok (.jobj [123, 34, 97, 34, 58, 49, 44, 34, 97, 34, 58, 50, 125]
        [([97], .jnum [49]), ([97], .jnum [50])]) := by
  refine ⟨?_, ?_, by rfl⟩
  · intro s v h
    obtain ⟨rest, hp, _⟩ := ParseJ_ok.mp h
    exact (sortInvAt (s.length + 1)).1 s v rest hp
  · intro fs
    exact ⟨sortFields_sorted fs, sortFields_perm fs⟩

/-- Witness for C3: the invariant applied to the concrete parse of \x7b"a":1,"a":2\x7d. -/
theorem c3_object_fields_sorted_witness :
    ObjsSorted (JVal.jobj [123, 34, 97, 34, 58, 49, 44, 34, 97, 34, 58, 50, 125]
      [([97], JVal.jnum [49]), ([97], JVal.jnum [50])]) :=
  c3_object_fields_sorted.1 [123, 34, 97, 34, 58, 49, 44, 34, 97, 34, 58, 50, 125] _ (by rfl)

/-! ### Lookup correctness on sorted fields -/

/-- Transfer: t at least m (first hypothesis) and m strictly below k give t
strictly below k is false; here encoded on lexLt. -/
theorem lexLt_of_ge_of_lt {t m k : List Nat}
    (h1 : lexLt m t = false) (h2 : lexLt m k = true) : lexLt t k = true := by
  rcases not_lexLt_iff.mp h1 with heq | hlt
  · rw [← heq]; exact h2
  · exact lexLt_trans hlt h2

theorem not_lexLt_of_ge_of_not {t m k : List Nat}
    (h1 : lexLt t m = false) (h2 : lexLt m k = false) : lexLt t k = false := by
  rcases not_lexLt_iff.mp h1 with heq | hlt
  · rw [heq]; exact h2
  · rcases not_lexLt_iff.mp h2 with heq2 | hlt2
    · rw [← heq2]; exact lexLt_asymm hlt
    · exact lexLt_asymm (lexLt_trans hlt2 hlt)

theorem getD_eq_get {l : List (List Nat × JVal)} {t : Nat} (h : t < l.length) :
    l.getD t ([], JVal.jnull) = l.get ⟨t, h⟩ := by
  rw [List.getD_eq_getElem?_getD, List.getElem?_eq_getElem h]
  rfl

theorem fieldsSorted_le {fs : List (List Nat × JVal)} (hs : fieldsSorted fs)
    {t u : Nat} (htu : t < u) (hu : u < fs.length) :
    lexLt ((fs.getD u ([], JVal.jnull)).1) ((fs.getD t ([], JVal.jnull)).1) = false := by
  unfold fieldsSorted at hs
  rw [List.pairwise_iff_get] at hs
  have ht : t < fs.length := Nat.lt_trans htu hu
  have := hs ⟨t, ht⟩ ⟨u, hu⟩ htu
  rw [getD_eq_get ht, getD_eq_get hu]
  exact this

theorem bsLoopF_spec (fuel : Nat) :
    ∀ fs k i j, fieldsSorted fs → j - i ≤ fuel → i ≤ j → j ≤ fs.length →
      (∀ t, t < i → lexLt ((fs.getD t ([], JVal.jnull)).1) k = true) →
      (∀ t, j ≤ t → t < fs.length → lexLt ((fs.getD t ([], JVal.jnull)).1) k = false) →
      i ≤ bsLoopF fuel fs k i j ∧ bsLoopF fuel fs k i j ≤ j ∧
      (∀ t, t < bsLoopF fuel fs k i j → lexLt ((fs.getD t ([], JVal.jnull)).1) k = true) ∧
      (∀ t, bsLoopF fuel fs k i j ≤ t → t < fs.length →
        lexLt ((fs.getD t ([], JVal.jnull)).1) k = false) := by
  induction fuel with
  | zero =>
    intro fs k i j _ hfuel hij hjlen hpre hpost
    have heq : i = j := by omega
    subst heq
    exact ⟨Nat.le_refl i, Nat.le_refl i, hpre, hpost⟩
  | succ n ih =>
    intro fs k i j hs hfuel hij hjlen hpre hpost
    rw [bsLoopF]
    by_cases hlt : i < j
    · rw [if_pos hlt]
      simp only []
      by_cases hm : lexLt ((fs.getD ((i + j) / 2) ([], JVal.jnull)).1) k = true
      · rw [if_pos hm]
        have hmlo : i ≤ (i + j) / 2 := by omega
        have hmhi : (i + j) / 2 < j := by omega
        have hmlen : (i + j) / 2 < fs.length := by omega
        refine ?_
        have := ih fs k ((i + j) / 2 + 1) j hs (by omega) (by omega) hjlen ?_ hpost
        · exact ⟨by omega, this.2.1, this.2.2.1, this.2.2.2⟩
        · intro t ht
          by_cases hti : t < i
          · exact hpre t hti
          · have htm : t ≤ (i + j) / 2 := by omega
            rcases Nat.eq_or_lt_of_le htm with heq | hlt2
            · rw [heq]; exact hm
            · exact lexLt_of_ge_of_lt (fieldsSorted_le hs hlt2 hmlen) hm
      · rw [if_neg hm]
        have hm' : lexLt ((fs.getD ((i + j) / 2) ([], JVal.jnull)).1) k = false := by
          cases h : lexLt ((fs.getD ((i + j) / 2) ([], JVal.jnull)).1) k
          · rfl
          · exact absurd h hm
        have hmhi : (i + j) / 2 < j := by omega
        have := ih fs k i ((i + j) / 2) hs (by omega) (by omega) (by omega) hpre ?_
        · exact ⟨this.1, by omega, this.2.2.1, this.2.2.2⟩
        · intro t ht htlen
          rcases Nat.eq_or_lt_of_le ht with heq | hlt2
          · rw [← heq]; exact hm'
          · exact not_lexLt_of_ge_of_not (fieldsSorted_le hs hlt2 htlen) hm'
    · rw [if_neg hlt]
      have heq : i = j := by omega
      subst heq
      exact ⟨Nat.le_refl i, Nat.le_refl i, hpre, hpost⟩

theorem bsLoop_spec {fs : List (List Nat × JVal)} {k : List Nat} (hs : fieldsSorted fs) :
    bsLoop fs k 0 fs.length ≤ fs.length ∧
    (∀ t, t < bsLoop fs k 0 fs.length → lexLt ((fs.getD t ([], JVal.jnull)).1) k = true) ∧
    (∀ t, bsLoop fs k 0 fs.length ≤ t → t < fs.length →
      lexLt ((fs.getD t ([], JVal.jnull)).1) k = false) := by
  have h := bsLoopF_spec (fs.length - 0) fs k 0 fs.length hs (by omega) (by omega)
    (by omega) (by intro t ht; omega) (by intro t ht htlen; omega)
  exact ⟨h.2.1, h.2.2.1, h.2.2.2⟩

theorem find?_eq_some_at {p : (List Nat × JVal) → Bool} :
    ∀ {l : List (List Nat × JVal)} {r : Nat}, r < l.length →
      (∀ t, t < r → p (l.getD t ([], JVal.jnull)) = false) →
      p (l.getD r ([], JVal.jnull)) = true →
      l.find? p = some (l.getD r ([], JVal.jnull)) := by
  intro l
  induction l with
  | nil => intro r hr; simp at hr
  | cons x t ih =>
    intro r hr hall hp
    cases r with
    | zero =>
      exact List.find?_cons_of_pos _ hp
    | succ n =>
      have h0 : p x = false := hall 0 (Nat.succ_pos n)
      rw [List.find?_cons_of_neg _ (by simp [h0])]
      exact ih (by simpa using hr) (fun u hu => hall (u + 1) (by omega)) hp

/-- For sorted fields, Value.Lookup agrees with the first-match linear scan,
whichever branch (linear or binary) it takes. -/
theorem lookupFields_eq_find {fs : List (List Nat × JVal)} (hs : fieldsSorted fs)
    (k : List Nat) :
    lookupFields fs k = (fs.find? (fun f => f.1 = k)).map (fun f => f.2) := by
  unfold lookupFields
  by_cases hlen : fs.length ≤ 16
  · rw [if_pos hlen]
  · rw [if_neg hlen]
    obtain ⟨hrle, hpre, hpost⟩ := bsLoop_spec (k := k) hs
    simp only []
    match hfr : fs[bsLoop fs k 0 fs.length]? with
    | none =>
      have hrlen : fs.length ≤ bsLoop fs k 0 fs.length := by
        by_contra hc
        rw [List.getElem?_eq_getElem (by omega)] at hfr
        cases hfr
      have hnone : fs.find? (fun f => f.1 = k) = none := by
        rw [List.find?_eq_none]
        intro x hx
        obtain ⟨⟨tv, htv⟩, hxt⟩ := List.mem_iff_get.mp hx
        have := hpre tv (by omega)
        rw [getD_eq_get htv, hxt] at this
        intro hxk
        simp only [decide_eq_true_eq] at hxk
        rw [hxk] at this
        rw [lexLt_irrefl] at this
        cases this
      rw [hnone]
      rfl
    | some f =>
      have hrlen : bsLoop fs k 0 fs.length < fs.length := by
        by_contra hc
        rw [List.getElem?_eq_none (by omega)] at hfr
        cases hfr
      have hfD : fs.getD (bsLoop fs k 0 fs.length) ([], JVal.jnull) = f := by
        rw [List.getD_eq_getElem?_getD, hfr]
        rfl
      by_cases hk : f.1 = k
      · have hfind : fs.find? (fun f => f.1 = k) = some f := by
          rw [← hfD]
          apply find?_eq_some_at hrlen
          · intro u hu
            have := hpre u hu
            simp only [decide_eq_false_iff_not]
            intro hc
            rw [hc] at this
            rw [lexLt_irrefl] at this
            cases this
          · rw [hfD]
            simp [hk]
        rw [hfind]
        show (if f.1 = k then some f.2 else none) = Option.map (fun g : List Nat × JVal => g.2) (some f)
        rw [if_pos hk]
        rfl
      · have hrk : lexLt f.1 k = false := by
          have := hpost (bsLoop fs k 0 fs.length) (Nat.le_refl _) hrlen
          rw [hfD] at this
          exact this
        have hnone : fs.find? (fun f => f.1 = k) = none := by
          rw [List.find?_eq_none]
          intro x hx
          obtain ⟨⟨tv, htv⟩, hxt⟩ := List.mem_iff_get.mp hx
          intro hxk
          simp only [decide_eq_true_eq] at hxk
          by_cases htr : tv < bsLoop fs k 0 fs.length
          · have := hpre tv htr
            rw [getD_eq_get htv, hxt] at this
            rw [hxk] at this
            rw [lexLt_irrefl] at this
            cases this
          · rcases Nat.eq_or_lt_of_le (Nat.le_of_not_lt htr) with heq | hlt2
            · apply hk
              rw [← hfD, heq]
              rw [getD_eq_get htv, hxt]
              exact hxk
            · have hle := fieldsSorted_le hs hlt2 htv
              rw [hfD] at hle
              rw [getD_eq_get htv, hxt] at hle
              rw [hxk] at hle
              rcases not_lexLt_iff.mp hle with heq2 | hlt3
              · exact hk heq2.symm
              · rw [hlt3] at hrk
                cases hrk
        rw [hnone]
        show (if f.1 = k then some f.2 else none) = Option.map (fun g : List Nat × JVal => g.2) none
        rw [if_neg hk]
        rfl

/-- C2: for every object value produced by Parse, Lookup agrees with the
first-match linear scan over the fields, in both the linear branch (at most 16
fields) and the binary-search branch; it returns none exactly when the key is
absent, every hit is a binding actually present in the object, every present
key is found, and with duplicate keys the first match is returned (the find?
equality). -/
theorem c2_lookup_object (s cached : List Nat) (fs : List (List Nat × JVal))
    (k : List Nat) (h : ParseJ s = .ok (.jobj cached fs)) :
    lookupFields fs k = (fs.find? (fun f => f.1 = k)).map (fun f => f.2) ∧
    (lookupFields fs k = none ↔ ∀ f ∈ fs, f.1 ≠ k) ∧
    (∀ v, lookupFields fs k = some v → (k, v) ∈ fs) ∧
    (k ∈ fs.map (fun f => f.1) → ∃ v, lookupFields fs k = some v) := by
  have hsort : fieldsSorted fs := by
    obtain ⟨rest, hp, _⟩ := ParseJ_ok.mp h
    have hObjs := (sortInvAt (s.length + 1)).1 s _ rest hp
    cases hObjs with
    | oobj _ _ hs _ => exact hs
  have heq := lookupFields_eq_find hsort k
  refine ⟨heq, ?_, ?_, ?_⟩
  · rw [heq]
    constructor
    · intro hn f hf hfk
      rw [Option.map_eq_none'] at hn
      rw [List.find?_eq_none] at hn
      exact hn f hf (by simp [hfk])
    · intro hall
      rw [Option.map_eq_none']
      rw [List.find?_eq_none]
      intro f hf
      simp only [decide_eq_true_eq]
      exact hall f hf
  · intro v hv
    rw [heq] at hv
    rw [Option.map_eq_some'] at hv
    obtain ⟨f, hfind, hf2⟩ := hv
    have hfk : f.1 = k := by
      have := List.find?_some hfind
      simpa using this
    have hmem := List.mem_of_find?_eq_some hfind
    have : f = (k, v) := by
      cases f
      simp only [Prod.mk.injEq]
      exact ⟨hfk, hf2⟩
    rw [← this]
    exact hmem
  · intro hmem
    rw [heq]
    obtain ⟨f, hf, hfk⟩ := List.mem_map.mp hmem
    match hfind : fs.find? (fun f => f.1 = k) with
    | some g => exact ⟨g.2, by rw [hfind]; rfl⟩
    | none =>
      exfalso
      rw [List.find?_eq_none] at hfind
      exact hfind f hf (by simp [hfk])

/-- Witness for C2: a 17-field object (above the 16-field threshold, so the
binary-search branch runs); a present key hits its binding and an absent key
misses. -/
theorem c2_lookup_object_witness :
    lookupFields [([97], JVal.jnum [48]), ([98], JVal.jnum [49]), ([99], JVal.jnum [50]), ([100], JVal.jnum [51]), ([101], JVal.jnum [52]), ([102], JVal.jnum [53]), ([103], JVal.jnum [54]), ([104], JVal.jnum [55]), ([105], JVal.jnum [56]), ([106], JVal.jnum [57]), ([107], JVal.jnum [48]), ([108], JVal.jnum [49]), ([109], JVal.jnum [50]), ([110], JVal.jnum [51]), ([111], JVal.jnum [52]), ([112], JVal.jnum [53]), ([113], JVal.jnum [54])] [98] = some (JVal.jnum [49]) ∧
    lookupFields [([97], JVal.jnum [48]), ([98], JVal.jnum [49]), ([99], JVal.jnum [50]), ([100], JVal.jnum [51]), ([101], JVal.jnum [52]), ([102], JVal.jnum [53]), ([103], JVal.jnum [54]), ([104], JVal.jnum [55]), ([105], JVal.jnum [56]), ([106], JVal.jnum [57]), ([107], JVal.jnum [48]), ([108], JVal.jnum [49]), ([109], JVal.jnum [50]), ([110], JVal.jnum [51]), ([111], JVal.jnum [52]), ([112], JVal.jnum [53]), ([113], JVal.jnum [54])] [122] = none := by
  have h1 := c2_lookup_object [123, 34, 97, 34, 58, 48, 44, 34, 98, 34, 58, 49, 44, 34, 99, 34, 58, 50, 44, 34, 100, 34, 58, 51, 44, 34, 101, 34, 58, 52, 44, 34, 102, 34, 58, 53, 44, 34, 103, 34, 58, 54, 44, 34, 104, 34, 58, 55, 44, 34, 105, 34, 58, 56, 44, 34, 106, 34, 58, 57, 44, 34, 107, 34, 58, 48, 44, 34, 108, 34, 58, 49, 44, 34, 109, 34, 58, 50, 44, 34, 110, 34, 58, 51, 44, 34, 111, 34, 58, 52, 44, 34, 112, 34, 58, 53, 44, 34, 113, 34, 58, 54, 125] [123, 34, 97, 34, 58, 48, 44, 34, 98, 34, 58, 49, 44, 34, 99, 34, 58, 50, 44, 34, 100, 34, 58, 51, 44, 34, 101, 34, 58, 52, 44, 34, 102, 34, 58, 53, 44, 34, 103, 34, 58, 54, 44, 34, 104, 34, 58, 55, 44, 34, 105, 34, 58, 56, 44, 34, 106, 34, 58, 57, 44, 34, 107, 34, 58, 48, 44, 34, 108, 34, 58, 49, 44, 34, 109, 34, 58, 50, 44, 34, 110, 34, 58, 51, 44, 34, 111, 34, 58, 52, 44, 34, 112, 34, 58, 53, 44, 34, 113, 34, 58, 54, 125]
    [([97], JVal.jnum [48]), ([98], JVal.jnum [49]), ([99], JVal.jnum [50]), ([100], JVal.jnum [51]), ([101], JVal.jnum [52]), ([102], JVal.jnum [53]), ([103], JVal.jnum [54]), ([104], JVal.jnum [55]), ([105], JVal.jnum [56]), ([106], JVal.jnum [57]), ([107], JVal.jnum [48]), ([108], JVal.jnum [49]), ([109], JVal.jnum [50]), ([110], JVal.jnum [51]), ([111], JVal.jnum [52]), ([112], JVal.jnum [53]), ([113], JVal.jnum [54])] [98] (by rfl)
  have h2 := c2_lookup_object [123, 34, 97, 34, 58, 48, 44, 34, 98, 34, 58, 49, 44, 34, 99, 34, 58, 50, 44, 34, 100, 34, 58, 51, 44, 34, 101, 34, 58, 52, 44, 34, 102, 34, 58, 53, 44, 34, 103, 34, 58, 54, 44, 34, 104, 34, 58, 55, 44, 34, 105, 34, 58, 56, 44, 34, 106, 34, 58, 57, 44, 34, 107, 34, 58, 48, 44, 34, 108, 34, 58, 49, 44, 34, 109, 34, 58, 50, 44, 34, 110, 34, 58, 51, 44, 34, 111, 34, 58, 52, 44, 34, 112, 34, 58, 53, 44, 34, 113, 34, 58, 54, 125] [123, 34, 97, 34, 58, 48, 44, 34, 98, 34, 58, 49, 44, 34, 99, 34, 58, 50, 44, 34, 100, 34, 58, 51, 44, 34, 101, 34, 58, 52, 44, 34, 102, 34, 58, 53, 44, 34, 103, 34, 58, 54, 44, 34, 104, 34, 58, 55, 44, 34, 105, 34, 58, 56, 44, 34, 106, 34, 58, 57, 44, 34, 107, 34, 58, 48, 44, 34, 108, 34, 58, 49, 44, 34, 109, 34, 58, 50, 44, 34, 110, 34, 58, 51, 44, 34, 111, 34, 58, 52, 44, 34, 112, 34, 58, 53, 44, 34, 113, 34, 58, 54, 125]
    [([97], JVal.jnum [48]), ([98], JVal.jnum [49]), ([99], JVal.jnum [50]), ([100], JVal.jnum [51]), ([101], JVal.jnum [52]), ([102], JVal.jnum [53]), ([103], JVal.jnum [54]), ([104], JVal.jnum [55]), ([105], JVal.jnum [56]), ([106], JVal.jnum [57]), ([107], JVal.jnum [48]), ([108], JVal.jnum [49]), ([109], JVal.jnum [50]), ([110], JVal.jnum [51]), ([111], JVal.jnum [52]), ([112], JVal.jnum [53]), ([113], JVal.jnum [54])] [122] (by rfl)
  constructor
  · rw [h1.1]
    rfl
  · rw [h2.1]
    rfl

/-! ### The escape grammar of string bodies, and the Unquote error conditions -/

/-- The escape-sequence grammar that AppendUnquote's loop accepts on a string
body (quotes stripped): bytes other than a backslash pass through; a backslash
starts an escape sequence.  Each false arm is one error condition: a lone
backslash at the end (unterminated escape), an unrecognized escape character,
a truncated \u escape, four non-hex characters after \u, a lone low
surrogate, a high surrogate not immediately followed by \u and four
characters, non-hex characters in the low-surrogate position, and a low
surrogate out of range. -/
def bodyOkF : Nat → List Nat → Bool :=
  Nat.rec (motive := fun _ => List Nat → Bool)
    (fun _ => false)
    (fun _ prev s =>
      match s with
      | [] => true
      | c0 :: u =>
        if c0 = 92 then
          match u with
          | [] => false
          | c :: u2 =>
            match simpleEsc c with
            | some _ => prev u2
            | none =>
              if c = 117 then
                match u2 with
                | h1 :: h2 :: h3 :: h4 :: u3 =>
                  match hex4 h1 h2 h3 h4 with
                  | none => false
                  | some r1 =>
                    if 55296 ≤ r1 && r1 ≤ 57343 then
                      if 56320 ≤ r1 then false
                      else
                        match u3 with
                        | b1 :: b2 :: g1 :: g2 :: g3 :: g4 :: u4 =>
                          if b1 = 92 && b2 = 117 then
                            match hex4 g1 g2 g3 g4 with
                            | none => false
                            | some r2 =>
                              if 56320 ≤ r2 && r2 ≤ 57343 then prev u4
                              else false
                          else false
                        | _ => false
                    else prev u3
                | _ => false
              else false
        else prev u)

/-- Unfolding bodyOkF one fuel step. -/
theorem bodyOkF_succ (f : Nat) (s : List Nat) :
    bodyOkF (f + 1) s =
      (match s with
       | [] => true
       | c0 :: u =>
         if c0 = 92 then
           match u with
           | [] => false
           | c :: u2 =>
             match simpleEsc c with
             | some _ => bodyOkF f u2
             | none =>
               if c = 117 then
                 match u2 with
                 | h1 :: h2 :: h3 :: h4 :: u3 =>
                   match hex4 h1 h2 h3 h4 with
                   | none => false
                   | some r1 =>
                     if 55296 ≤ r1 && r1 ≤ 57343 then
                       if 56320 ≤ r1 then false
                       else
                         match u3 with
                         | b1 :: b2 :: g1 :: g2 :: g3 :: g4 :: u4 =>
                           if b1 = 92 && b2 = 117 then
                             match hex4 g1 g2 g3 g4 with
                             | none => false
                             | some r2 =>
                               if 56320 ≤ r2 && r2 ≤ 57343 then bodyOkF f u4
                               else false
                           else false
                         | _ => false
                     else bodyOkF f u3
                 | _ => false
               else false
         else bodyOkF f u) := rfl

/-- The grammar at the standard fuel. -/
def bodyOk (s : List Nat) : Bool := bodyOkF (s.length + 1) s

/-- Modelled from the spec: transcription of the claim's first error condition,
the input is not wrapped in a matching pair of quote characters. -/
def notWrapped (s : List Nat) : Bool := !(wrapped s)

/-- Modelled from the spec: transcription of the claim's condition "contains an
unrecognized escape character", scanning escape sequences pairwise. -/
def hasUnrecEsc : List Nat → Bool
  | [] => false
  | [92] => false
  | 92 :: c :: u => if (simpleEsc c).isSome || c = 117 then hasUnrecEsc u else true
  | _ :: u => hasUnrecEsc u

/-- Modelled from the spec: transcription of the claim's condition "has an
unterminated escape at end of string". -/
def hasUntermEsc : List Nat → Bool
  | [] => false
  | [92] => true
  | 92 :: _ :: u => hasUntermEsc u
  | _ :: u => hasUntermEsc u

/-- Modelled from the spec: transcription of the claim's surrogate conditions,
a \uXXXX high surrogate (four hex digits decoding into the high range) not
immediately followed by a matching \uXXXX low surrogate, or a lone low
surrogate. -/
def hasBadSurrogate : List Nat → Bool
  | 92 :: 117 :: h1 :: h2 :: h3 :: h4 :: u =>
    match hex4 h1 h2 h3 h4 with
    | some r1 =>
      if 55296 ≤ r1 && r1 ≤ 56319 then
        match u with
        | 92 :: 117 :: g1 :: g2 :: g3 :: g4 :: u2 =>
          match hex4 g1 g2 g3 g4 with
          | some r2 => if 56320 ≤ r2 && r2 ≤ 57343 then hasBadSurrogate u2 else true
          | none => true
        | _ => true
      else if 56320 ≤ r1 && r1 ≤ 57343 then true
      else hasBadSurrogate u
    | none => hasBadSurrogate (117 :: h1 :: h2 :: h3 :: h4 :: u)
  | 92 :: _ :: u => hasBadSurrogate u
  | _ :: u => hasBadSurrogate u
  | [] => false

/-- C8 as stated is wrong: on the wrapped literal "\uZZZZ" both Unquote and
AppendUnquote return an error (the four characters after \u are not hex
digits, strconv.ParseUint fails at src/unquote.go line 73), yet the input is
wrapped in matching quotes, every escape character is recognized, no escape is
unterminated at the end, and no surrogate condition of the claim holds: the
claimed "if and only if" fails in the only-if direction. -/
theorem c8_unquote_error_counterexample :
    unquote [34, 92, 117, 90, 90, 90, 90, 34] = none ∧
    appendUnquote [] [34, 92, 117, 90, 90, 90, 90, 34] = none ∧
    notWrapped [34, 92, 117, 90, 90, 90, 90, 34] = false ∧
    hasUnrecEsc (strBody [34, 92, 117, 90, 90, 90, 90, 34]) = false ∧
    hasUntermEsc (strBody [34, 92, 117, 90, 90, 90, 90, 34]) = false ∧
    hasBadSurrogate (strBody [34, 92, 117, 90, 90, 90, 90, 34]) = false := by
  refine ⟨by decide, by decide, by decide, by decide, by decide, by decide⟩

theorem getD_append_len (pre t : List Nat) (k : Nat) :
    (pre ++ t).getD (pre.length + k) 0 = t.getD k 0 := by
  induction pre with
  | nil => simp
  | cons c p ih =>
    have e : (c :: p).length + k = (p.length + k) + 1 := by simp; omega
    rw [e, List.cons_append]
    exact ih

theorem drop_append_len (pre t : List Nat) (k : Nat) :
    (pre ++ t).drop (pre.length + k) = t.drop k := by
  induction pre with
  | nil => simp
  | cons c p ih =>
    have e : (c :: p).length + k = (p.length + k) + 1 := by simp; omega
    rw [e, List.cons_append, List.drop_succ_cons]
    exact ih

theorem no92_of_firstIdx_none {s : List Nat} (h : firstIdx (· = 92) s = none) :
    ∀ c ∈ s, ¬ c = 92 := by
  intro c hc
  obtain ⟨k, hk, hck⟩ := List.getElem_of_mem hc
  have := firstIdx_none h k c (by rw [List.getElem?_eq_getElem hk, hck])
  simpa using this

theorem bodyOkF_cons_ne {c : Nat} (hc : ¬ c = 92) (f : Nat) (u : List Nat) :
    bodyOkF (f + 1) (c :: u) = bodyOkF f u := by
  rw [bodyOkF_succ]
  dsimp only []
  rw [if_neg hc]

theorem bodyOkF_append_no92 {pre : List Nat} (hpre : ∀ c ∈ pre, ¬ c = 92) :
    ∀ (f : Nat) (t : List Nat), bodyOkF (pre.length + f) (pre ++ t) = bodyOkF f t := by
  induction pre with
  | nil => intro f t; simp
  | cons c p ih =>
    intro f t
    have e : (c :: p).length + f = (p.length + f) + 1 := by simp; omega
    rw [e, List.cons_append, bodyOkF_cons_ne (hpre c (by simp))]
    exact ih (fun d hd => hpre d (by simp [hd])) f t

theorem bodyOkF_no92 : ∀ (f : Nat) (s : List Nat), (∀ c ∈ s, ¬ c = 92) →
    s.length < f → bodyOkF f s = true := by
  intro f
  induction f with
  | zero => intro s _ h; exact absurd h (Nat.not_lt_zero _)
  | succ n ih =>
    intro s h92 hlen
    cases s with
    | nil => rw [bodyOkF_succ]
    | cons c u =>
      rw [bodyOkF_cons_ne (h92 c (by simp))]
      exact ih u (fun d hd => h92 d (by simp [hd])) (by simp at hlen; omega)


theorem firstIdx_split92 {s : List Nat} {i : Nat} (h : firstIdx (· = 92) s = some i) :
    ∃ pre u, s = pre ++ 92 :: u ∧ pre.length = i ∧ (∀ c ∈ pre, ¬ c = 92) := by
  obtain ⟨⟨x, hx, hpx⟩, hno⟩ := firstIdx_some h
  have hx92 : x = 92 := by simpa using hpx
  subst hx92
  have hi : i < s.length := firstIdx_lt_length h
  refine ⟨s.take i, s.drop (i + 1), ?_, ?_, ?_⟩
  · conv_lhs => rw [← List.take_append_drop i s]
    congr 1
    rw [List.drop_eq_getElem_cons hi]
    have hg : s[i] = 92 := by
      have := List.getElem?_eq_getElem hi
      rw [this] at hx
      injection hx
    rw [hg]
  · simp [List.length_take]
    omega
  · intro c hc
    obtain ⟨k, hk, hck⟩ := List.getElem_of_mem hc
    have hki : k < i := by
      have := hk
      simp [List.length_take] at this
      omega
    have hgk : s[k]? = some c := by
      have hks : k < s.length := by omega
      rw [List.getElem?_eq_getElem hks]
      have htk : (s.take i)[k] = s[k] := by
        simp [List.getElem_take]
      rw [← hck, htk]
    have := hno k c hki hgk
    simpa using this


theorem bodyOkF_esc (f : Nat) (c : Nat) (u2 : List Nat) :
    bodyOkF (f + 1) (92 :: c :: u2) =
      (match simpleEsc c with
       | some _ => bodyOkF f u2
       | none =>
         if c = 117 then
           match u2 with
           | h1 :: h2 :: h3 :: h4 :: u3 =>
             match hex4 h1 h2 h3 h4 with
             | none => false
             | some r1 =>
               if 55296 ≤ r1 && r1 ≤ 57343 then
                 if 56320 ≤ r1 then false
                 else
                   match u3 with
                   | b1 :: b2 :: g1 :: g2 :: g3 :: g4 :: u4 =>
                     if b1 = 92 && b2 = 117 then
                       match hex4 g1 g2 g3 g4 with
                       | none => false
                       | some r2 =>
                         if 56320 ≤ r2 && r2 ≤ 57343 then bodyOkF f u4
                         else false
                     else false
                   | _ => false
               else bodyOkF f u3
           | _ => false
         else false) := by
  rw [bodyOkF_succ]
  dsimp only []
  rw [if_pos rfl]

theorem appendUnqF_isSome (fuel : Nat) :
    ∀ fb b s, s.length < fuel → s.length < fb →
      (appendUnqF fuel b s).isSome = bodyOkF fb s := by
  induction fuel with
  | zero => intro fb b s h _; exact absurd h (Nat.not_lt_zero _)
  | succ n ih =>
    intro fb b s hlen hfb
    rw [appendUnqF]
    match hf : firstIdx (· = 92) s with
    | none =>
      simp only [hf]
      rw [bodyOkF_no92 fb s (no92_of_firstIdx_none hf) hfb]
      rfl
    | some i =>
      simp only [hf]
      obtain ⟨pre, u, rfl, hplen, hpre⟩ := firstIdx_split92 hf
      subst hplen
      have hsl : (pre ++ 92 :: u).length = pre.length + 1 + u.length := by
        simp
        omega
      obtain ⟨m, rfl⟩ : ∃ m, fb = pre.length + m := ⟨fb - pre.length, by omega⟩
      rw [bodyOkF_append_no92 hpre]
      have hm : 1 + u.length < m := by omega
      obtain ⟨m1, rfl⟩ : ∃ m1, m = m1 + 1 := ⟨m - 1, by omega⟩
      rcases u with _ | ⟨c, u2⟩
      · rw [if_pos (by simp)]
        rw [show bodyOkF (m1 + 1) [92] = false from by
          rw [bodyOkF_succ]
          dsimp only []
          rw [if_pos rfl]]
        rfl
      · rw [if_neg (by simp)]
        have hgd1 : (pre ++ 92 :: c :: u2).getD (pre.length + 1) 0 = c := by
          rw [getD_append_len]; rfl
        rw [hgd1, bodyOkF_esc]
        cases hse : simpleEsc c with
        | some e =>
          simp only [hse]
          have hdr2 : (pre ++ 92 :: c :: u2).drop (pre.length + 2) = u2 := by
            rw [drop_append_len]; rfl
          rw [hdr2]
          have hu2 : u2.length < n := by
            simp [List.length_append] at hlen
            omega
          rw [ih m1 _ _ hu2 (by simp at hm; omega)]
        | none =>
          simp only [hse]
          by_cases hc : c = 117
          · subst hc
            rw [if_pos rfl, if_pos rfl]
            rcases u2 with _ | ⟨x1, _ | ⟨x2, _ | ⟨x3, _ | ⟨x4, u3⟩⟩⟩⟩
            · rw [if_pos (by simp)]
              rfl
            · rw [if_pos (by simp)]
              rfl
            · rw [if_pos (by simp)]
              rfl
            · rw [if_pos (by simp)]
              rfl
            · rw [if_neg (by simp)]
              have e2 : (pre ++ 92 :: 117 :: x1 :: x2 :: x3 :: x4 :: u3).getD (pre.length + 2) 0 = x1 := by
                rw [getD_append_len]; rfl
              have e3 : (pre ++ 92 :: 117 :: x1 :: x2 :: x3 :: x4 :: u3).getD (pre.length + 3) 0 = x2 := by
                rw [getD_append_len]; rfl
              have e4 : (pre ++ 92 :: 117 :: x1 :: x2 :: x3 :: x4 :: u3).getD (pre.length + 4) 0 = x3 := by
                rw [getD_append_len]; rfl
              have e5 : (pre ++ 92 :: 117 :: x1 :: x2 :: x3 :: x4 :: u3).getD (pre.length + 5) 0 = x4 := by
                rw [getD_append_len]; rfl
              rw [e2, e3, e4, e5]
              cases hhex : hex4 x1 x2 x3 x4 with
              | none => simp only [hhex]; rfl
              | some r1 =>
                simp only [hhex]
                by_cases hsur : (55296 ≤ r1 && r1 ≤ 57343) = true
                · rw [if_pos hsur, if_pos hsur]
                  by_cases hlow : 56320 ≤ r1
                  · rw [if_pos hlow, if_pos hlow]
                    rfl
                  · rw [if_neg hlow, if_neg hlow]
                    rcases u3 with _ | ⟨a1, _ | ⟨a2, _ | ⟨a3, _ | ⟨a4, _ | ⟨a5, _ | ⟨a6, u4⟩⟩⟩⟩⟩⟩
                    · rw [if_pos (by simp)]
                      rfl
                    · rw [if_pos (by simp)]
                      rfl
                    · rw [if_pos (by simp)]
                      rfl
                    · rw [if_pos (by simp)]
                      rfl
                    · rw [if_pos (by simp)]
                      rfl
                    · rw [if_pos (by simp)]
                      rfl
                    · rw [if_neg (by simp)]
                      have e6 : (pre ++ 92 :: 117 :: x1 :: x2 :: x3 :: x4 :: a1 :: a2 :: a3 :: a4 :: a5 :: a6 :: u4).getD (pre.length + 6) 0 = a1 := by
                        rw [getD_append_len]; rfl
                      have e7 : (pre ++ 92 :: 117 :: x1 :: x2 :: x3 :: x4 :: a1 :: a2 :: a3 :: a4 :: a5 :: a6 :: u4).getD (pre.length + 7) 0 = a2 := by
                        rw [getD_append_len]; rfl
                      rw [e6, e7]
                      dsimp only []
                      by_cases ha1 : a1 = 92
                      · subst ha1
                        rw [if_neg (by simp)]
                        by_cases ha2 : a2 = 117
                        · subst ha2
                          rw [if_neg (by simp)]
                          rw [if_pos (by simp)]
                          have e8 : (pre ++ 92 :: 117 :: x1 :: x2 :: x3 :: x4 :: 92 :: 117 :: a3 :: a4 :: a5 :: a6 :: u4).getD (pre.length + 8) 0 = a3 := by
                            rw [getD_append_len]; rfl
                          have e9 : (pre ++ 92 :: 117 :: x1 :: x2 :: x3 :: x4 :: 92 :: 117 :: a3 :: a4 :: a5 :: a6 :: u4).getD (pre.length + 9) 0 = a4 := by
                            rw [getD_append_len]; rfl
                          have e10 : (pre ++ 92 :: 117 :: x1 :: x2 :: x3 :: x4 :: 92 :: 117 :: a3 :: a4 :: a5 :: a6 :: u4).getD (pre.length + 10) 0 = a5 := by
                            rw [getD_append_len]; rfl
                          have e11 : (pre ++ 92 :: 117 :: x1 :: x2 :: x3 :: x4 :: 92 :: 117 :: a3 :: a4 :: a5 :: a6 :: u4).getD (pre.length + 11) 0 = a6 := by
                            rw [getD_append_len]; rfl
                          rw [e8, e9, e10, e11]
                          cases hhex2 : hex4 a3 a4 a5 a6 with
                          | none => simp only [hhex2]; rfl
                          | some r2 =>
                            simp only [hhex2]
                            by_cases hr2 : (56320 ≤ r2 && r2 ≤ 57343) = true
                            · rw [if_pos hr2]
                              have hcond : ¬ ((r2 < 56320 || 57343 < r2) = true) := by
                                simp only [Bool.and_eq_true, decide_eq_true_eq] at hr2
                                simp
                                omega
                              rw [if_neg hcond]
                              have hdr12 : (pre ++ 92 :: 117 :: x1 :: x2 :: x3 :: x4 :: 92 :: 117 :: a3 :: a4 :: a5 :: a6 :: u4).drop (pre.length + 12) = u4 := by
                                rw [drop_append_len]; rfl
                              rw [hdr12]
                              have hu4 : u4.length < n := by
                                simp [List.length_append] at hlen
                                omega
                              rw [ih m1 _ _ hu4 (by simp at hm; omega)]
                            · rw [if_neg hr2]
                              have hcond : (r2 < 56320 || 57343 < r2) = true := by
                                simp only [Bool.and_eq_true, decide_eq_true_eq] at hr2
                                simp
                                omega
                              rw [if_pos hcond]
                              rfl
                        · rw [if_pos (by simp [ha2])]
                          rw [if_neg (by simp [ha2])]
                          rfl
                      · rw [if_pos (by simp [ha1])]
                        rw [if_neg (by simp [ha1])]
                        rfl
                · rw [if_neg hsur, if_neg hsur]
                  have hdr6 : (pre ++ 92 :: 117 :: x1 :: x2 :: x3 :: x4 :: u3).drop (pre.length + 6) = u3 := by
                    rw [drop_append_len]; rfl
                  rw [hdr6]
                  have hu3 : u3.length < n := by
                    simp [List.length_append] at hlen
                    omega
                  rw [ih m1 _ _ hu3 (by simp at hm; omega)]
          · rw [if_neg hc, if_neg hc]
            rfl

theorem appendUnq_isSome (b s : List Nat) :
    (appendUnq b s).isSome = bodyOk s :=
  appendUnqF_isSome (s.length + 1) (s.length + 1) b s (Nat.lt_succ_self _) (Nat.lt_succ_self _)

theorem firstIdx_eq_none {p : Nat → Bool} :
    ∀ {s : List Nat}, (∀ c ∈ s, p c = false) → firstIdx p s = none := by
  intro s
  induction s with
  | nil => intro; rfl
  | cons c u ih =>
    intro h
    simp only [firstIdx]
    rw [h c (by simp), ih (fun d hd => h d (by simp [hd]))]
    rfl

/-- C8 (amended): Unquote and AppendUnquote agree on whether they error, and
they return an error exactly when the input is not wrapped in a matching pair
of quote characters, or the body between the quotes violates the escape
grammar bodyOk, whose failure cases are: an unterminated escape at the end of
the string, an unrecognized escape character, a truncated \u escape, a \u
escape whose four following characters are not hex digits (the condition the
original claim omits), a lone low surrogate, a high surrogate not immediately
followed by a \u escape, non-hex characters in the low-surrogate position,
and a low surrogate out of range; moreover Unquote of the quoted literal
containing the escapes \ud83d\ude00 succeeds and decodes to the single code
point U+1F600 (UTF-8 bytes 240 159 152 128). -/
theorem c8_unquote_error_amended :
    (∀ b s, (appendUnquote b s = none ↔ ¬(wrapped s = true ∧ bodyOk (strBody s) = true)) ∧
      (unquote s = none ↔ appendUnquote b s = none)) ∧
    unquote [34, 92, 117, 100, 56, 51, 100, 92, 117, 100, 101, 48, 48, 34] =
      some [240, 159, 152, 128] := by
  refine ⟨?_, by decide⟩
  intro b s
  have hkey : ∀ b2, (appendUnq b2 (strBody s) = none) ↔ bodyOk (strBody s) = false := by
    intro b2
    have h := appendUnq_isSome b2 (strBody s)
    constructor
    · intro hn
      rw [hn] at h
      exact h.symm
    · intro hb
      rw [hb] at h
      cases hopt : appendUnq b2 (strBody s) with
      | none => rfl
      | some v => rw [hopt] at h; cases h
  constructor
  · unfold appendUnquote
    cases hw : wrapped s with
    | false =>
      simp
    | true =>
      simp only [if_true]
      rw [hkey b]
      constructor
      · intro hb hc
        rw [hc.2] at hb
        cases hb
      · intro hc
        cases hbo : bodyOk (strBody s) with
        | false => rfl
        | true => exact absurd ⟨by trivial, hbo⟩ hc
  · unfold unquote appendUnquote
    cases hw : wrapped s with
    | false =>
      simp only [Bool.false_eq_true, if_false]
    | true =>
      simp only [if_true]
      cases hfi : firstIdx (· = 92) s with
      | none =>
        simp only [if_pos rfl]
        have hnb : firstIdx (· = 92) (strBody s) = none := by
          apply firstIdx_eq_none
          intro c hc
          have hcs : c ∈ s := by
            unfold strBody at hc
            exact List.mem_of_mem_drop (List.mem_of_mem_dropLast hc)
          have := firstIdx_none hfi
          obtain ⟨k, hk, hck⟩ := List.getElem_of_mem hcs
          have := this k c (by rw [List.getElem?_eq_getElem hk, hck])
          exact this
        have hsome : appendUnq b (strBody s) = some (b ++ strBody s) := by
          unfold appendUnq
          rw [appendUnqF.eq_def]
          simp only [hnb]
        constructor
        · intro hc; cases hc
        · intro hc
          rw [hsome] at hc
          cases hc
      | some i =>
        rw [if_neg (by simp)]
        rw [hkey [], hkey b]

/-! ### Structural equality: values compared with cached spans erased -/

mutual

/-- Erase the cached raw spans of containers, keeping all structural data. -/
def JVal.strip : JVal → JVal
  | .jnull => .jnull
  | .jtrue => .jtrue
  | .jfalse => .jfalse
  | .jnum raw => .jnum raw
  | .jstr raw => .jstr raw
  | .jarr _ elems => .jarr [] (stripL elems)
  | .jobj _ fields => .jobj [] (stripF fields)

def stripL : List JVal → List JVal
  | [] => []
  | v :: rest => v.strip :: stripL rest

def stripF : List (List Nat × JVal) → List (List Nat × JVal)
  | [] => []
  | f :: rest => (f.1, f.2.strip) :: stripF rest

end

/-- Structural equality of two values: equal up to the cached raw spans. -/
def structEq (a b : JVal) : Prop := a.strip = b.strip

theorem stripL_append (a b : List JVal) : stripL (a ++ b) = stripL a ++ stripL b := by
  induction a with
  | nil => rfl
  | cons v r ih => rw [List.cons_append, stripL, stripL, ih, List.cons_append]

theorem stripF_append (a b : List (List Nat × JVal)) :
    stripF (a ++ b) = stripF a ++ stripF b := by
  induction a with
  | nil => rfl
  | cons v r ih => rw [List.cons_append, stripF, stripF, ih, List.cons_append]

/-- The stable insertion sort leaves an already sorted field list unchanged. -/
theorem sortFields_of_sorted : ∀ {l : List (List Nat × JVal)},
    fieldsSorted l → sortFields l = l := by
  intro l
  induction l with
  | nil => intro _; rfl
  | cons f t ih =>
    intro hs
    unfold fieldsSorted at hs
    rw [List.pairwise_cons] at hs
    have h1 : sortFields (f :: t) = insertField f (sortFields t) := rfl
    rw [h1, ih hs.2]
    cases t with
    | nil => rfl
    | cons g t' =>
      unfold insertField
      rw [if_neg (by rw [hs.1 g (by simp)]; simp)]

/-! ### Trailing backslashes under cons -/

theorem trailBS_all92 {u : List Nat} (h : u.all (· = 92) = true) :
    trailBS u = u.length := by
  unfold trailBS
  rw [takeWhile_of_all (by simpa using h)]
  simp

theorem trailBS_cons_ne {c : Nat} (hc : ¬ c = 92) (u : List Nat) :
    trailBS (c :: u) = trailBS u := by
  unfold trailBS
  rw [List.reverse_cons, takeWhile_append_cases]
  split
  · rename_i hall
    have h1 : ([c].takeWhile (· = 92)) = [] := by
      have hd : (decide (c = 92)) = false := by simpa using hc
      simp [List.takeWhile, hd]
    rw [h1, takeWhile_of_all hall]
    simp
  · rfl

theorem trailBS_cons_of_ex {c : Nat} {u : List Nat} (h : ∃ d ∈ u, ¬ d = 92) :
    trailBS (c :: u) = trailBS u := by
  unfold trailBS
  rw [List.reverse_cons, takeWhile_append_cases]
  split
  · rename_i hall
    exfalso
    obtain ⟨d, hd, hdne⟩ := h
    have := List.all_eq_true.mp hall d (by simp [hd])
    simp at this
    exact hdne this
  · rfl

/-- Peel a non-backslash head byte. -/
theorem trailBS_peel {c : Nat} (hc : ¬ c = 92) (u : List Nat) :
    trailBS (c :: u) % 2 = trailBS u % 2 := by
  rw [trailBS_cons_ne hc]

/-- Peel any head byte when the tail contains a non-backslash. -/
theorem trailBS_peel_ex {c d : Nat} {u : List Nat} (hd : d ∈ u) (hdne : ¬ d = 92) :
    trailBS (c :: u) = trailBS u :=
  trailBS_cons_of_ex ⟨d, hd, hdne⟩

/-! ### Prefix stability of terminator positions -/

theorem isTerm_ext {a b : List Nat} {k : Nat} (hk : k < a.length) :
    isTerm (a ++ b) k ↔ isTerm a k := by
  unfold isTerm
  rw [List.getElem?_append, if_pos hk, List.take_append_of_le_length (Nat.le_of_lt hk)]

theorem hexDigit_ne92 {h : Nat} {d : Nat} (hh : hexDigit h = some d) : ¬ h = 92 := by
  intro he
  subst he
  simp [hexDigit] at hh

theorem hex4_ne92 {a b c d : Nat} {r : Nat} (h : hex4 a b c d = some r) :
    ¬ a = 92 ∧ ¬ b = 92 ∧ ¬ c = 92 ∧ ¬ d = 92 := by
  unfold hex4 at h
  match ha : hexDigit a, hb : hexDigit b, hc : hexDigit c, hd : hexDigit d with
  | some x, some y, some z, some w =>
    exact ⟨hexDigit_ne92 ha, hexDigit_ne92 hb, hexDigit_ne92 hc, hexDigit_ne92 hd⟩
  | none, _, _, _ => rw [ha] at h; simp at h
  | some x, none, _, _ => rw [ha, hb] at h; simp at h
  | some x, some y, none, _ => rw [ha, hb, hc] at h; simp at h
  | some x, some y, some z, none => rw [ha, hb, hc, hd] at h; simp at h

/-- A body accepted by the escape grammar never ends in an odd run of
backslashes: every backslash belongs to a complete escape sequence. -/
theorem bodyOkF_trailBS (fuel : Nat) :
    ∀ s, bodyOkF fuel s = true → trailBS s % 2 = 0 := by
  induction fuel with
  | zero => intro s h; cases h
  | succ n ih =>
    intro s h
    rw [bodyOkF_succ] at h
    match s with
    | [] => rfl
    | c :: u =>
      dsimp only [] at h
      by_cases hc : c = 92
      · subst hc
        rw [if_pos rfl] at h
        match u with
        | [] => cases h
        | c2 :: u2 =>
          dsimp only [] at h
          cases hse : simpleEsc c2 with
          | some e =>
            simp only [hse] at h
            have hev := ih u2 h
            by_cases h92 : c2 = 92
            · subst h92
              by_cases hall : u2.all (· = 92) = true
              · have h1 : ((92 : Nat) :: 92 :: u2).all (· = 92) = true := by
                  simp only [List.all_cons, hall]
                  simp
                rw [trailBS_all92 h1]
                rw [trailBS_all92 hall] at hev
                simp only [List.length_cons]
                omega
              · obtain ⟨d, hd, hdne⟩ : ∃ d ∈ u2, ¬ d = 92 := by
                  rw [List.all_eq_true] at hall
                  push_neg at hall
                  obtain ⟨d, hd, hdne⟩ := hall
                  exact ⟨d, hd, by simpa using hdne⟩
                rw [trailBS_peel_ex (by simp [hd]) hdne, trailBS_peel_ex hd hdne]
                exact hev
            · rw [trailBS_peel_ex (by simp) h92, trailBS_cons_ne h92]
              exact hev
          | none =>
            simp only [hse] at h
            by_cases hc2 : c2 = 117
            · subst hc2
              rw [if_pos rfl] at h
              match u2 with
              | [] => cases h
              | [x1] => cases h
              | [x1, x2] => cases h
              | [x1, x2, x3] => cases h
              | x1 :: x2 :: x3 :: x4 :: u3 =>
                dsimp only [] at h
                cases hhex : hex4 x1 x2 x3 x4 with
                | none => simp only [hhex] at h; cases h
                | some r1 =>
                  simp only [hhex] at h
                  obtain ⟨hx1, hx2, hx3, hx4⟩ := hex4_ne92 hhex
                  by_cases hsur : (55296 ≤ r1 && r1 ≤ 57343) = true
                  · rw [if_pos hsur] at h
                    by_cases hlow : 56320 ≤ r1
                    · rw [if_pos hlow] at h; cases h
                    · rw [if_neg hlow] at h
                      match u3 with
                      | [] => cases h
                      | [a1] => cases h
                      | [a1, a2] => cases h
                      | [a1, a2, a3] => cases h
                      | [a1, a2, a3, a4] => cases h
                      | [a1, a2, a3, a4, a5] => cases h
                      | a1 :: a2 :: g1 :: g2 :: g3 :: g4 :: u4 =>
                        dsimp only [] at h
                        by_cases hab : (a1 = 92 && a2 = 117) = true
                        · rw [if_pos hab] at h
                          cases hhex2 : hex4 g1 g2 g3 g4 with
                          | none => simp only [hhex2] at h; cases h
                          | some r2 =>
                            simp only [hhex2] at h
                            by_cases hr2 : (56320 ≤ r2 && r2 ≤ 57343) = true
                            · rw [if_pos hr2] at h
                              have hev := ih u4 h
                              obtain ⟨hg1, hg2, hg3, hg4⟩ := hex4_ne92 hhex2
                              have ha2 : a2 = 117 := by
                                simp only [Bool.and_eq_true, decide_eq_true_eq] at hab
                                exact hab.2
                              subst ha2
                              rw [trailBS_peel_ex (c := 92) (d := 117) (by simp) (by simp),
                                  trailBS_cons_ne (by simp),
                                  trailBS_cons_ne hx1, trailBS_cons_ne hx2,
                                  trailBS_cons_ne hx3, trailBS_cons_ne hx4,
                                  trailBS_peel_ex (c := a1) (d := 117) (by simp) (by simp),
                                  trailBS_cons_ne (by simp),
                                  trailBS_cons_ne hg1, trailBS_cons_ne hg2,
                                  trailBS_cons_ne hg3, trailBS_cons_ne hg4]
                              exact hev
                            · rw [if_neg hr2] at h; cases h
                        · rw [if_neg hab] at h; cases h
                  · rw [if_neg hsur] at h
                    have hev := ih u3 h
                    rw [trailBS_peel_ex (c := 92) (d := 117) (by simp) (by simp),
                        trailBS_cons_ne (by simp),
                        trailBS_cons_ne hx1, trailBS_cons_ne hx2,
                        trailBS_cons_ne hx3, trailBS_cons_ne hx4]
                    exact hev
            · rw [if_neg hc2] at h; cases h
      · rw [if_neg hc] at h
        rw [trailBS_cons_ne hc]
        exact ih u h

theorem bodyOk_trailBS {s : List Nat} (h : bodyOk s = true) : trailBS s % 2 = 0 :=
  bodyOkF_trailBS (s.length + 1) s h

theorem strBody_wrap (body : List Nat) : strBody (34 :: body ++ [34]) = body := by
  unfold strBody
  simp

/-- Unquote succeeds exactly on wrapped literals whose body the escape grammar
accepts. -/
theorem unquote_some_iff {s : List Nat} :
    (∃ u, unquote s = some u) ↔ (wrapped s = true ∧ bodyOk (strBody s) = true) := by
  unfold unquote
  cases hw : wrapped s with
  | false =>
    simp
  | true =>
    simp only [if_true]
    cases hfi : firstIdx (· = 92) s with
    | none =>
      simp only [if_pos rfl]
      constructor
      · intro _
        refine ⟨by trivial, ?_⟩
        unfold bodyOk
        apply bodyOkF_no92
        · intro c hc
          have hcs : c ∈ s := by
            unfold strBody at hc
            exact List.mem_of_mem_drop (List.mem_of_mem_dropLast hc)
          obtain ⟨k, hk, hck⟩ := List.getElem_of_mem hcs
          have := firstIdx_none hfi k c (by rw [List.getElem?_eq_getElem hk, hck])
          simpa using this
        · omega
      · intro _
        exact ⟨_, rfl⟩
    | some i =>
      rw [if_neg (by simp)]
      have h := appendUnq_isSome [] (strBody s)
      constructor
      · rintro ⟨u, hu⟩
        refine ⟨by trivial, ?_⟩
        rw [hu] at h
        exact h.symm
      · rintro ⟨_, hb⟩
        rw [hb] at h
        cases hopt : appendUnq [] (strBody s) with
        | none => rw [hopt] at h; cases h
        | some v => exact ⟨v, rfl⟩

/-- The shape of a successfully unquoted string token produced by the
tokenizer: an opening quote, a self-delimiting body (no terminator before its
end, ending in an even run of backslashes), and the closing quote. -/
theorem strTok_shape {s tok rest : List Nat}
    (hnt : nextTok s = some (tok, rest)) (hhead : tok.head? = some 34)
    (hunq : ∃ u, unquote tok = some u) :
    ∃ body, tok = 34 :: body ++ [34] ∧ (∀ k, k < body.length → ¬ isTerm body k) ∧
      trailBS body % 2 = 0 ∧ bodyOk body = true := by
  obtain ⟨c, r, hdrop, htok⟩ := nextTok_eq_some.mp hnt
  have hc34 : c = 34 := by
    by_contra hne
    unfold tokAt at htok
    rw [if_neg hne] at htok
    by_cases hs : isStructural c = true
    · rw [if_pos hs, Prod.mk.injEq] at htok
      rw [htok.1] at hhead
      simp at hhead
      exact hne hhead
    · rw [if_neg hs, Prod.mk.injEq] at htok
      rw [htok.1] at hhead
      simp at hhead
      exact hne hhead
  subst hc34
  have htok1 : tok = 34 :: (quoteScan r).1 := by
    unfold tokAt at htok
    rw [if_pos rfl, Prod.mk.injEq] at htok
    exact htok.1
  by_cases hterm : ∃ k, isTerm r k
  · have hm : isTerm r (Nat.find hterm) := Nat.find_spec hterm
    have hmin : ∀ k, k < Nat.find hterm → ¬ isTerm r k := fun k hk => Nat.find_min hterm hk
    have hqs := quoteScan_eq_of_first_term hm hmin
    have hmlen : Nat.find hterm < r.length := (List.getElem?_eq_some.mp hm.1).1
    refine ⟨r.take (Nat.find hterm), ?_, ?_, ?_, ?_⟩
    · rw [htok1, hqs]
      have : r.take (Nat.find hterm + 1) = r.take (Nat.find hterm) ++ [34] := by
        rw [List.take_succ, hm.1]
        rfl
      rw [this]
      rfl
    · intro k hk
      rw [List.length_take] at hk
      have hk2 : k < Nat.find hterm := by omega
      intro hit
      apply hmin k hk2
      have htransfer := (isTerm_ext (a := r.take (Nat.find hterm)) (b := r.drop (Nat.find hterm))
        (k := k) (by rw [List.length_take]; omega)).mpr hit
      rw [List.take_append_drop] at htransfer
      exact htransfer
    · exact hm.2
    · obtain ⟨hw, hb⟩ := unquote_some_iff.mp hunq
      have hshape : tok = 34 :: r.take (Nat.find hterm) ++ [34] := by
        rw [htok1, hqs]
        have : r.take (Nat.find hterm + 1) = r.take (Nat.find hterm) ++ [34] := by
          rw [List.take_succ, hm.1]
          rfl
        rw [this]
        rfl
      rw [hshape, strBody_wrap] at hb
      exact hb
  · push_neg at hterm
    have hqs := quoteScan_eq_of_no_term hterm
    rw [hqs] at htok1
    obtain ⟨hw, hb⟩ := unquote_some_iff.mp hunq
    rw [htok1] at hw
    unfold wrapped at hw
    simp only [Bool.and_eq_true, decide_eq_true_eq] at hw
    have hrne : r ≠ [] := by
      intro hnil
      subst hnil
      simp at hw
    have hlast : r.getLast? = some 34 := by
      cases r with
      | nil => exact absurd rfl hrne
      | cons b t =>
        have := hw.2
        rwa [List.getLast?_cons_cons] at this
    obtain ⟨r', rfl⟩ := exists_concat_of_getLast hlast
    exfalso
    apply hterm r'.length
    constructor
    · rw [List.getElem?_append_right (Nat.le_refl _)]
      simp
    · rw [List.take_left]
      have hb2 : bodyOk r' = true := by
        have h3 : bodyOk (strBody (34 :: r' ++ [34])) = true := by
          rw [htok1] at hb
          exact hb
        rwa [strBody_wrap] at h3
      exact bodyOk_trailBS hb2

theorem numTok_shape {s tok rest : List Nat} {c : Nat}
    (hnt : nextTok s = some (tok, rest)) (hhead : tok.head? = some c)
    (hc : c = 45 ∨ (48 ≤ c ∧ c ≤ 57)) :
    ∃ tr, tok = c :: tr ∧ (c :: tr).all (fun b => !isDelim b) = true := by
  have hdelim : isDelim c = false := by
    rcases hc with rfl | ⟨h1, h2⟩
    · rfl
    · have hne : ∀ k : Nat, ¬ (48 ≤ k ∧ k ≤ 57) → ¬ c = k := by
        intro k hk he
        subst he
        exact hk ⟨h1, h2⟩
      unfold isDelim isWS
      simp only [Bool.or_eq_false_iff, decide_eq_false_iff_not]
      exact ⟨⟨⟨⟨⟨⟨⟨⟨⟨⟨hne 32 (by decide), hne 9 (by decide)⟩, hne 10 (by decide)⟩,
        hne 13 (by decide)⟩, hne 91 (by decide)⟩, hne 93 (by decide)⟩,
        hne 123 (by decide)⟩, hne 125 (by decide)⟩, hne 58 (by decide)⟩,
        hne 44 (by decide)⟩, hne 34 (by decide)⟩
  obtain ⟨c', r, hdrop, htok⟩ := nextTok_eq_some.mp hnt
  unfold tokAt at htok
  by_cases h34 : c' = 34
  · rw [if_pos h34, Prod.mk.injEq] at htok
    rw [htok.1] at hhead
    simp at hhead
    rw [← hhead] at hdelim
    simp [isDelim] at hdelim
  · rw [if_neg h34] at htok
    by_cases hs : isStructural c' = true
    · rw [if_pos hs, Prod.mk.injEq] at htok
      rw [htok.1] at hhead
      simp at hhead
      subst hhead
      unfold isDelim at hdelim
      simp only [Bool.or_eq_false_iff, decide_eq_false_iff_not] at hdelim
      obtain ⟨⟨⟨⟨⟨⟨⟨hws, h91⟩, h93⟩, h123⟩, h125⟩, h58⟩, h44⟩, h34x⟩ := hdelim
      have hsf : isStructural c' = false := by
        unfold isStructural
        simp only [Bool.or_eq_false_iff, decide_eq_false_iff_not]
        exact ⟨⟨⟨⟨⟨h44, h58⟩, h91⟩, h93⟩, h123⟩, h125⟩
      rw [hsf] at hs
      cases hs
    · rw [if_neg hs, Prod.mk.injEq] at htok
      have hc' : c' = c := by
        rw [htok.1] at hhead
        simpa using hhead
      subst hc'
      refine ⟨r.takeWhile (fun b => !isDelim b), htok.1, ?_⟩
      rw [List.all_cons, Bool.and_eq_true]
      refine ⟨by simp [hdelim], ?_⟩
      rw [List.all_eq_true]
      intro x hx
      simpa using List.mem_takeWhile_imp hx

/-- Well-formed values: the shapes of the raw tokens and bodies that the
parser guarantees, together with sorted object fields. -/
inductive WFv : JVal → Prop where
  | wnull : WFv .jnull
  | wtrue : WFv .jtrue
  | wfalse : WFv .jfalse
  | wnum (c : Nat) (tr : List Nat) :
      (c = 45 ∨ (48 ≤ c ∧ c ≤ 57)) → validNumber (c :: tr) = true →
      (c :: tr).all (fun b => !isDelim b) = true → WFv (.jnum (c :: tr))
  | wstr (body : List Nat) :
      (∀ k, k < body.length → ¬ isTerm body k) → trailBS body % 2 = 0 →
      bodyOk body = true → WFv (.jstr (34 :: body ++ [34]))
  | warr (cached : List Nat) (elems : List JVal) :
      (∀ e ∈ elems, WFv e) → WFv (.jarr cached elems)
  | wobj (cached : List Nat) (fs : List (List Nat × JVal)) :
      fieldsSorted fs → (∀ f ∈ fs, WFv f.2) → WFv (.jobj cached fs)

/-- The well-formedness facts for one fuel level. -/
def WfInvAt (fuel : Nat) : Prop :=
  (∀ s v rest, parseValueF fuel s = .ok (v, rest) → WFv v) ∧
  (∀ start json acc v rest, parseArrF fuel start json acc = .ok (v, rest) →
    (∀ e ∈ acc, WFv e) → WFv v) ∧
  (∀ start json acc v rest, parseObjF fuel start json acc = .ok (v, rest) →
    (∀ f ∈ acc, WFv f.2) → WFv v) ∧
  (∀ start keyTok json acc v rest, parseFieldF fuel start keyTok json acc = .ok (v, rest) →
    (∀ f ∈ acc, WFv f.2) → WFv v)

theorem wfInvAt (fuel : Nat) : WfInvAt fuel := by
  induction fuel with
  | zero =>
    refine ⟨?_, ?_, ?_, ?_⟩
    · intro s v rest h; rw [parseValueF] at h; cases h
    · intro start json acc v rest h; rw [parseArrF] at h; cases h
    · intro start json acc v rest h; rw [parseObjF] at h; cases h
    · intro start keyTok json acc v rest h; rw [parseFieldF] at h; cases h
  | succ n ih =>
    obtain ⟨ihV, ihA, ihO, ihF⟩ := ih
    have hV : ∀ s v rest, parseValueF (n + 1) s = .ok (v, rest) → WFv v := by
      intro s v rest h
      rw [parseValueF] at h
      split at h
      · cases h
      · rename_i tok rest0 hnt
        split at h
        · split at h
          · simp only [Except.ok.injEq, Prod.mk.injEq] at h
            rw [← h.1]; exact .wnull
          · cases h
        · split at h
          · simp only [Except.ok.injEq, Prod.mk.injEq] at h
            rw [← h.1]; exact .wtrue
          · cases h
        · split at h
          · simp only [Except.ok.injEq, Prod.mk.injEq] at h
            rw [← h.1]; exact .wfalse
          · cases h
        · rename_i hhd
          split at h
          · rename_i u hu
            simp only [Except.ok.injEq, Prod.mk.injEq] at h
            obtain ⟨body, hshape, hnoterm, htrail, hbody⟩ := strTok_shape hnt hhd ⟨u, hu⟩
            rw [← h.1, hshape]
            exact .wstr body hnoterm htrail hbody
          · cases h
        · exact ihA _ _ _ _ _ h (by intro e he; cases he)
        · exact ihO _ _ _ _ _ h (by intro f hf; cases hf)
        · cases h
        · cases h
        · rename_i c hne1 hne2 hne3 hne4 hne5 hne6 hne7 hne8 hhd
          split at h
          · rename_i hdig
            split at h
            · rename_i hvn
              simp only [Except.ok.injEq, Prod.mk.injEq] at h
              obtain ⟨tr, htr, hall⟩ := numTok_shape hnt hhd hdig
              rw [← h.1, htr]
              exact .wnum c tr hdig (by rw [← htr]; exact hvn) hall
            · cases h
          · cases h
        · cases h
    have hA : ∀ start json acc v rest, parseArrF (n + 1) start json acc = .ok (v, rest) →
        (∀ e ∈ acc, WFv e) → WFv v := by
      intro start json acc v rest h hacc
      rw [parseArrF] at h
      split at h
      · split at h
        · simp only [Except.ok.injEq, Prod.mk.injEq] at h
          rw [← h.1]
          exact .warr _ _ (by intro e he; cases he)
        · cases h
        · rename_i v0 rest0 heq
          exact ihA _ _ _ _ _ h (by
            intro e he
            rcases List.mem_append.mp he with he | he
            · exact hacc e he
            · rcases List.mem_singleton.mp he with rfl
              exact ihV _ _ _ heq)
      · split at h
        · cases h
        · split at h
          · simp only [Except.ok.injEq, Prod.mk.injEq] at h
            rw [← h.1]
            exact .warr _ _ hacc
          · split at h
            · split at h
              · cases h
              · cases h
              · rename_i v0 rest0 heq
                exact ihA _ _ _ _ _ h (by
                  intro e he
                  rcases List.mem_append.mp he with he | he
                  · exact hacc e he
                  · rcases List.mem_singleton.mp he with rfl
                    exact ihV _ _ _ heq)
            · cases h
    have hO : ∀ start json acc v rest, parseObjF (n + 1) start json acc = .ok (v, rest) →
        (∀ f ∈ acc, WFv f.2) → WFv v := by
      intro start json acc v rest h hacc
      rw [parseObjF] at h
      split at h
      · cases h
      · split at h
        · simp only [Except.ok.injEq, Prod.mk.injEq] at h
          rw [← h.1]
          refine .wobj _ _ (sortFields_sorted acc) ?_
          intro f hf
          exact hacc f ((sortFields_perm acc).mem_iff.mp hf)
        · split at h
          · exact ihF _ _ _ _ _ _ h hacc
          · split at h
            · split at h
              · cases h
              · exact ihF _ _ _ _ _ _ h hacc
            · cases h
    have hF : ∀ start keyTok json acc v rest, parseFieldF (n + 1) start keyTok json acc = .ok (v, rest) →
        (∀ f ∈ acc, WFv f.2) → WFv v := by
      intro start keyTok json acc v rest h hacc
      rw [parseFieldF] at h
      split at h
      · cases h
      · rename_i key hkey
        split at h
        · cases h
        · split at h
          · split at h
            · rename_i v0 rest0 heq
              exact ihO _ _ _ _ _ h (by
                intro f hf
                rcases List.mem_append.mp hf with hf | hf
                · exact hacc f hf
                · rcases List.mem_singleton.mp hf with rfl
                  exact ihV _ _ _ heq)
            · cases h
          · cases h
    exact ⟨hV, hA, hO, hF⟩

theorem take_append_len (pre t : List Nat) (k : Nat) :
    (pre ++ t).take (pre.length + k) = pre ++ t.take k := by
  induction pre with
  | nil => simp
  | cons c p ih =>
    have e : (c :: p).length + k = (p.length + k) + 1 := by simp; omega
    rw [e, List.cons_append, List.take_succ_cons, ih]
    rfl

theorem getElem?_append_len (pre t : List Nat) (k : Nat) :
    (pre ++ t)[pre.length + k]? = t[k]? := by
  rw [List.getElem?_append_right (by omega)]
  congr 1
  omega

theorem trailBS_snoc_ne {c : Nat} (hc : ¬ c = 92) (a : List Nat) :
    trailBS (a ++ [c]) = 0 := by
  unfold trailBS
  rw [List.reverse_append]
  simp only [List.reverse_singleton, List.singleton_append]
  have hd : (decide (c = 92)) = false := by simpa using hc
  simp [List.takeWhile_cons, hd]

theorem trailBS_snoc_92 (a : List Nat) : trailBS (a ++ [92]) = trailBS a + 1 := by
  unfold trailBS
  rw [List.reverse_append]
  simp only [List.reverse_singleton, List.singleton_append]
  rw [List.takeWhile_cons]
  simp

theorem firstIdx_append_92 {pre : List Nat} (hpre : ∀ c ∈ pre, ¬ c = 92) (u : List Nat) :
    firstIdx (· = 92) (pre ++ 92 :: u) = some pre.length := by
  induction pre with
  | nil => simp [firstIdx]
  | cons c p ih =>
    rw [List.cons_append]
    simp only [firstIdx]
    rw [if_neg (by simpa using hpre c (by simp))]
    rw [ih (fun d hd => hpre d (by simp [hd]))]
    rfl

theorem lo_hex_range (n : ℕ) :
    48 ≤ (if n % 16 < 10 then 48 + n % 16 else 87 + n % 16) ∧
    (if n % 16 < 10 then 48 + n % 16 else 87 + n % 16) ≤ 102 ∧
    ¬ (if n % 16 < 10 then 48 + n % 16 else 87 + n % 16) = 92 ∧
    ¬ (if n % 16 < 10 then 48 + n % 16 else 87 + n % 16) = 34 := by
  have h := Nat.mod_lt n (y := 16) (by decide)
  split <;> omega

theorem hi_hex_range (n : ℕ) (h : n < 32) :
    48 + n / 16 ≤ 49 ∧ ¬ (48 + n / 16) = 92 ∧ ¬ (48 + n / 16) = 34 := by
  omega

/-- The three shapes of an escaped byte. -/
theorem escNat_cases (c : Nat) :
    (escNat c = [c] ∧ ¬ c = 34 ∧ ¬ c = 92 ∧ ¬ c < 32) ∨
    (∃ e, escNat c = [92, e] ∧ simpleEsc e = some c) ∨
    (c < 32 ∧ escNat c = [92, 117, 48, 48, 48 + c / 16,
      if c % 16 < 10 then 48 + c % 16 else 87 + c % 16]) := by
  unfold escNat
  by_cases h34 : c = 34
  · subst h34; right; left; exact ⟨34, by rw [if_pos rfl], by decide⟩
  · rw [if_neg h34]
    by_cases h92 : c = 92
    · subst h92; right; left; exact ⟨92, by rw [if_pos rfl], by decide⟩
    · rw [if_neg h92]
      by_cases h8 : c = 8
      · subst h8; right; left; exact ⟨98, by rw [if_pos rfl], by decide⟩
      · rw [if_neg h8]
        by_cases h12 : c = 12
        · subst h12; right; left; exact ⟨102, by rw [if_pos rfl], by decide⟩
        · rw [if_neg h12]
          by_cases h10 : c = 10
          · subst h10; right; left; exact ⟨110, by rw [if_pos rfl], by decide⟩
          · rw [if_neg h10]
            by_cases h13 : c = 13
            · subst h13; right; left; exact ⟨114, by rw [if_pos rfl], by decide⟩
            · rw [if_neg h13]
              by_cases h9 : c = 9
              · subst h9; right; left; exact ⟨116, by rw [if_pos rfl], by decide⟩
              · rw [if_neg h9]
                by_cases h32 : c < 32
                · right; right
                  refine ⟨h32, ?_⟩
                  rw [if_pos h32]
                  have hdiv : c / 16 < 10 := by
                    have hgen : ∀ n : ℕ, n < 32 → n / 16 < 10 := by
                      intro n hn
                      omega
                    exact hgen c h32
                  rw [if_pos hdiv]
                · rw [if_neg h32]
                  left
                  exact ⟨rfl, h34, h92, h32⟩

/-- The escaped body of a quoted key never contains a terminator and ends in
an even run of backslashes: the scan of its quoted form stops exactly at the
closing quote appended after it. -/
theorem escChunk_safe : ∀ k : List Nat,
    trailBS ((k.map escNat).flatten) % 2 = 0 ∧
    (∀ m, m < ((k.map escNat).flatten).length → ¬ isTerm ((k.map escNat).flatten) m) := by
  intro k
  induction k using List.reverseRecOn with
  | nil => exact ⟨rfl, by intro m hm; simp at hm⟩
  | append_singleton k c ih =>
    obtain ⟨ihT, ihM⟩ := ih
    have hflat : ((k ++ [c]).map escNat).flatten = (k.map escNat).flatten ++ escNat c := by
      simp
    rw [hflat]
    have hold : ∀ m, m < ((k.map escNat).flatten).length →
        ¬ isTerm ((k.map escNat).flatten ++ escNat c) m := by
      intro m hm hterm
      exact ihM m hm ((isTerm_ext hm).mp hterm)
    rcases escNat_cases c with ⟨hraw, h34, h92, hge⟩ | ⟨e, hesc, hse⟩ | ⟨h32, hu⟩
    · rw [hraw] at hold ⊢
      refine ⟨by rw [trailBS_snoc_ne h92], ?_⟩
      intro m hm
      rw [List.length_append] at hm
      by_cases hlt : m < ((k.map escNat).flatten).length
      · exact hold m hlt
      · have hmeq : m = ((k.map escNat).flatten).length := by
          have h1 : ([c] : List Nat).length = 1 := rfl
          omega
        intro hterm
        have h2 := hterm.1
        rw [hmeq, show ((k.map escNat).flatten).length = ((k.map escNat).flatten).length + 0 from rfl,
            getElem?_append_len] at h2
        simp at h2
        exact h34 h2
    · rw [hesc] at hold ⊢
      constructor
      · by_cases he92 : e = 92
        · subst he92
          rw [show ((k.map escNat).flatten ++ [92, 92]) =
                (((k.map escNat).flatten ++ [92]) ++ [92]) by simp,
              trailBS_snoc_92, trailBS_snoc_92]
          omega
        · rw [show ((k.map escNat).flatten ++ [92, e]) =
                (((k.map escNat).flatten ++ [92]) ++ [e]) by simp,
              trailBS_snoc_ne he92]
      · intro m hm
        rw [List.length_append] at hm
        by_cases hlt : m < ((k.map escNat).flatten).length
        · exact hold m hlt
        · by_cases hm0 : m = ((k.map escNat).flatten).length
          · intro hterm
            have h2 := hterm.1
            rw [hm0, show ((k.map escNat).flatten).length = ((k.map escNat).flatten).length + 0 from rfl,
                getElem?_append_len] at h2
            simp at h2
          · have hm1 : m = ((k.map escNat).flatten).length + 1 := by
              have h1 : ([92, e] : List Nat).length = 2 := rfl
              omega
            intro hterm
            have h2 := hterm.2
            rw [hm1, take_append_len] at h2
            rw [show (([92, e] : List Nat).take 1) = [92] from rfl, trailBS_snoc_92] at h2
            omega
    · rw [hu] at hold ⊢
      have hlo := lo_hex_range c
      have hhi := hi_hex_range c h32
      constructor
      · rw [show ((k.map escNat).flatten ++ [92, 117, 48, 48, 48 + c / 16,
              if c % 16 < 10 then 48 + c % 16 else 87 + c % 16]) =
            (((k.map escNat).flatten ++ [92, 117, 48, 48, 48 + c / 16]) ++
              [if c % 16 < 10 then 48 + c % 16 else 87 + c % 16]) by simp,
            trailBS_snoc_ne hlo.2.2.1]
      · intro m hm
        rw [List.length_append] at hm
        by_cases hlt : m < ((k.map escNat).flatten).length
        · exact hold m hlt
        · obtain ⟨j, hj, hjlt⟩ : ∃ j, m = ((k.map escNat).flatten).length + j ∧ j < 6 := by
            refine ⟨m - ((k.map escNat).flatten).length, by omega, ?_⟩
            have h1 : ([92, 117, 48, 48, 48 + c / 16,
              if c % 16 < 10 then 48 + c % 16 else 87 + c % 16] : List Nat).length = 6 := rfl
            omega
          intro hterm
          have h2 := hterm.1
          rw [hj, getElem?_append_len] at h2
          match j, hjlt, h2 with
          | 0, _, h2 => simp at h2
          | 1, _, h2 => simp at h2
          | 2, _, h2 => simp at h2
          | 3, _, h2 => simp at h2
          | 4, _, h2 =>
            simp at h2
            exact hhi.2.2 h2
          | 5, _, h2 =>
            simp at h2
            exact hlo.2.2.2 h2


/-- Value of the two-digit hex tail escNat writes for a control byte. -/
theorem hex4_enc (n : ℕ) (h : n < 32) :
    hex4 48 48 (48 + n / 16) (if n % 16 < 10 then 48 + n % 16 else 87 + n % 16) = some n := by
  have hd : n / 16 < 2 := by omega
  have hm : n % 16 < 16 := by omega
  have h1 : hexDigit 48 = some 0 := by decide
  have h2 : hexDigit (48 + n / 16) = some (n / 16) := by
    unfold hexDigit
    rw [if_pos (by simp only [Bool.and_eq_true, decide_eq_true_eq]; omega)]
    simp
  have h3 : hexDigit (if n % 16 < 10 then 48 + n % 16 else 87 + n % 16) = some (n % 16) := by
    unfold hexDigit
    split
    · rename_i hlt
      rw [if_pos (by simp only [Bool.and_eq_true, decide_eq_true_eq]; omega)]
      simp
    · rename_i hge
      rw [if_neg (by simp only [Bool.and_eq_true, decide_eq_true_eq, not_and]; omega),
          if_pos (by simp only [Bool.and_eq_true, decide_eq_true_eq]; omega)]
      simp only [Option.some.injEq]
      omega
  unfold hex4
  rw [h1, h2, h3]
  simp only [Option.some.injEq]
  omega

theorem utf8Encode_small (n : ℕ) (h : n < 128) : utf8Encode n = [n] := by
  unfold utf8Encode
  rw [if_pos h]

/-- Nats whose escNat image is the byte itself. -/
def rawEsc (c : Nat) : Bool := !(c = 34 || c = 92 || decide (c < 32))

theorem escNat_of_raw {c : Nat} (h : rawEsc c = true) :
    escNat c = [c] ∧ ¬ c = 34 ∧ ¬ c = 92 ∧ ¬ c < 32 := by
  unfold rawEsc at h
  simp only [Bool.not_eq_true', Bool.or_eq_false_iff, decide_eq_false_iff_not] at h
  obtain ⟨⟨h34, h92⟩, h32⟩ := h
  rcases escNat_cases c with hcl | ⟨e, hesc, hse⟩ | ⟨hlt, _⟩
  · exact hcl
  · exfalso
    unfold escNat at hesc
    rw [if_neg h34, if_neg h92, if_neg (fun he => h32 (by rw [he]; decide)),
        if_neg (fun he => h32 (by rw [he]; decide)), if_neg (fun he => h32 (by rw [he]; decide)),
        if_neg (fun he => h32 (by rw [he]; decide)), if_neg (fun he => h32 (by rw [he]; decide)),
        if_neg h32] at hesc
    cases hesc
  · exact absurd hlt h32

theorem flatten_raw {raws : List Nat} (h : ∀ c ∈ raws, rawEsc c = true) :
    (raws.map escNat).flatten = raws := by
  induction raws with
  | nil => rfl
  | cons c t ih =>
    simp only [List.map_cons, List.flatten_cons]
    rw [(escNat_of_raw (h c (by simp))).1, ih (fun d hd => h d (by simp [hd]))]
    rfl

theorem dropWhile_head_false {p : Nat → Bool} :
    ∀ {l : List Nat} {c : Nat} {t : List Nat}, l.dropWhile p = c :: t → p c = false := by
  intro l
  induction l with
  | nil => intro c t h; cases h
  | cons x r ih =>
    intro c t h
    rw [List.dropWhile_cons] at h
    split at h
    · exact ih h
    · rename_i hpx
      injection h with h1 _
      subst h1
      simpa using hpx

/-- AppendUnquote's loop decodes an escaped key body back to the key. -/
theorem appendUnq_escNat :
    ∀ (N : Nat) (k : List Nat), k.length ≤ N →
      ∀ fuel b, ((k.map escNat).flatten).length < fuel →
        appendUnqF fuel b ((k.map escNat).flatten) = some (b ++ k) := by
  intro N
  induction N with
  | zero =>
    intro k hk fuel b hf
    have hknil : k = [] := List.length_eq_zero.mp (Nat.le_zero.mp hk)
    subst hknil
    match fuel, hf with
    | f + 1, _ =>
      rw [appendUnqF]
      rfl
  | succ n ih =>
    intro k hk fuel b hf
    have hsplit : k = k.takeWhile rawEsc ++ k.dropWhile rawEsc :=
      (List.takeWhile_append_dropWhile rawEsc k).symm
    have hraws : ∀ c ∈ k.takeWhile rawEsc, rawEsc c = true :=
      fun c hc => List.mem_takeWhile_imp hc
    have hflatraws : ((k.takeWhile rawEsc).map escNat).flatten = k.takeWhile rawEsc :=
      flatten_raw hraws
    have hrawsne : ∀ c ∈ k.takeWhile rawEsc, ¬ c = 92 := by
      intro c hc
      exact (escNat_of_raw (hraws c hc)).2.2.1
    match hrest : k.dropWhile rawEsc with
    | [] =>
      have hkeq : k = k.takeWhile rawEsc := by
        conv_lhs => rw [hsplit]
        rw [hrest, List.append_nil]
      rw [hkeq, hflatraws] at hf ⊢
      match fuel, hf with
      | f + 1, _ =>
        rw [appendUnqF]
        rw [firstIdx_eq_none (by intro c hc; simpa using hrawsne c hc)]
    | c0 :: k2 =>
      have hc0 : rawEsc c0 = false := dropWhile_head_false hrest
      have hkeq : k = k.takeWhile rawEsc ++ c0 :: k2 := by
        conv_lhs => rw [hsplit]
        rw [hrest]
      have hk2 : k2.length ≤ n := by
        have hlenk : k.length = (k.takeWhile rawEsc).length + 1 + k2.length := by
          conv_lhs => rw [hkeq]
          simp only [List.length_append, List.length_cons]
          omega
        omega
      have hflat : (k.map escNat).flatten =
          k.takeWhile rawEsc ++ escNat c0 ++ (k2.map escNat).flatten := by
        conv_lhs => rw [hkeq]
        simp [hflatraws]
      rcases escNat_cases c0 with ⟨_, h34, h92, h32⟩ | ⟨e, hesc, hse⟩ | ⟨h32, hu⟩
      · exfalso
        unfold rawEsc at hc0
        simp only [Bool.not_eq_false', Bool.or_eq_true, decide_eq_true_eq] at hc0
        rcases hc0 with (h | h) | h
        · exact h34 h
        · exact h92 h
        · exact h32 h
      · rw [hflat, hesc]
        have hshape : k.takeWhile rawEsc ++ [92, e] ++ (k2.map escNat).flatten =
            k.takeWhile rawEsc ++ 92 :: e :: (k2.map escNat).flatten := by
          simp
        rw [hshape]
        rw [hflat, hesc, hshape] at hf
        have hlen : (k.takeWhile rawEsc ++ 92 :: e :: (k2.map escNat).flatten).length =
            (k.takeWhile rawEsc).length + 2 + ((k2.map escNat).flatten).length := by
          simp
          omega
        match fuel, hf with
        | f + 1, hf =>
          rw [appendUnqF]
          simp only [firstIdx_append_92 hrawsne]
          rw [if_neg (by rw [hlen]; omega)]
          have hg1 : (k.takeWhile rawEsc ++ 92 :: e :: (k2.map escNat).flatten).getD
              ((k.takeWhile rawEsc).length + 1) 0 = e := by
            rw [getD_append_len]
            rfl
          rw [hg1]
          simp only [hse]
          have hdr : (k.takeWhile rawEsc ++ 92 :: e :: (k2.map escNat).flatten).drop
              ((k.takeWhile rawEsc).length + 2) = (k2.map escNat).flatten := by
            rw [drop_append_len]
            rfl
          have htk : (k.takeWhile rawEsc ++ 92 :: e :: (k2.map escNat).flatten).take
              (k.takeWhile rawEsc).length = k.takeWhile rawEsc := by
            rw [List.take_left]
          rw [hdr, htk]
          rw [ih k2 hk2 f (b ++ k.takeWhile rawEsc ++ [c0]) (by rw [hlen] at hf; omega)]
          conv_rhs => rw [hkeq]
          simp
      · rw [hflat, hu]
        have hshape : k.takeWhile rawEsc ++ [92, 117, 48, 48, 48 + c0 / 16,
              if c0 % 16 < 10 then 48 + c0 % 16 else 87 + c0 % 16] ++ (k2.map escNat).flatten =
            k.takeWhile rawEsc ++ 92 :: 117 :: 48 :: 48 :: (48 + c0 / 16) ::
              (if c0 % 16 < 10 then 48 + c0 % 16 else 87 + c0 % 16) :: (k2.map escNat).flatten := by
          simp
        rw [hshape]
        rw [hflat, hu, hshape] at hf
        have hlen : (k.takeWhile rawEsc ++ 92 :: 117 :: 48 :: 48 :: (48 + c0 / 16) ::
              (if c0 % 16 < 10 then 48 + c0 % 16 else 87 + c0 % 16) :: (k2.map escNat).flatten).length =
            (k.takeWhile rawEsc).length + 6 + ((k2.map escNat).flatten).length := by
          simp
          omega
        match fuel, hf with
        | f + 1, hf =>
          rw [appendUnqF]
          simp only [firstIdx_append_92 hrawsne]
          rw [if_neg (by rw [hlen]; omega)]
          have hg1 : ∀ j x, (92 :: 117 :: 48 :: 48 :: (48 + c0 / 16) ::
              (if c0 % 16 < 10 then 48 + c0 % 16 else 87 + c0 % 16) ::
              (k2.map escNat).flatten).getD j 0 = x →
              (k.takeWhile rawEsc ++ 92 :: 117 :: 48 :: 48 :: (48 + c0 / 16) ::
                (if c0 % 16 < 10 then 48 + c0 % 16 else 87 + c0 % 16) ::
                (k2.map escNat).flatten).getD ((k.takeWhile rawEsc).length + j) 0 = x := by
            intro j x hx
            rw [getD_append_len]
            exact hx
          rw [hg1 1 117 rfl]
          simp only [show simpleEsc 117 = none from rfl, eq_self_iff_true, if_true]
          rw [if_neg (by rw [hlen]; omega)]
          rw [hg1 2 48 rfl, hg1 3 48 rfl, hg1 4 (48 + c0 / 16) rfl,
              hg1 5 (if c0 % 16 < 10 then 48 + c0 % 16 else 87 + c0 % 16) rfl]
          simp only [hex4_enc c0 h32]
          rw [if_neg (by simp only [Bool.and_eq_true, decide_eq_true_eq, not_and]; omega)]
          have hdr : (k.takeWhile rawEsc ++ 92 :: 117 :: 48 :: 48 :: (48 + c0 / 16) ::
              (if c0 % 16 < 10 then 48 + c0 % 16 else 87 + c0 % 16) :: (k2.map escNat).flatten).drop
              ((k.takeWhile rawEsc).length + 6) = (k2.map escNat).flatten := by
            rw [drop_append_len]
            rfl
          have htk : (k.takeWhile rawEsc ++ 92 :: 117 :: 48 :: 48 :: (48 + c0 / 16) ::
              (if c0 % 16 < 10 then 48 + c0 % 16 else 87 + c0 % 16) :: (k2.map escNat).flatten).take
              (k.takeWhile rawEsc).length = k.takeWhile rawEsc := by
            rw [List.take_left]
          rw [hdr, htk, utf8Encode_small c0 (by omega)]
          rw [ih k2 hk2 f (b ++ k.takeWhile rawEsc ++ [c0]) (by rw [hlen] at hf; omega)]
          conv_rhs => rw [hkeq]
          simp

theorem flatten_eq_self_of_no92 {k : List Nat}
    (h : ∀ c ∈ (k.map escNat).flatten, ¬ c = 92) : (k.map escNat).flatten = k := by
  induction k with
  | nil => rfl
  | cons c t ih =>
    have hflat : ((c :: t).map escNat).flatten = escNat c ++ (t.map escNat).flatten := by
      simp
    rw [hflat] at h ⊢
    rcases escNat_cases c with ⟨hraw, _, _, _⟩ | ⟨e, hesc, _⟩ | ⟨_, hu⟩
    · rw [hraw] at h ⊢
      rw [ih (fun d hd => h d (by simp [hd]))]
      rfl
    · exfalso
      apply h 92 _ rfl
      rw [hesc]
      simp
    · exfalso
      apply h 92 _ rfl
      rw [hu]
      simp

theorem length_le_flatten_escNat : ∀ k : List Nat, k.length ≤ ((k.map escNat).flatten).length := by
  intro k
  induction k with
  | nil => simp
  | cons c t ih =>
    have h1 : 1 ≤ (escNat c).length := by
      rcases escNat_cases c with ⟨hr, _, _, _⟩ | ⟨e, he, _⟩ | ⟨_, hu⟩
      · rw [hr]; simp
      · rw [he]; simp
      · rw [hu]; simp
    simp only [List.map_cons, List.flatten_cons, List.length_append, List.length_cons]
    omega

/-- Unquote undoes AppendQuote: the key round-trips through its quoted
form. -/
theorem unquote_appendQuote (k : List Nat) : unquote (appendQuote k) = some k := by
  have hshape : appendQuote k = 34 :: (k.map escNat).flatten ++ [34] := rfl
  have hwrap : wrapped (appendQuote k) = true := by
    rw [hshape]
    unfold wrapped
    simp only [Bool.and_eq_true, decide_eq_true_eq]
    refine ⟨⟨by simp, by simp⟩, ?_⟩
    rw [show (34 :: (k.map escNat).flatten ++ [34]) = ((34 :: (k.map escNat).flatten) ++ [34]) by simp]
    rw [List.getLast?_concat]
  unfold unquote
  rw [hwrap, if_pos rfl]
  have hbody : strBody (appendQuote k) = (k.map escNat).flatten := by
    rw [hshape, strBody_wrap]
  split
  · rename_i hnone
    rw [hbody]
    rw [flatten_eq_self_of_no92 ?h92]
    case h92 =>
      intro c hc
      have hcs : c ∈ appendQuote k := by
        rw [hshape]
        simp [hc]
      obtain ⟨j, hj, hcj⟩ := List.getElem_of_mem hcs
      have := firstIdx_none hnone j c (by rw [List.getElem?_eq_getElem hj, hcj])
      simpa using this
  · rw [hbody]
    unfold appendUnq
    rw [appendUnq_escNat ((k.map escNat).flatten).length k (length_le_flatten_escNat k) _ []
      (Nat.lt_succ_self _)]
    simp

/-- Continuations after which a compact value tokenizes standalone: either the
end of input or a delimiter byte. -/
def zOk : List Nat → Bool
  | [] => true
  | c :: _ => isDelim c

theorem takeWhile_append_of_all {p : Nat → Bool} :
    ∀ {a : List Nat}, a.all p = true → ∀ b, (a ++ b).takeWhile p = a ++ b.takeWhile p := by
  intro a
  induction a with
  | nil => intro _ b; rfl
  | cons c t ih =>
    intro h b
    rw [List.all_cons, Bool.and_eq_true] at h
    rw [List.cons_append, List.takeWhile_cons, if_pos h.1, ih h.2]
    rfl

theorem dropWhile_append_of_all {p : Nat → Bool} :
    ∀ {a : List Nat}, a.all p = true → ∀ b, (a ++ b).dropWhile p = b.dropWhile p := by
  intro a
  induction a with
  | nil => intro _ b; rfl
  | cons c t ih =>
    intro h b
    rw [List.all_cons, Bool.and_eq_true] at h
    rw [List.cons_append, List.dropWhile_cons, if_pos h.1, ih h.2]

theorem isDelim_of_structural {c : Nat} (h : isStructural c = true) : isDelim c = true := by
  unfold isStructural at h
  simp only [Bool.or_eq_true, decide_eq_true_eq] at h
  unfold isDelim isWS
  rcases h with ((((rfl | rfl) | rfl) | rfl) | rfl) | rfl <;> rfl

theorem not_ws_of_not_delim {c : Nat} (h : isDelim c = false) : isWS c = false := by
  unfold isDelim at h
  simp only [Bool.or_eq_false_iff] at h
  exact h.1.1.1.1.1.1.1

theorem ne34_of_not_delim {c : Nat} (h : isDelim c = false) : ¬ c = 34 := by
  intro he
  subst he
  cases h

theorem not_structural_of_not_delim {c : Nat} (h : isDelim c = false) :
    ¬ isStructural c = true := by
  intro hs
  rw [isDelim_of_structural hs] at h
  cases h

/-- One-character structural token. -/
theorem nextTok_structural {c : Nat} (hc : isStructural c = true) (r : List Nat) :
    nextTok (c :: r) = some ([c], r) := by
  unfold isStructural at hc
  simp only [Bool.or_eq_true, decide_eq_true_eq] at hc
  rcases hc with ((((rfl | rfl) | rfl) | rfl) | rfl) | rfl <;> rfl

/-- A bare (non-delimiter) token followed by a delimiter or the end of
input. -/
theorem nextTok_bare {c : Nat} {tr z : List Nat} (hc : isDelim c = false)
    (hall : tr.all (fun b => !isDelim b) = true) (hz : zOk z = true) :
    nextTok ((c :: tr) ++ z) = some (c :: tr, z) := by
  unfold nextTok
  rw [List.cons_append, List.dropWhile_cons, if_neg (by simp [not_ws_of_not_delim hc])]
  dsimp only []
  unfold tokAt
  rw [if_neg (ne34_of_not_delim hc), if_neg (not_structural_of_not_delim hc)]
  have hall2 : tr.all (fun b => !isDelim b) = true := hall
  have htw : (tr ++ z).takeWhile (fun b => !isDelim b) = tr := by
    rw [takeWhile_append_of_all hall2]
    match z, hz with
    | [], _ => simp
    | d :: z', hz =>
      have hd : isDelim d = true := hz
      rw [List.takeWhile_cons, if_neg (by rw [hd]; simp)]
      simp
  have hdw : (tr ++ z).dropWhile (fun b => !isDelim b) = z := by
    rw [dropWhile_append_of_all hall2]
    match z, hz with
    | [], _ => rfl
    | d :: z', hz =>
      have hd : isDelim d = true := hz
      rw [List.dropWhile_cons, if_neg (by rw [hd]; simp)]
  rw [htw, hdw]

/-- A quoted token whose body is self-delimiting scans to its closing
quote. -/
theorem nextTok_string {body z : List Nat}
    (hnoterm : ∀ k, k < body.length → ¬ isTerm body k)
    (htrail : trailBS body % 2 = 0) :
    nextTok ((34 :: body ++ [34]) ++ z) = some (34 :: body ++ [34], z) := by
  unfold nextTok
  have harg : ((34 :: body ++ [34]) ++ z) = 34 :: (body ++ 34 :: z) := by simp
  rw [harg, List.dropWhile_cons, if_neg (by simp [isWS])]
  dsimp only []
  unfold tokAt
  rw [if_pos rfl]
  have hterm0 : isTerm (body ++ 34 :: z) body.length := by
    constructor
    · rw [show body.length = body.length + 0 from rfl, getElem?_append_len]
      simp
    · rw [List.take_left]
      exact htrail
  have hmin : ∀ k, k < body.length → ¬ isTerm (body ++ 34 :: z) k := by
    intro k hk hit
    exact hnoterm k hk ((isTerm_ext hk).mp hit)
  rw [quoteScan_eq_of_first_term hterm0 hmin]
  have ht1 : (body ++ 34 :: z).take (body.length + 1) = body ++ [34] := by
    rw [take_append_len]
    rfl
  have hd1 : (body ++ 34 :: z).drop (body.length + 1) = z := by
    rw [drop_append_len]
    rfl
  rw [ht1, hd1]
  simp

/-! ### Completeness of Compact: a compacted well-formed value reparses to a
structurally equal value -/

/-- The compact rendering of the remaining elements of an array, each preceded
by its separating comma. -/
def sepForm : List JVal → List Nat
  | [] => []
  | v :: rest => 44 :: v.compactV ++ sepForm rest

/-- The compact rendering of the remaining fields of an object, each preceded
by its separating comma. -/
def sepFormF : List (List Nat × JVal) → List Nat
  | [] => []
  | f :: rest => 44 :: appendQuote f.1 ++ 58 :: f.2.compactV ++ sepFormF rest

theorem compactElems_cons : ∀ (tl : List JVal) (v : JVal),
    compactElems (v :: tl) = v.compactV ++ sepForm tl := by
  intro tl
  induction tl with
  | nil => intro v; simp [compactElems, sepForm]
  | cons w r ih =>
    intro v
    show v.compactV ++ 44 :: compactElems (w :: r) = _
    rw [ih w]
    simp [sepForm]

theorem compactFields_cons : ∀ (tl : List (List Nat × JVal)) (f : List Nat × JVal),
    compactFields (f :: tl) = appendQuote f.1 ++ 58 :: (f.2.compactV ++ sepFormF tl) := by
  intro tl
  induction tl with
  | nil => intro f; simp [compactFields, sepFormF]
  | cons g r ih =>
    intro f
    show appendQuote f.1 ++ 58 :: f.2.compactV ++ 44 :: compactFields (g :: r) = _
    rw [ih g]
    simp [sepFormF]

theorem zOk_sep (tl : List JVal) (z : List Nat) : zOk (sepForm tl ++ 93 :: z) = true := by
  cases tl <;> rfl

theorem zOk_sepF (tl : List (List Nat × JVal)) (z : List Nat) :
    zOk (sepFormF tl ++ 125 :: z) = true := by
  cases tl <;> rfl

/-- A value reparses from its compact form, up to the cached spans, whatever
delimiter-headed continuation follows it. -/
def SVc (v : JVal) : Prop :=
  ∀ fuel z, (JVal.compactV v).length < fuel → zOk z = true →
    ∃ v', parseValueF fuel (JVal.compactV v ++ z) = .ok (v', z) ∧ v'.strip = v.strip

theorem parseValueF_null_step {f : Nat} {s z : List Nat}
    (hnt : nextTok s = some (nullTok, z)) :
    parseValueF (f + 1) s = .ok (.jnull, z) := by
  rw [parseValueF, hnt]
  rfl

theorem parseValueF_true_step {f : Nat} {s z : List Nat}
    (hnt : nextTok s = some (trueTok, z)) :
    parseValueF (f + 1) s = .ok (.jtrue, z) := by
  rw [parseValueF, hnt]
  rfl

theorem parseValueF_false_step {f : Nat} {s z : List Nat}
    (hnt : nextTok s = some (falseTok, z)) :
    parseValueF (f + 1) s = .ok (.jfalse, z) := by
  rw [parseValueF, hnt]
  rfl

theorem parseValueF_str_step {f : Nat} {s body z u : List Nat}
    (hnt : nextTok s = some (34 :: body ++ [34], z))
    (hu : unquote (34 :: body ++ [34]) = some u) :
    parseValueF (f + 1) s = .ok (.jstr (34 :: body ++ [34]), z) := by
  rw [parseValueF, hnt]
  show (match unquote (34 :: body ++ [34]) with
    | some _ => (Except.ok (JVal.jstr (34 :: body ++ [34]), z) : Except PErr (JVal × List Nat))
    | none => Except.error (PErr.invalidToken (34 :: body ++ [34]))) = _
  rw [hu]

theorem parseValueF_arr_step {f : Nat} {s z : List Nat}
    (hnt : nextTok s = some ([91], z)) :
    parseValueF (f + 1) s = parseArrF f (91 :: z) z [] := by
  rw [parseValueF, hnt]
  rfl

theorem parseValueF_obj_step {f : Nat} {s z : List Nat}
    (hnt : nextTok s = some ([123], z)) :
    parseValueF (f + 1) s = parseObjF f (123 :: z) z [] := by
  rw [parseValueF, hnt]
  rfl

theorem parseValueF_endArr_step {f : Nat} {s z : List Nat}
    (hnt : nextTok s = some ([93], z)) :
    parseValueF (f + 1) s = .error (.endOfArray z) := by
  rw [parseValueF, hnt]
  rfl

theorem parseValueF_num_step {f : Nat} {s tr z : List Nat} {c : Nat}
    (hdig : c = 45 ∨ (48 ≤ c ∧ c ≤ 57)) (hvn : validNumber (c :: tr) = true)
    (hnt : nextTok s = some (c :: tr, z)) :
    parseValueF (f + 1) s = .ok (.jnum (c :: tr), z) := by
  rw [parseValueF, hnt]
  dsimp only []
  split
  case h_9 c2 h1 h2 h3 h4 h5 h6 h7 h8 heq =>
    rw [List.head?_cons] at heq
    injection heq with hc
    subst hc
    rw [if_pos hdig, if_pos hvn]
  case h_10 heq =>
    rw [List.head?_cons] at heq
    cases heq
  all_goals rename_i heq
  all_goals rw [List.head?_cons] at heq
  all_goals injection heq with hc
  all_goals exfalso
  all_goals omega

theorem parseFieldF_eq (g : Nat) (start k w : List Nat) (val : JVal)
    (acc : List (List Nat × JVal))
    (hz : zOk w = true) (hsv : SVc val) (hfuel : (JVal.compactV val).length < g) :
    ∃ v', parseFieldF (g + 1) start (appendQuote k) (58 :: (JVal.compactV val ++ w)) acc
        = parseObjF g start w (acc ++ [(k, v')]) ∧ v'.strip = val.strip := by
  obtain ⟨v', hpv, hstrip⟩ := hsv g w hfuel hz
  refine ⟨v', ?_, hstrip⟩
  rw [parseFieldF, unquote_appendQuote]
  dsimp only []
  rw [nextTok_structural (show isStructural 58 = true from rfl) (JVal.compactV val ++ w)]
  dsimp only []
  rw [if_pos rfl, hpv]

theorem parseArr_loop : ∀ tl : List JVal, (∀ e ∈ tl, SVc e) →
    ∀ g start z acc, acc ≠ [] → zOk z = true → (sepForm tl).length + 1 < g →
    ∃ acc', parseArrF g start (sepForm tl ++ 93 :: z) acc
        = .ok (.jarr (spanOf start z) (acc ++ acc'), z) ∧ stripL acc' = stripL tl := by
  intro tl
  induction tl with
  | nil =>
    intro _ g start z acc hacc hz hfuel
    obtain ⟨g1, rfl⟩ : ∃ g1, g = g1 + 1 := ⟨g - 1, by omega⟩
    have hne : acc.isEmpty = false := by
      cases acc with
      | nil => exact absurd rfl hacc
      | cons _ _ => rfl
    refine ⟨[], ?_, rfl⟩
    rw [List.append_nil]
    show parseArrF (g1 + 1) start (93 :: z) acc = _
    rw [parseArrF, if_neg (by simp [hne]),
      nextTok_structural (show isStructural 93 = true from rfl) z]
    dsimp only []
    rw [if_pos rfl]
  | cons e tl' ih =>
    intro hsv g start z acc hacc hz hfuel
    have hlen : (sepForm (e :: tl')).length
        = 1 + (JVal.compactV e).length + (sepForm tl').length := by
      simp [sepForm]
      omega
    have hne : acc.isEmpty = false := by
      cases acc with
      | nil => exact absurd rfl hacc
      | cons _ _ => rfl
    obtain ⟨g1, rfl⟩ : ∃ g1, g = g1 + 1 := ⟨g - 1, by omega⟩
    have hform : sepForm (e :: tl') ++ 93 :: z
        = 44 :: (JVal.compactV e ++ (sepForm tl' ++ 93 :: z)) := by
      simp [sepForm]
    rw [hform, parseArrF, if_neg (by simp [hne]),
      nextTok_structural (show isStructural 44 = true from rfl) _]
    dsimp only []
    rw [if_neg (by decide), if_pos rfl]
    obtain ⟨v', hpv, hstrip⟩ := hsv e (by simp) g1 (sepForm tl' ++ 93 :: z)
      (by omega) (zOk_sep tl' z)
    rw [hpv]
    dsimp only []
    obtain ⟨acc2, harr, hstrips⟩ := ih (fun x hx => hsv x (by simp [hx])) g1 start z
      (acc ++ [v']) (by simp) hz (by omega)
    rw [harr]
    refine ⟨v' :: acc2, ?_, ?_⟩
    · rw [List.append_assoc]
      rfl
    · rw [stripL, hstrip, hstrips]
      rfl

theorem stripF_map_fst : ∀ l : List (List Nat × JVal),
    (stripF l).map Prod.fst = l.map Prod.fst := by
  intro l
  induction l with
  | nil => rfl
  | cons f r ih => rw [stripF, List.map_cons, List.map_cons, ih]

theorem fieldsSorted_keys {l m : List (List Nat × JVal)}
    (hk : l.map Prod.fst = m.map Prod.fst) (hm : fieldsSorted m) : fieldsSorted l := by
  unfold fieldsSorted at hm ⊢
  have h1 : List.Pairwise (fun a b => lexLt b a = false) (m.map Prod.fst) := by
    rw [List.pairwise_map]
    exact hm
  rw [← hk, List.pairwise_map] at h1
  exact h1

theorem parseObj_loop : ∀ tl : List (List Nat × JVal), (∀ f ∈ tl, SVc f.2) →
    ∀ g start z acc, acc ≠ [] → zOk z = true → (sepFormF tl).length + 2 < g →
    ∃ acc', parseObjF g start (sepFormF tl ++ 125 :: z) acc
        = .ok (.jobj (spanOf start z) (sortFields (acc ++ acc')), z) ∧
      stripF acc' = stripF tl := by
  intro tl
  induction tl with
  | nil =>
    intro _ g start z acc hacc hz hfuel
    obtain ⟨g1, rfl⟩ : ∃ g1, g = g1 + 1 := ⟨g - 1, by omega⟩
    refine ⟨[], ?_, rfl⟩
    rw [List.append_nil]
    show parseObjF (g1 + 1) start (125 :: z) acc = _
    rw [parseObjF, nextTok_structural (show isStructural 125 = true from rfl) z]
    dsimp only []
    rw [if_pos rfl]
  | cons fld tl' ih =>
    intro hsv g start z acc hacc hz hfuel
    have hlen : (sepFormF (fld :: tl')).length
        = 1 + (appendQuote fld.1).length + 1 + (JVal.compactV fld.2).length
          + (sepFormF tl').length := by
      simp [sepFormF]
      omega
    have haq : 2 ≤ (appendQuote fld.1).length := by
      show 2 ≤ (34 :: (fld.1.map escNat).flatten ++ [34]).length
      simp
    have hne : acc.isEmpty = false := by
      cases acc with
      | nil => exact absurd rfl hacc
      | cons _ _ => rfl
    obtain ⟨g2, rfl⟩ : ∃ g2, g = g2 + 1 + 1 := ⟨g - 2, by omega⟩
    have hform : sepFormF (fld :: tl') ++ 125 :: z
        = 44 :: (appendQuote fld.1 ++ (58 :: (JVal.compactV fld.2
            ++ (sepFormF tl' ++ 125 :: z)))) := by
      simp [sepFormF]
    rw [hform, parseObjF, nextTok_structural (show isStructural 44 = true from rfl) _]
    dsimp only []
    rw [if_neg (by decide), if_neg (by simp [hne]), if_pos rfl]
    have hntk : nextTok (appendQuote fld.1 ++ (58 :: (JVal.compactV fld.2
          ++ (sepFormF tl' ++ 125 :: z))))
        = some (appendQuote fld.1, 58 :: (JVal.compactV fld.2
            ++ (sepFormF tl' ++ 125 :: z))) :=
      nextTok_string (escChunk_safe fld.1).2 (escChunk_safe fld.1).1
    rw [hntk]
    dsimp only []
    obtain ⟨v', hfe, hstrip⟩ := parseFieldF_eq g2 start fld.1
      (sepFormF tl' ++ 125 :: z) fld.2 acc (zOk_sepF tl' z)
      (hsv fld (by simp)) (show (JVal.compactV fld.2).length < g2 by omega)
    rw [hfe]
    obtain ⟨acc2, hobj, hstrips⟩ := ih (fun x hx => hsv x (by simp [hx])) g2 start z
      (acc ++ [(fld.1, v')]) (by simp) hz (by omega)
    rw [hobj]
    refine ⟨(fld.1, v') :: acc2, ?_, ?_⟩
    · rw [List.append_assoc]
      rfl
    · rw [stripF, hstrip, hstrips]
      rfl

theorem compactV_ne_nil {v : JVal} (h : WFv v) : 1 ≤ (JVal.compactV v).length := by
  cases h with
  | wnull => decide
  | wtrue => decide
  | wfalse => decide
  | wnum c tr _ _ _ => show 1 ≤ (c :: tr).length; simp
  | wstr body _ _ _ => show 1 ≤ (34 :: body ++ [34]).length; simp
  | warr cached elems _ => show 1 ≤ (91 :: compactElems elems ++ [93]).length; simp
  | wobj cached fs _ _ => show 1 ≤ (123 :: compactFields fs ++ [125]).length; simp

/-- Completeness of Compact: a well-formed value reparses from its compact
rendering (followed by any delimiter-headed continuation) to a structurally
equal value. -/
theorem compact_complete : ∀ {v : JVal}, WFv v → SVc v := by
  intro v hwf
  induction hwf with
  | wnull =>
    intro fuel z hfuel hz
    obtain ⟨f, rfl⟩ : ∃ f, fuel = f + 1 := ⟨fuel - 1, by omega⟩
    exact ⟨.jnull, parseValueF_null_step (nextTok_bare rfl rfl hz), rfl⟩
  | wtrue =>
    intro fuel z hfuel hz
    obtain ⟨f, rfl⟩ : ∃ f, fuel = f + 1 := ⟨fuel - 1, by omega⟩
    exact ⟨.jtrue, parseValueF_true_step (nextTok_bare rfl rfl hz), rfl⟩
  | wfalse =>
    intro fuel z hfuel hz
    obtain ⟨f, rfl⟩ : ∃ f, fuel = f + 1 := ⟨fuel - 1, by omega⟩
    exact ⟨.jfalse, parseValueF_false_step (nextTok_bare rfl rfl hz), rfl⟩
  | wnum c tr hdig hvn hall =>
    intro fuel z hfuel hz
    obtain ⟨f, rfl⟩ : ∃ f, fuel = f + 1 := ⟨fuel - 1, by omega⟩
    have h1 := hall
    rw [List.all_cons, Bool.and_eq_true] at h1
    have hdc : isDelim c = false := by
      have h2 := h1.1
      simp only [Bool.not_eq_true'] at h2
      exact h2
    exact ⟨.jnum (c :: tr), parseValueF_num_step hdig hvn (nextTok_bare hdc h1.2 hz), rfl⟩
  | wstr body hnoterm htrail hbody =>
    intro fuel z hfuel hz
    obtain ⟨f, rfl⟩ : ∃ f, fuel = f + 1 := ⟨fuel - 1, by omega⟩
    have hw : wrapped (34 :: body ++ [34]) = true := by
      unfold wrapped
      simp only [Bool.and_eq_true, decide_eq_true_eq, List.getLast?_concat]
      refine ⟨⟨?_, rfl⟩, trivial⟩
      simp only [List.length_append, List.length_cons, List.length_nil]
      omega
    obtain ⟨u, hu⟩ := unquote_some_iff.mpr ⟨hw, by rw [strBody_wrap]; exact hbody⟩
    exact ⟨.jstr (34 :: body ++ [34]),
      parseValueF_str_step (nextTok_string hnoterm htrail) hu, rfl⟩
  | warr cached elems hall ih =>
    intro fuel z hfuel hz
    cases elems with
    | nil =>
      have hl2 : (JVal.compactV (.jarr cached [])).length = 2 := rfl
      obtain ⟨f2, rfl⟩ : ∃ f2, fuel = f2 + 1 + 1 + 1 := ⟨fuel - 3, by omega⟩
      refine ⟨.jarr [91, 93] [], ?_, rfl⟩
      show parseValueF (f2 + 1 + 1 + 1) (91 :: 93 :: z) = .ok (.jarr [91, 93] [], z)
      rw [parseValueF_arr_step (nextTok_structural (show isStructural 91 = true from rfl) (93 :: z)), parseArrF,
        if_pos (show List.isEmpty ([] : List JVal) = true from rfl), parseValueF_endArr_step (nextTok_structural (show isStructural 93 = true from rfl) z)]
      dsimp only []
      show Except.ok (JVal.jarr (spanOf ([91, 93] ++ z) z) [], z) = _
      rw [spanOf_append]
    | cons e tl =>
      have hcv : JVal.compactV (.jarr cached (e :: tl))
          = 91 :: compactElems (e :: tl) ++ [93] := rfl
      have hce : compactElems (e :: tl) = e.compactV ++ sepForm tl := compactElems_cons tl e
      have hlen : (JVal.compactV (.jarr cached (e :: tl))).length
          = 2 + (JVal.compactV e).length + (sepForm tl).length := by
        rw [hcv, hce]
        simp only [List.length_cons, List.length_append, List.length_nil]
        omega
      have hne1 : 1 ≤ (JVal.compactV e).length := compactV_ne_nil (hall e (by simp))
      obtain ⟨f2, rfl⟩ : ∃ f2, fuel = f2 + 1 + 1 := ⟨fuel - 2, by omega⟩
      have hform : JVal.compactV (.jarr cached (e :: tl)) ++ z
          = 91 :: (JVal.compactV e ++ (sepForm tl ++ 93 :: z)) := by
        rw [hcv, hce]
        simp
      obtain ⟨v', hpv, hstrip⟩ := ih e (by simp) f2 (sepForm tl ++ 93 :: z)
        (by omega) (zOk_sep tl z)
      obtain ⟨acc2, harr, hstrips⟩ := parseArr_loop tl (fun x hx => ih x (by simp [hx])) f2
        (91 :: (JVal.compactV e ++ (sepForm tl ++ 93 :: z))) z [v'] (by simp) hz (by omega)
      refine ⟨.jarr (spanOf (91 :: (JVal.compactV e ++ (sepForm tl ++ 93 :: z))) z)
        ([v'] ++ acc2), ?_, ?_⟩
      · rw [hform, parseValueF_arr_step (nextTok_structural (show isStructural 91 = true from rfl) _), parseArrF,
          if_pos (show List.isEmpty ([] : List JVal) = true from rfl), hpv]
        dsimp only []
        exact harr
      · show JVal.jarr [] (stripL ([v'] ++ acc2)) = JVal.jarr [] (stripL (e :: tl))
        rw [stripL_append, hstrips]
        show JVal.jarr [] (v'.strip :: stripL tl) = JVal.jarr [] (e.strip :: stripL tl)
        rw [hstrip]
  | wobj cached fs hsorted hall ih =>
    intro fuel z hfuel hz
    cases fs with
    | nil =>
      have hl2 : (JVal.compactV (.jobj cached [])).length = 2 := rfl
      obtain ⟨f2, rfl⟩ : ∃ f2, fuel = f2 + 1 + 1 := ⟨fuel - 2, by omega⟩
      refine ⟨.jobj [123, 125] [], ?_, rfl⟩
      show parseValueF (f2 + 1 + 1) (123 :: 125 :: z) = .ok (.jobj [123, 125] [], z)
      rw [parseValueF_obj_step (nextTok_structural (show isStructural 123 = true from rfl) (125 :: z)), parseObjF,
        nextTok_structural (show isStructural 125 = true from rfl) z]
      dsimp only []
      rw [if_pos (show ([125] : List Nat) = [125] from rfl)]
      show Except.ok (JVal.jobj (spanOf ([123, 125] ++ z) z) (sortFields []), z) = _
      rw [spanOf_append]
      rfl
    | cons f1 tl =>
      have hcv : JVal.compactV (.jobj cached (f1 :: tl))
          = 123 :: compactFields (f1 :: tl) ++ [125] := rfl
      have hcf : compactFields (f1 :: tl)
          = appendQuote f1.1 ++ 58 :: (f1.2.compactV ++ sepFormF tl) := compactFields_cons tl f1
      have hlen : (JVal.compactV (.jobj cached (f1 :: tl))).length
          = 3 + (appendQuote f1.1).length + (JVal.compactV f1.2).length
            + (sepFormF tl).length := by
        rw [hcv, hcf]
        simp only [List.length_cons, List.length_append, List.length_nil]
        omega
      have haq : 2 ≤ (appendQuote f1.1).length := by
        show 2 ≤ (34 :: (f1.1.map escNat).flatten ++ [34]).length
        simp
      obtain ⟨g2, rfl⟩ : ∃ g2, fuel = g2 + 1 + 1 + 1 := ⟨fuel - 3, by omega⟩
      have hform : JVal.compactV (.jobj cached (f1 :: tl)) ++ z
          = 123 :: (appendQuote f1.1 ++ (58 :: (JVal.compactV f1.2
              ++ (sepFormF tl ++ 125 :: z)))) := by
        rw [hcv, hcf]
        simp
      have hntk : nextTok (appendQuote f1.1 ++ (58 :: (JVal.compactV f1.2
            ++ (sepFormF tl ++ 125 :: z))))
          = some (appendQuote f1.1, 58 :: (JVal.compactV f1.2
              ++ (sepFormF tl ++ 125 :: z))) :=
        nextTok_string (escChunk_safe f1.1).2 (escChunk_safe f1.1).1
      obtain ⟨v', hfe, hstrip⟩ := parseFieldF_eq g2
        (123 :: (appendQuote f1.1 ++ (58 :: (JVal.compactV f1.2
          ++ (sepFormF tl ++ 125 :: z))))) f1.1
        (sepFormF tl ++ 125 :: z) f1.2 []
        (zOk_sepF tl z) (ih f1 (by simp))
        (show (JVal.compactV f1.2).length < g2 by omega)
      obtain ⟨acc2, hobj, hstrips⟩ := parseObj_loop tl (fun x hx => ih x (by simp [hx]))
        g2 (123 :: (appendQuote f1.1 ++ (58 :: (JVal.compactV f1.2
          ++ (sepFormF tl ++ 125 :: z))))) z ([(f1.1, v')]) (by simp) hz (by omega)
      have hkeys : ((f1.1, v') :: acc2).map Prod.fst = (f1 :: tl).map Prod.fst := by
        show f1.1 :: acc2.map Prod.fst = f1.1 :: tl.map Prod.fst
        have h2 := congrArg (List.map Prod.fst) hstrips
        rw [stripF_map_fst, stripF_map_fst] at h2
        rw [h2]
      have hsortL : fieldsSorted ((f1.1, v') :: acc2) := fieldsSorted_keys hkeys hsorted
      refine ⟨.jobj (spanOf (123 :: (appendQuote f1.1 ++ (58 :: (JVal.compactV f1.2
          ++ (sepFormF tl ++ 125 :: z))))) z) ((f1.1, v') :: acc2), ?_, ?_⟩
      · rw [hform, parseValueF_obj_step (nextTok_structural (show isStructural 123 = true from rfl) _), parseObjF, hntk]
        dsimp only []
        rw [if_neg (by simp [appendQuote]), if_pos (show List.isEmpty ([] : List (List Nat × JVal)) = true from rfl), hfe, List.nil_append, hobj,
          sortFields_of_sorted (by
            show fieldsSorted ([(f1.1, v')] ++ acc2)
            exact hsortL)]
        rfl
      · show JVal.jobj [] (stripF ((f1.1, v') :: acc2)) = JVal.jobj [] (stripF (f1 :: tl))
        rw [stripF, hstrips]
        show JVal.jobj [] ((f1.1, v'.strip) :: stripF tl)
          = JVal.jobj [] ((f1.1, f1.2.strip) :: stripF tl)
        rw [hstrip]

/-! ### Whitespace-freeness of the compact form: walking the token stream of a
compacted value never skips a whitespace byte -/

/-- Fuel-bounded walk of the token stream: the input is empty, or begins with
a non-whitespace byte and the remainder after the next token is again tight. -/
def tightF : Nat → List Nat → Bool
  | 0, _ => false
  | f + 1, s =>
    match s with
    | [] => true
    | c :: r =>
      !isWS c &&
        (match nextTok (c :: r) with
         | none => true
         | some (_, rest) => tightF f rest)

/-- A byte string with no inter-token whitespace. -/
def tight (s : List Nat) : Bool := tightF (s.length + 1) s

theorem tightF_congr : ∀ (f1 f2 : Nat) (s : List Nat),
    s.length < f1 → s.length < f2 → tightF f1 s = tightF f2 s := by
  intro f1
  induction f1 with
  | zero => intro f2 s h1 _; exact absurd h1 (by omega)
  | succ g ih =>
    intro f2 s h1 h2
    obtain ⟨h, rfl⟩ : ∃ h, f2 = h + 1 := ⟨f2 - 1, by omega⟩
    cases s with
    | nil => rfl
    | cons c r =>
      show (!isWS c && (match nextTok (c :: r) with
          | none => true
          | some (_, rest) => tightF g rest))
        = (!isWS c && (match nextTok (c :: r) with
          | none => true
          | some (_, rest) => tightF h rest))
      cases hnt : nextTok (c :: r) with
      | none => rfl
      | some p =>
        obtain ⟨t, rest⟩ := p
        dsimp only []
        have hprog : rest.length < (c :: r).length := nextTok_progress hnt
        rw [List.length_cons] at hprog h1 h2
        rw [ih h rest (by omega) (by omega)]

/-- Consuming one token from a tight-headed input. -/
theorem tight_step {c : Nat} {r tok rest : List Nat}
    (hws : isWS c = false) (hnt : nextTok (c :: r) = some (tok, rest)) :
    tight (c :: r) = tight rest := by
  unfold tight
  have h1 : tightF ((c :: r).length + 1) (c :: r)
      = (!isWS c && tightF (r.length + 1) rest) := by
    show (!isWS c && (match nextTok (c :: r) with
        | none => true
        | some (_, rest) => tightF (r.length + 1) rest))
      = (!isWS c && tightF (r.length + 1) rest)
    rw [hnt]
  rw [h1, hws]
  have hprog : rest.length < (c :: r).length := nextTok_progress hnt
  rw [List.length_cons] at hprog
  rw [tightF_congr (r.length + 1) (rest.length + 1) rest (by omega) (by omega)]
  simp

/-- A compacted value followed by a tight delimiter-headed continuation is
tight. -/
def TightV (v : JVal) : Prop :=
  ∀ z, zOk z = true → tight z = true → tight (JVal.compactV v ++ z) = true

theorem tight_arr_loop : ∀ tl : List JVal, (∀ e ∈ tl, TightV e) →
    ∀ z, zOk z = true → tight z = true → tight (sepForm tl ++ 93 :: z) = true := by
  intro tl
  induction tl with
  | nil =>
    intro _ z hz htz
    show tight (93 :: z) = true
    rw [tight_step (show isWS 93 = false from rfl)
      (nextTok_structural (show isStructural 93 = true from rfl) z)]
    exact htz
  | cons e tl2 ih =>
    intro hall z hz htz
    have hform : sepForm (e :: tl2) ++ 93 :: z
        = 44 :: (JVal.compactV e ++ (sepForm tl2 ++ 93 :: z)) := by
      simp [sepForm]
    rw [hform, tight_step (show isWS 44 = false from rfl)
      (nextTok_structural (show isStructural 44 = true from rfl) _)]
    exact hall e (by simp) _ (zOk_sep tl2 z)
      (ih (fun x hx => hall x (by simp [hx])) z hz htz)

theorem tight_obj_loop : ∀ tl : List (List Nat × JVal), (∀ f ∈ tl, TightV f.2) →
    ∀ z, zOk z = true → tight z = true → tight (sepFormF tl ++ 125 :: z) = true := by
  intro tl
  induction tl with
  | nil =>
    intro _ z hz htz
    show tight (125 :: z) = true
    rw [tight_step (show isWS 125 = false from rfl)
      (nextTok_structural (show isStructural 125 = true from rfl) z)]
    exact htz
  | cons fld tl2 ih =>
    intro hall z hz htz
    have hform : sepFormF (fld :: tl2) ++ 125 :: z
        = 44 :: (appendQuote fld.1 ++ (58 :: (JVal.compactV fld.2
            ++ (sepFormF tl2 ++ 125 :: z)))) := by
      simp [sepFormF]
    rw [hform, tight_step (show isWS 44 = false from rfl)
      (nextTok_structural (show isStructural 44 = true from rfl) _)]
    have hform2 : appendQuote fld.1 ++ (58 :: (JVal.compactV fld.2
          ++ (sepFormF tl2 ++ 125 :: z)))
        = 34 :: (((fld.1.map escNat).flatten ++ [34]) ++ (58 :: (JVal.compactV fld.2
            ++ (sepFormF tl2 ++ 125 :: z)))) := by
      show (34 :: (fld.1.map escNat).flatten ++ [34]) ++ _ = _
      simp
    have hntk : nextTok (34 :: (((fld.1.map escNat).flatten ++ [34])
          ++ (58 :: (JVal.compactV fld.2 ++ (sepFormF tl2 ++ 125 :: z)))))
        = some (appendQuote fld.1, 58 :: (JVal.compactV fld.2
            ++ (sepFormF tl2 ++ 125 :: z))) := by
      rw [← hform2]
      exact nextTok_string (escChunk_safe fld.1).2 (escChunk_safe fld.1).1
    rw [hform2, tight_step (show isWS 34 = false from rfl) hntk,
      tight_step (show isWS 58 = false from rfl)
        (nextTok_structural (show isStructural 58 = true from rfl) _)]
    exact hall fld (by simp) _ (zOk_sepF tl2 z)
      (ih (fun x hx => hall x (by simp [hx])) z hz htz)

theorem tight_compact {v : JVal} (h : WFv v) : TightV v := by
  induction h with
  | wnull =>
    intro z hz htz
    show tight (110 :: ([117, 108, 108] ++ z)) = true
    have hnt : nextTok (110 :: ([117, 108, 108] ++ z)) = some (nullTok, z) :=
      nextTok_bare rfl rfl hz
    rw [tight_step (show isWS 110 = false from rfl) hnt]
    exact htz
  | wtrue =>
    intro z hz htz
    show tight (116 :: ([114, 117, 101] ++ z)) = true
    have hnt : nextTok (116 :: ([114, 117, 101] ++ z)) = some (trueTok, z) :=
      nextTok_bare rfl rfl hz
    rw [tight_step (show isWS 116 = false from rfl) hnt]
    exact htz
  | wfalse =>
    intro z hz htz
    show tight (102 :: ([97, 108, 115, 101] ++ z)) = true
    have hnt : nextTok (102 :: ([97, 108, 115, 101] ++ z)) = some (falseTok, z) :=
      nextTok_bare rfl rfl hz
    rw [tight_step (show isWS 102 = false from rfl) hnt]
    exact htz
  | wnum c tr hdig hvn hall =>
    intro z hz htz
    have h1 := hall
    rw [List.all_cons, Bool.and_eq_true] at h1
    have hdc : isDelim c = false := by
      have h2 := h1.1
      simp only [Bool.not_eq_true'] at h2
      exact h2
    show tight (c :: (tr ++ z)) = true
    have hnt : nextTok (c :: (tr ++ z)) = some (c :: tr, z) := nextTok_bare hdc h1.2 hz
    rw [tight_step (not_ws_of_not_delim hdc) hnt]
    exact htz
  | wstr body hnoterm htrail hbody =>
    intro z hz htz
    show tight (34 :: ((body ++ [34]) ++ z)) = true
    have hnt : nextTok (34 :: ((body ++ [34]) ++ z)) = some (34 :: body ++ [34], z) :=
      nextTok_string hnoterm htrail
    rw [tight_step (show isWS 34 = false from rfl) hnt]
    exact htz
  | warr cached elems hall ih =>
    intro z hz htz
    cases elems with
    | nil =>
      show tight (91 :: (93 :: z)) = true
      rw [tight_step (show isWS 91 = false from rfl)
          (nextTok_structural (show isStructural 91 = true from rfl) (93 :: z)),
        tight_step (show isWS 93 = false from rfl)
          (nextTok_structural (show isStructural 93 = true from rfl) z)]
      exact htz
    | cons e tl =>
      have hcv : JVal.compactV (.jarr cached (e :: tl))
          = 91 :: compactElems (e :: tl) ++ [93] := rfl
      have hce : compactElems (e :: tl) = e.compactV ++ sepForm tl := compactElems_cons tl e
      have hform : JVal.compactV (.jarr cached (e :: tl)) ++ z
          = 91 :: (JVal.compactV e ++ (sepForm tl ++ 93 :: z)) := by
        rw [hcv, hce]
        simp
      rw [hform, tight_step (show isWS 91 = false from rfl)
        (nextTok_structural (show isStructural 91 = true from rfl) _)]
      exact ih e (by simp) _ (zOk_sep tl z)
        (tight_arr_loop tl (fun x hx => ih x (by simp [hx])) z hz htz)
  | wobj cached fs hsorted hall ih =>
    intro z hz htz
    cases fs with
    | nil =>
      show tight (123 :: (125 :: z)) = true
      rw [tight_step (show isWS 123 = false from rfl)
          (nextTok_structural (show isStructural 123 = true from rfl) (125 :: z)),
        tight_step (show isWS 125 = false from rfl)
          (nextTok_structural (show isStructural 125 = true from rfl) z)]
      exact htz
    | cons f1 tl =>
      have hcv : JVal.compactV (.jobj cached (f1 :: tl))
          = 123 :: compactFields (f1 :: tl) ++ [125] := rfl
      have hcf : compactFields (f1 :: tl)
          = appendQuote f1.1 ++ 58 :: (f1.2.compactV ++ sepFormF tl) := compactFields_cons tl f1
      have hform : JVal.compactV (.jobj cached (f1 :: tl)) ++ z
          = 123 :: (appendQuote f1.1 ++ (58 :: (JVal.compactV f1.2
              ++ (sepFormF tl ++ 125 :: z)))) := by
        rw [hcv, hcf]
        simp
      rw [hform, tight_step (show isWS 123 = false from rfl)
        (nextTok_structural (show isStructural 123 = true from rfl) _)]
      have hform2 : appendQuote f1.1 ++ (58 :: (JVal.compactV f1.2
            ++ (sepFormF tl ++ 125 :: z)))
          = 34 :: (((f1.1.map escNat).flatten ++ [34]) ++ (58 :: (JVal.compactV f1.2
              ++ (sepFormF tl ++ 125 :: z)))) := by
        show (34 :: (f1.1.map escNat).flatten ++ [34]) ++ _ = _
        simp
      have hntk : nextTok (34 :: (((f1.1.map escNat).flatten ++ [34])
            ++ (58 :: (JVal.compactV f1.2 ++ (sepFormF tl ++ 125 :: z)))))
          = some (appendQuote f1.1, 58 :: (JVal.compactV f1.2
              ++ (sepFormF tl ++ 125 :: z))) := by
        rw [← hform2]
        exact nextTok_string (escChunk_safe f1.1).2 (escChunk_safe f1.1).1
      rw [hform2, tight_step (show isWS 34 = false from rfl) hntk,
        tight_step (show isWS 58 = false from rfl)
          (nextTok_structural (show isStructural 58 = true from rfl) _)]
      exact ih f1 (by simp) _ (zOk_sepF tl z)
        (tight_obj_loop tl (fun x hx => ih x (by simp [hx])) z hz htz)

/-- The compact rendering of a well-formed value skips no whitespace. -/
theorem tight_compactV {v : JVal} (h : WFv v) : tight (JVal.compactV v) = true := by
  have h2 := tight_compact h [] rfl (by rfl)
  rwa [List.append_nil] at h2

/-- C1 (amended): for every document D accepted by Parse, Append reproduces D
up to the leading and trailing whitespace around the root value (not
byte-for-byte), and Compact produces a document with no inter-token
whitespace that itself reparses to a value structurally equal to the parse
result. -/
theorem c1_parse_roundtrip_amended (s : List Nat) (v : JVal) (h : ParseJ s = .ok v) :
    (∃ w1 w2, allWS w1 = true ∧ allWS w2 = true ∧ s = w1 ++ JVal.appendV v ++ w2) ∧
    tight (JVal.compactV v) = true ∧
    (∃ v2, ParseJ (JVal.compactV v) = .ok v2 ∧ v2.strip = v.strip) := by
  obtain ⟨rest, hp, hn⟩ := ParseJ_ok.mp h
  have hwf : WFv v := (wfInvAt (s.length + 1)).1 s v rest hp
  refine ⟨⟨s.takeWhile isWS, rest, ?_, ?_, ?_⟩, tight_compactV hwf, ?_⟩
  · show (s.takeWhile isWS).all isWS = true
    rw [List.all_eq_true]
    intro x hx
    exact List.mem_takeWhile_imp hx
  · show rest.all isWS = true
    rw [List.all_eq_true]
    have hd := (nextTok_none_iff rest).mp hn
    rw [List.dropWhile_eq_nil_iff] at hd
    intro x hx
    exact hd x hx
  · have happ := parse_append hp
    conv_lhs => rw [← List.takeWhile_append_dropWhile isWS s]
    rw [← happ, List.append_assoc]
  · obtain ⟨v2, hp2, hstrip⟩ := compact_complete hwf ((JVal.compactV v).length + 1) []
      (by omega) rfl
    rw [List.append_nil] at hp2
    exact ⟨v2, ParseJ_ok.mpr ⟨[], hp2, rfl⟩, hstrip⟩

/-- Witness for the amended C1 at the concrete document " 5 ": the parse
succeeds, the input splits as whitespace + appended value + whitespace, and
the compact form is tight and reparses structurally equal. -/
theorem c1_parse_roundtrip_amended_witness :
    (∃ w1 w2, allWS w1 = true ∧ allWS w2 = true ∧
      ([32, 53, 32] : List Nat) = w1 ++ JVal.appendV (.jnum [53]) ++ w2) ∧
    tight (JVal.compactV (.jnum [53])) = true ∧
    (∃ v2, ParseJ (JVal.compactV (.jnum [53])) = .ok v2 ∧
      v2.strip = (JVal.jnum [53]).strip) :=
  c1_parse_roundtrip_amended [32, 53, 32] (.jnum [53]) (by rfl)

/-- C1 counterexample: the document " 42 " (with surrounding whitespace)
parses successfully, but Append on the resulting value emits the bare number
token, which is not byte-for-byte equal to the original document. -/
theorem c1_parse_roundtrip_counterexample :
    ParseJ [32, 52, 50, 32] = .ok (.jnum [52, 50]) ∧
    JVal.appendV (.jnum [52, 50]) ≠ [32, 52, 50, 32] := by
  exact ⟨by rfl, by decide⟩

/-! ### The Iterator (src/iterator.go): a single Next then Value at the root -/

inductive IKind where
  | knull | ktrue | kfalse | knum | kstr | karr | kobj
  deriving DecidableEq, Repr

/-- Iterator.Next (src/iterator.go lines 28-132) on a fresh iterator: the
state stack is empty, so the loop goes straight to the token dispatch,
recording the kind and the token, and pushing a frame (depth 1) for a
container.  Returns the kind, the current token, the remaining input and the
depth; .ok none models the (false, no error) end-of-input return. -/
def iterNext0 (s : List Nat) : Except PErr (Option (IKind × List Nat × List Nat × Nat)) :=
  match nextTok s with
  | none => .ok none
  | some (tok, rest) =>
    match tok.head? with
    | some 110 => if tok = nullTok then .ok (some (.knull, tok, rest, 0))
        else .error (.invalidToken tok)
    | some 116 => if tok = trueTok then .ok (some (.ktrue, tok, rest, 0))
        else .error (.invalidToken tok)
    | some 102 => if tok = falseTok then .ok (some (.kfalse, tok, rest, 0))
        else .error (.invalidToken tok)
    | some 34 => .ok (some (.kstr, tok, rest, 0))
    | some 91 => .ok (some (.karr, tok, rest, 1))
    | some 123 => .ok (some (.kobj, tok, rest, 1))
    | some c =>
      if c = 45 ∨ (48 ≤ c ∧ c ≤ 57) then .ok (some (.knum, tok, rest, 0))
      else .error (.invalidToken tok)
    | none => .error (.invalidToken tok)

/-- Iterator.Value (src/iterator.go lines 158-199): scalars are rebuilt from
the recorded token (the string value borrows the raw quoted token, as in the
parser embedding); Array and Object run the parser loops parseArray and
parseObject on the remaining tokens and pop the container frame, decrementing
the depth.  The fuel argument mirrors the parser embedding. -/
def iterValue0 (f : Nat) (k : IKind) (tok rest : List Nat) (depth : Nat) :
    Except PErr (JVal × List Nat × Nat) :=
  match k with
  | .knull => .ok (.jnull, rest, depth)
  | .ktrue => .ok (.jtrue, rest, depth)
  | .kfalse => .ok (.jfalse, rest, depth)
  | .knum => .ok (.jnum tok, rest, depth)
  | .kstr =>
    match unquote tok with
    | some _ => .ok (.jstr tok, rest, depth)
    | none => .error (.invalidToken tok)
  | .karr =>
    match parseArrF f (tok ++ rest) rest [] with
    | .ok (v, rest2) => .ok (v, rest2, depth - 1)
    | .error e => .error e
  | .kobj =>
    match parseObjF f (tok ++ rest) rest [] with
    | .ok (v, rest2) => .ok (v, rest2, depth - 1)
    | .error e => .error e

/-- Iterate, a single Next, then Value: the composite the claim describes. -/
def iterFirstValue (s : List Nat) : Except PErr (Option (JVal × List Nat × Nat)) :=
  match iterNext0 s with
  | .error e => .error e
  | .ok none => .ok none
  | .ok (some (k, tok, rest, d)) =>
    match iterValue0 s.length k tok rest d with
    | .error e => .error e
    | .ok (v, rest2, d2) => .ok (some (v, rest2, d2))

/-- C6: on every input that Parse accepts, Iterate + one Next + Value returns
no error and a value structurally equal to the Parse result; the whole
subtree's tokens are consumed (only trailing whitespace remains) and the
container frame pushed by Next has been popped, leaving depth zero. -/
theorem c6_iterator_value_matches_parse (s : List Nat) (v : JVal)
    (h : ParseJ s = .ok v) :
    ∃ v2 rest2, iterFirstValue s = .ok (some (v2, rest2, 0)) ∧ v2.strip = v.strip ∧
      nextTok rest2 = none := by
  obtain ⟨rest, hp, hn⟩ := ParseJ_ok.mp h
  refine ⟨v, rest, ?_, rfl, hn⟩
  rw [parseValueF] at hp
  unfold iterFirstValue iterNext0
  split at hp
  · cases hp
  · rename_i tok rest0 hnt
    split at hp
    · rename_i heq
      rw [heq]
      split at hp
      · rename_i htok
        rw [if_pos htok]
        simp only [Except.ok.injEq, Prod.mk.injEq] at hp
        obtain ⟨hv, hr⟩ := hp
        subst hv
        subst hr
        rfl
      · cases hp
    · rename_i heq
      rw [heq]
      split at hp
      · rename_i htok
        rw [if_pos htok]
        simp only [Except.ok.injEq, Prod.mk.injEq] at hp
        obtain ⟨hv, hr⟩ := hp
        subst hv
        subst hr
        rfl
      · cases hp
    · rename_i heq
      rw [heq]
      split at hp
      · rename_i htok
        rw [if_pos htok]
        simp only [Except.ok.injEq, Prod.mk.injEq] at hp
        obtain ⟨hv, hr⟩ := hp
        subst hv
        subst hr
        rfl
      · cases hp
    · rename_i heq
      rw [heq]
      split at hp
      · rename_i u hunq
        simp only [Except.ok.injEq, Prod.mk.injEq] at hp
        obtain ⟨hv, hr⟩ := hp
        subst hv
        subst hr
        show (match iterValue0 s.length .kstr tok rest0 0 with
          | .error e => (.error e : Except PErr (Option (JVal × List Nat × Nat)))
          | .ok (v, rest2, d2) => .ok (some (v, rest2, d2)))
          = .ok (some (.jstr tok, rest0, 0))
        unfold iterValue0
        rw [hunq]
      · cases hp
    · rename_i heq
      rw [heq]
      show (match iterValue0 s.length .karr tok rest0 1 with
        | .error e => (.error e : Except PErr (Option (JVal × List Nat × Nat)))
        | .ok (v, rest2, d2) => .ok (some (v, rest2, d2)))
        = .ok (some (v, rest, 0))
      unfold iterValue0
      rw [hp]
    · rename_i heq
      rw [heq]
      show (match iterValue0 s.length .kobj tok rest0 1 with
        | .error e => (.error e : Except PErr (Option (JVal × List Nat × Nat)))
        | .ok (v, rest2, d2) => .ok (some (v, rest2, d2)))
        = .ok (some (v, rest, 0))
      unfold iterValue0
      rw [hp]
    · cases hp
    · cases hp
    · rename_i c hne1 hne2 hne3 hne4 hne5 hne6 hne7 hne8 heq
      rw [heq]
      split at hp
      · rename_i hdig
        split at hp
        · simp only [Except.ok.injEq, Prod.mk.injEq] at hp
          obtain ⟨hv, hr⟩ := hp
          subst hv
          subst hr
          rcases hdig with rfl | hrange
          · rfl
          · obtain ⟨hc1, hc2⟩ := hrange
            interval_cases c <;> rfl
        · cases hp
      · cases hp
    · cases hp

/-- Witness for C6 at the concrete document "[1]": one Next then Value
returns the parsed array, consuming everything, at depth zero. -/
theorem c6_iterator_value_matches_parse_witness :
    ∃ v2 rest2, iterFirstValue [91, 49, 93] = .ok (some (v2, rest2, 0)) ∧
      v2.strip = (JVal.jarr [91, 49, 93] [.jnum [49]]).strip ∧ nextTok rest2 = none :=
  c6_iterator_value_matches_parse [91, 49, 93] (.jarr [91, 49, 93] [.jnum [49]]) (by rfl)

/-! ### The nested-walk object generator (spec-modelled): src/ exposes only
the flat Next/Value iterator, so the array()/object() generator walk of the
spec is modelled here from the spec's description. -/

/-- Modelled from the spec: draining the remaining tokens of an unconsumed
nested Array/Object child: tokens are read and discarded while tracking the
bracket depth, until the bracket that closes the child. -/
def drainF : Nat → Nat → List Nat → Option (List Nat)
  | 0, _, _ => none
  | f + 1, depth, s =>
    match nextTok s with
    | none => none
    | some (tok, rest) =>
      if tok = [91] ∨ tok = [123] then drainF f (depth + 1) rest
      else if tok = [93] ∨ tok = [125] then
        (if depth = 1 then some rest else drainF f (depth - 1) rest)
      else drainF f depth rest

/-- Modelled from the spec: the object() generator walk over an object's
fields (cursor just after the opening brace), for a caller that never
consumes a nested child: each iteration reads the key token, the colon and
the first token of the value; a nested Array/Object child the caller did not
consume is drained and discarded before the next sibling is produced.
Returns the yielded keys in order and the input remaining after the closing
brace; none models an error state. -/
def objKeysF : Nat → List Nat → Option (List (List Nat) × List Nat)
  | 0, _ => none
  | f + 1, s =>
    match nextTok s with
    | none => none
    | some (tok, rest) =>
      if tok = [125] then some ([], rest)
      else if tok = [44] then objKeysF f rest
      else
        match unquote tok with
        | none => none
        | some key =>
          match nextTok rest with
          | none => none
          | some (col, rest2) =>
            if col = [58] then
              match nextTok rest2 with
              | none => none
              | some (vtok, rest3) =>
                if vtok = [91] ∨ vtok = [123] then
                  match drainF f 1 rest3 with
                  | none => none
                  | some rest4 =>
                    match objKeysF f rest4 with
                    | none => none
                    | some (keys, restEnd) => some (key :: keys, restEnd)
                else
                  match objKeysF f rest3 with
                  | none => none
                  | some (keys, restEnd) => some (key :: keys, restEnd)
            else none

/-- C5: on the object from the claim, {"a":[1,2],"b":{"x":1},"c":3}, the
generator walk of its fields with a caller that reads only "c" (never
touching the contents of "a" or "b") drains the unconsumed array and object
children and yields exactly the keys a, b, c in order, ending with no error
and the whole object consumed. -/
theorem c5_iterator_skips_unread :
    objKeysF 64 [34, 97, 34, 58, 91, 49, 44, 50, 93, 44, 34, 98, 34, 58,
        123, 34, 120, 34, 58, 49, 125, 44, 34, 99, 34, 58, 51, 125]
      = some ([[97], [98], [99]], []) := by
  rfl

/-! ### Reparsing consumed spans: the raw text recorded for a value reparses
to a structurally equal value.  This underpins the lazy-placeholder model of
ParseMaxDepth. -/

theorem nextTok_ws_append {w : List Nat} (hw : allWS w = true) (u : List Nat) :
    nextTok (w ++ u) = nextTok u := by
  unfold nextTok
  rw [dropWhile_append_of_all hw]

theorem parseValueF_ws {w : List Nat} (hw : allWS w = true) :
    ∀ (f : Nat) (u : List Nat), parseValueF f (w ++ u) = parseValueF f u := by
  intro f u
  match f with
  | 0 => rfl
  | n + 1 =>
    show (match nextTok (w ++ u) with
      | none => (.error .unexpectedEndOfObject : Except PErr (JVal × List Nat))
      | some (tok, rest) =>
        match tok.head? with
        | some 110 => if tok = nullTok then .ok (.jnull, rest) else .error (.invalidToken tok)
        | some 116 => if tok = trueTok then .ok (.jtrue, rest) else .error (.invalidToken tok)
        | some 102 => if tok = falseTok then .ok (.jfalse, rest) else .error (.invalidToken tok)
        | some 34 =>
          match unquote tok with
          | some _ => .ok (.jstr tok, rest)
          | none => .error (.invalidToken tok)
        | some 91 => parseArrF n (tok ++ rest) rest []
        | some 123 => parseObjF n (tok ++ rest) rest []
        | some 93 => .error (.endOfArray rest)
        | some 125 => .error (.endOfObject rest)
        | some c =>
          if c = 45 ∨ (48 ≤ c ∧ c ≤ 57) then
            if validNumber tok then .ok (.jnum tok, rest) else .error (.invalidNumber tok)
          else .error (.invalidToken tok)
        | none => .error (.invalidToken tok)) = parseValueF (n + 1) u
    rw [nextTok_ws_append hw, parseValueF]

theorem spanOf_append_left {a u r : List Nat} (h : r.length ≤ u.length) :
    spanOf (a ++ u) r = a ++ spanOf u r := by
  unfold spanOf
  rw [List.length_append]
  have h2 : a.length + u.length - r.length = a.length + (u.length - r.length) := by omega
  rw [h2, take_append_len]

theorem spanOf_trans {s r1 r2 : List Nat} (h1 : r1 <:+ s) (h2 : r2 <:+ r1) :
    spanOf s r2 = spanOf s r1 ++ spanOf r1 r2 := by
  obtain ⟨a, rfl⟩ := h1
  obtain ⟨b, rfl⟩ := h2
  rw [spanOf_append, spanOf_append]
  rw [show a ++ (b ++ r2) = (a ++ b) ++ r2 from by simp, spanOf_append]

theorem spanOf_nextTok {s t r : List Nat} (h : nextTok s = some (t, r)) :
    ∃ w, allWS w = true ∧ spanOf s r = w ++ t ∧ s = (w ++ t) ++ r := by
  obtain ⟨w, hs, hw⟩ := nextTok_split h
  refine ⟨w, hw, ?_, ?_⟩
  · rw [hs, show w ++ t ++ r = (w ++ t) ++ r from by simp, spanOf_append]
  · rw [hs]

theorem spanOf_parse {fuel : Nat} {s : List Nat} {v : JVal} {rest : List Nat}
    (h : parseValueF fuel s = .ok (v, rest)) :
    ∃ w, allWS w = true ∧ spanOf s rest = w ++ JVal.appendV v ∧
      s = (w ++ JVal.appendV v) ++ rest := by
  have happ := parse_append h
  obtain ⟨w, hs, hw⟩ := dropWhile_suffix isWS s
  refine ⟨w, hw, ?_, ?_⟩
  · rw [show s = (w ++ JVal.appendV v) ++ rest from by
      rw [hs, ← happ]
      simp]
    rw [spanOf_append]
  · rw [hs, ← happ]
    simp

theorem tok_structural_singleton {s t r : List Nat} {c : Nat}
    (h : nextTok s = some (t, r)) (hh : t.head? = some c) (hs : isStructural c = true) :
    t = [c] := by
  obtain ⟨c2, u, hd, hp⟩ := nextTok_eq_some.mp h
  unfold tokAt at hp
  by_cases h34 : c2 = 34
  · rw [if_pos h34, Prod.mk.injEq] at hp
    rw [hp.1] at hh
    simp at hh
    subst h34
    rw [← hh] at hs
    cases hs
  · rw [if_neg h34] at hp
    by_cases hst : isStructural c2 = true
    · rw [if_pos hst, Prod.mk.injEq] at hp
      rw [hp.1] at hh
      simp at hh
      rw [hp.1, hh]
    · rw [if_neg hst, Prod.mk.injEq] at hp
      rw [hp.1] at hh
      simp at hh
      subst hh
      exact absurd hs hst

theorem zOk_span {u t r : List Nat} {c : Nat} (h : nextTok u = some (t, r))
    (hh : t.head? = some c) (hd : isDelim c = true) {z : List Nat} (hz : zOk z = true)
    (k : Nat) : zOk (u.take k ++ z) = true := by
  cases hk : u.take k with
  | nil =>
    exact hz
  | cons c0 rest0 =>
    have hu : u.head? = some c0 := by
      cases u with
      | nil => simp at hk
      | cons a u2 =>
        cases k with
        | zero => simp at hk
        | succ k2 =>
          rw [List.take_succ_cons] at hk
          injection hk with h1 _
          rw [h1]
          rfl
    show isDelim c0 = true
    obtain ⟨w, hweq, hw⟩ := nextTok_split h
    cases w with
    | nil =>
      rw [hweq] at hu
      cases t with
      | nil => exact absurd rfl (nextTok_token_ne_nil h)
      | cons a t2 =>
        simp at hu hh
        rw [← hu, hh]
        exact hd
    | cons w0 w2 =>
      rw [hweq] at hu
      simp at hu
      have hws : isWS w0 = true := by
        have h2 := hw
        rw [allWS, List.all_cons, Bool.and_eq_true] at h2
        exact h2.1
      rw [← hu]
      unfold isDelim
      rw [hws]
      rfl

/-- The endOfArray sentinel escapes only from parseValue seeing a bare
closing bracket; the loops never return it. -/
def NoEndArrAt (fuel : Nat) : Prop :=
  (∀ s r, parseValueF fuel s = .error (.endOfArray r) → nextTok s = some ([93], r)) ∧
  (∀ start json acc r, ¬ parseArrF fuel start json acc = .error (.endOfArray r)) ∧
  (∀ start json acc r, ¬ parseObjF fuel start json acc = .error (.endOfArray r)) ∧
  (∀ start keyTok json acc r, ¬ parseFieldF fuel start keyTok json acc = .error (.endOfArray r))

theorem noEndArrAt (fuel : Nat) : NoEndArrAt fuel := by
  induction fuel with
  | zero =>
    refine ⟨?_, ?_, ?_, ?_⟩
    · intro s r h; rw [parseValueF] at h; cases h
    · intro start json acc r h; rw [parseArrF] at h; cases h
    · intro start json acc r h; rw [parseObjF] at h; cases h
    · intro start keyTok json acc r h; rw [parseFieldF] at h; cases h
  | succ n ih =>
    obtain ⟨ihV, ihA, ihO, ihF⟩ := ih
    have hV : ∀ s r, parseValueF (n + 1) s = .error (.endOfArray r) →
        nextTok s = some ([93], r) := by
      intro s r h
      rw [parseValueF] at h
      split at h
      · simp at h
      · rename_i tok rest0 hnt
        split at h
        · split at h
          · cases h
          · simp at h
        · split at h
          · cases h
          · simp at h
        · split at h
          · cases h
          · simp at h
        · split at h
          · cases h
          · simp at h
        · exact absurd h (ihA _ _ _ _)
        · exact absurd h (ihO _ _ _ _)
        · rename_i heq
          simp only [Except.error.injEq, PErr.endOfObject.injEq] at h
          have h2 : rest0 = r := by
            have := h
            simp at this
            exact this
          subst h2
          rw [hnt, tok_structural_singleton hnt heq rfl]
        · simp at h
        · split at h
          · split at h
            · cases h
            · simp at h
          · simp at h
        · simp at h
    have hA : ∀ start json acc r, ¬ parseArrF (n + 1) start json acc
        = .error (.endOfArray r) := by
      intro start json acc r h
      rw [parseArrF] at h
      split at h
      · split at h
        · cases h
        · rename_i hdis hpv
          simp only [Except.error.injEq] at h
          exact hdis r h
        · exact ihA _ _ _ _ h
      · split at h
        · simp at h
        · split at h
          · cases h
          · split at h
            · split at h
              · simp at h
              · rename_i hdis hpv
                simp only [Except.error.injEq] at h
                exact hdis r h
              · exact ihA _ _ _ _ h
            · simp at h
    have hO : ∀ start json acc r, ¬ parseObjF (n + 1) start json acc
        = .error (.endOfArray r) := by
      intro start json acc r h
      rw [parseObjF] at h
      split at h
      · simp at h
      · split at h
        · cases h
        · split at h
          · exact ihF _ _ _ _ _ h
          · split at h
            · split at h
              · simp at h
              · exact ihF _ _ _ _ _ h
            · simp at h
    have hF : ∀ start keyTok json acc r, ¬ parseFieldF (n + 1) start keyTok json acc
        = .error (.endOfArray r) := by
      intro start keyTok json acc r h
      rw [parseFieldF] at h
      split at h
      · simp at h
      · split at h
        · simp at h
        · split at h
          · split at h
            · exact ihO _ _ _ _ h
            · simp at h
          · simp at h
    exact ⟨hV, hA, hO, hF⟩

theorem head34_of_wrapped {t : List Nat} (h : wrapped t = true) : t.head? = some 34 := by
  unfold wrapped at h
  simp only [Bool.and_eq_true, decide_eq_true_eq] at h
  exact h.1.2

theorem head34_of_unquote {t k : List Nat} (h : unquote t = some k) : t.head? = some 34 :=
  head34_of_wrapped (unquote_some_iff.mp ⟨k, h⟩).1

/-- A successful field parse begins with a valid key token and a colon. -/
theorem parseFieldF_key_unq : ∀ {fuel : Nat} {start keyTok json acc v rest},
    parseFieldF fuel start keyTok json acc = .ok (v, rest) →
    (∃ key, unquote keyTok = some key) ∧ ∃ r2, nextTok json = some ([58], r2) := by
  intro fuel start keyTok json acc v rest h
  match fuel with
  | 0 => rw [parseFieldF] at h; cases h
  | n + 1 =>
    rw [parseFieldF] at h
    split at h
    · cases h
    · rename_i key hunq
      split at h
      · cases h
      · rename_i tok rest1 hnt
        split at h
        · rename_i htok
          subst htok
          exact ⟨⟨key, hunq⟩, rest1, hnt⟩
        · cases h

/-- The first token an array loop iteration (past the first element) reads is
a comma or a closing bracket. -/
theorem parseArrF_first_tok : ∀ {fuel : Nat} {start json acc v rest},
    parseArrF fuel start json acc = .ok (v, rest) → acc.isEmpty = false →
    ∃ t r2 c, nextTok json = some (t, r2) ∧ t.head? = some c ∧ isDelim c = true := by
  intro fuel start json acc v rest h hne
  match fuel with
  | 0 => rw [parseArrF] at h; cases h
  | n + 1 =>
    rw [parseArrF] at h
    split at h
    · rename_i hemp
      rw [hne] at hemp
      cases hemp
    · split at h
      · cases h
      · rename_i tok rest1 hnt
        split at h
        · rename_i htok
          subst htok
          exact ⟨[93], rest1, 93, hnt, rfl, rfl⟩
        · split at h
          · rename_i htok
            subst htok
            exact ⟨[44], rest1, 44, hnt, rfl, rfl⟩
          · cases h

/-- The first token an object loop iteration reads is a closing brace, a
comma, or a quoted key. -/
theorem parseObjF_first_tok : ∀ {fuel : Nat} {start json acc v rest},
    parseObjF fuel start json acc = .ok (v, rest) →
    ∃ t r2 c, nextTok json = some (t, r2) ∧ t.head? = some c ∧ isDelim c = true := by
  intro fuel start json acc v rest h
  match fuel with
  | 0 => rw [parseObjF] at h; cases h
  | n + 1 =>
    rw [parseObjF] at h
    split at h
    · cases h
    · rename_i tok rest1 hnt
      split at h
      · rename_i htok
        subst htok
        exact ⟨[125], rest1, 125, hnt, rfl, rfl⟩
      · split at h
        · obtain ⟨⟨key, hunq⟩, _⟩ := parseFieldF_key_unq h
          exact ⟨tok, rest1, 34, hnt, head34_of_unquote hunq, rfl⟩
        · split at h
          · rename_i htok
            subst htok
            exact ⟨[44], rest1, 44, hnt, rfl, rfl⟩
          · cases h

/-- Strict consumption: every successful parse call consumes at least one
byte of its token stream. -/
def ProgressAt (fuel : Nat) : Prop :=
  (∀ s v rest, parseValueF fuel s = .ok (v, rest) → rest.length < s.length) ∧
  (∀ start json acc v rest, parseArrF fuel start json acc = .ok (v, rest) →
    rest.length < json.length) ∧
  (∀ start json acc v rest, parseObjF fuel start json acc = .ok (v, rest) →
    rest.length < json.length) ∧
  (∀ start keyTok json acc v rest, parseFieldF fuel start keyTok json acc = .ok (v, rest) →
    rest.length < json.length)

theorem progressAt (fuel : Nat) : ProgressAt fuel := by
  induction fuel with
  | zero =>
    refine ⟨?_, ?_, ?_, ?_⟩
    · intro s v rest h; rw [parseValueF] at h; cases h
    · intro start json acc v rest h; rw [parseArrF] at h; cases h
    · intro start json acc v rest h; rw [parseObjF] at h; cases h
    · intro start keyTok json acc v rest h; rw [parseFieldF] at h; cases h
  | succ n ih =>
    obtain ⟨ihV, ihA, ihO, ihF⟩ := ih
    have hV : ∀ s v rest, parseValueF (n + 1) s = .ok (v, rest) → rest.length < s.length := by
      intro s v rest h
      rw [parseValueF] at h
      split at h
      · cases h
      · rename_i tok rest0 hnt
        have hprog := nextTok_progress hnt
        split at h
        · split at h
          · simp only [Except.ok.injEq, Prod.mk.injEq] at h
            rw [← h.2]
            exact hprog
          · cases h
        · split at h
          · simp only [Except.ok.injEq, Prod.mk.injEq] at h
            rw [← h.2]
            exact hprog
          · cases h
        · split at h
          · simp only [Except.ok.injEq, Prod.mk.injEq] at h
            rw [← h.2]
            exact hprog
          · cases h
        · split at h
          · simp only [Except.ok.injEq, Prod.mk.injEq] at h
            rw [← h.2]
            exact hprog
          · cases h
        · have := ihA _ _ _ _ _ h
          omega
        · have := ihO _ _ _ _ _ h
          omega
        · cases h
        · cases h
        · split at h
          · split at h
            · simp only [Except.ok.injEq, Prod.mk.injEq] at h
              rw [← h.2]
              exact hprog
            · cases h
          · cases h
        · cases h
    have hA : ∀ start json acc v rest, parseArrF (n + 1) start json acc = .ok (v, rest) →
        rest.length < json.length := by
      intro start json acc v rest h
      rw [parseArrF] at h
      split at h
      · split at h
        · rename_i rest0 hpe
          simp only [Except.ok.injEq, Prod.mk.injEq] at h
          rw [← h.2]
          exact nextTok_progress ((noEndArrAt n).1 _ _ hpe)
        · cases h
        · rename_i v0 rest2 hpv
          have h1 := ihV _ _ _ hpv
          have h2 := ihA _ _ _ _ _ h
          omega
      · split at h
        · cases h
        · rename_i tok rest1 hnt
          have hprog := nextTok_progress hnt
          split at h
          · simp only [Except.ok.injEq, Prod.mk.injEq] at h
            rw [← h.2]
            exact hprog
          · split at h
            · split at h
              · cases h
              · cases h
              · rename_i v0 rest2 hpv
                have h1 := ihV _ _ _ hpv
                have h2 := ihA _ _ _ _ _ h
                omega
            · cases h
    have hO : ∀ start json acc v rest, parseObjF (n + 1) start json acc = .ok (v, rest) →
        rest.length < json.length := by
      intro start json acc v rest h
      rw [parseObjF] at h
      split at h
      · cases h
      · rename_i tok rest1 hnt
        have hprog := nextTok_progress hnt
        split at h
        · simp only [Except.ok.injEq, Prod.mk.injEq] at h
          rw [← h.2]
          exact hprog
        · split at h
          · have := ihF _ _ _ _ _ _ h
            omega
          · split at h
            · split at h
              · cases h
              · rename_i tok2 rest2 hnt2
                have hprog2 := nextTok_progress hnt2
                have := ihF _ _ _ _ _ _ h
                omega
            · cases h
    have hF : ∀ start keyTok json acc v rest,
        parseFieldF (n + 1) start keyTok json acc = .ok (v, rest) →
        rest.length < json.length := by
      intro start keyTok json acc v rest h
      rw [parseFieldF] at h
      split at h
      · cases h
      · split at h
        · cases h
        · rename_i tok rest1 hnt
          have hprog := nextTok_progress hnt
          split at h
          · split at h
            · rename_i v0 rest2 hpv
              have h1 := ihV _ _ _ hpv
              have h2 := ihO _ _ _ _ _ h
              omega
            · cases h
          · cases h
    exact ⟨hV, hA, hO, hF⟩

theorem spanOf_length {u r : List Nat} (h : r <:+ u) :
    (spanOf u r).length = u.length - r.length := by
  unfold spanOf
  rw [List.length_take]
  have := List.IsSuffix.length_le h
  omega

theorem stripF_insertField (f : List Nat × JVal) :
    ∀ l, stripF (insertField f l) = insertField (f.1, f.2.strip) (stripF l) := by
  intro l
  induction l with
  | nil => rfl
  | cons g t ih =>
    show stripF (if lexLt g.1 f.1 then g :: insertField f t else f :: g :: t) = _
    by_cases hlt : lexLt g.1 f.1 = true
    · rw [if_pos hlt]
      show (g.1, g.2.strip) :: stripF (insertField f t) = _
      rw [ih]
      show _ = if lexLt (g.1, g.2.strip).1 (f.1, f.2.strip).1 = true then
        (g.1, g.2.strip) :: insertField (f.1, f.2.strip) (stripF t) else _
      rw [if_pos hlt]
    · rw [if_neg hlt]
      show (f.1, f.2.strip) :: (g.1, g.2.strip) :: stripF t = _
      show _ = if lexLt (g.1, g.2.strip).1 (f.1, f.2.strip).1 = true then _ else
        (f.1, f.2.strip) :: (g.1, g.2.strip) :: stripF t
      rw [if_neg hlt]

theorem stripF_sortFields : ∀ l, stripF (sortFields l) = sortFields (stripF l) := by
  intro l
  induction l with
  | nil => rfl
  | cons f t ih =>
    show stripF (insertField f (sortFields t)) = _
    rw [stripF_insertField, ih]
    rfl

theorem stripF_sortFields_congr {a b : List (List Nat × JVal)}
    (h : stripF a = stripF b) : stripF (sortFields a) = stripF (sortFields b) := by
  rw [stripF_sortFields, stripF_sortFields, h]

theorem isEmpty_false_append {α : Type} (a : List α) (x : α) :
    (a ++ [x]).isEmpty = false := by
  cases a <;> rfl

theorem eq_nil_of_isEmpty {α : Type} {a : List α} (h : a.isEmpty = true) : a = [] := by
  cases a with
  | nil => rfl
  | cons _ _ => cases h

theorem stripL_length : ∀ l : List JVal, (stripL l).length = l.length := by
  intro l
  induction l with
  | nil => rfl
  | cons v t ih => show (stripL t).length + 1 = t.length + 1; rw [ih]

theorem stripF_length : ∀ l : List (List Nat × JVal), (stripF l).length = l.length := by
  intro l
  induction l with
  | nil => rfl
  | cons v t ih => show (stripF t).length + 1 = t.length + 1; rw [ih]

theorem parseFieldF_rest_suffix {fuel : Nat} {start keyTok json acc v rest}
    (h : parseFieldF fuel start keyTok json acc = .ok (v, rest)) : rest <:+ json := by
  have h0 := (parse_restOk fuel).2.2.2 start keyTok json acc
  rw [h] at h0
  exact h0

/-- A value whose recorded raw text reparses, before any delimiter-headed
continuation, to a structurally equal value. -/
def SVrP (v : JVal) : Prop :=
  1 ≤ (JVal.appendV v).length ∧
  ∀ f z, (JVal.appendV v).length < f → zOk z = true →
    ∃ v2, parseValueF f (JVal.appendV v ++ z) = .ok (v2, z) ∧ v2.strip = v.strip

/-- The reparse facts for one fuel level: every parsed value's raw span
reparses structurally equal, and each loop's remaining consumed span replays
from any position with any structurally equal accumulator. -/
def RawInvAt (fuel : Nat) : Prop :=
  (∀ s v rest, parseValueF fuel s = .ok (v, rest) → SVrP v) ∧
  (∀ start json acc v rest, parseArrF fuel start json acc = .ok (v, rest) →
    (∀ e ∈ acc, SVrP e) →
    ∀ f z start2 acc2, zOk z = true → (spanOf json rest).length < f →
      stripL acc2 = stripL acc → acc2.isEmpty = acc.isEmpty →
      ∃ v2, parseArrF f start2 (spanOf json rest ++ z) acc2 = .ok (v2, z) ∧
        v2.strip = v.strip) ∧
  (∀ start json acc v rest, parseObjF fuel start json acc = .ok (v, rest) →
    (∀ e ∈ acc, SVrP e.2) →
    ∀ f z start2 acc2, zOk z = true → (spanOf json rest).length < f →
      stripF acc2 = stripF acc → acc2.isEmpty = acc.isEmpty →
      ∃ v2, parseObjF f start2 (spanOf json rest ++ z) acc2 = .ok (v2, z) ∧
        v2.strip = v.strip) ∧
  (∀ start keyTok json acc v rest, parseFieldF fuel start keyTok json acc = .ok (v, rest) →
    (∀ e ∈ acc, SVrP e.2) →
    ∀ f z start2 acc2, zOk z = true → (spanOf json rest).length < f →
      stripF acc2 = stripF acc → acc2.isEmpty = acc.isEmpty →
      ∃ v2, parseFieldF f start2 keyTok (spanOf json rest ++ z) acc2 = .ok (v2, z) ∧
        v2.strip = v.strip)

theorem rawInvAt (fuel : Nat) : RawInvAt fuel := by
  induction fuel with
  | zero =>
    refine ⟨?_, ?_, ?_, ?_⟩
    · intro s v rest h; rw [parseValueF] at h; cases h
    · intro start json acc v rest h; rw [parseArrF] at h; cases h
    · intro start json acc v rest h; rw [parseObjF] at h; cases h
    · intro start keyTok json acc v rest h; rw [parseFieldF] at h; cases h
  | succ n ih =>
    obtain ⟨ihV, ihA, ihO, ihF⟩ := ih
    have hV : ∀ s v rest, parseValueF (n + 1) s = .ok (v, rest) → SVrP v := by
      intro s v rest h
      rw [parseValueF] at h
      split at h
      · cases h
      · rename_i tok rest0 hnt
        split at h
        · split at h
          · rename_i htok
            simp only [Except.ok.injEq, Prod.mk.injEq] at h
            rw [← h.1]
            refine ⟨by decide, ?_⟩
            intro f z hf hz
            obtain ⟨f1, rfl⟩ : ∃ f1, f = f1 + 1 := ⟨f - 1, by omega⟩
            exact ⟨.jnull, parseValueF_null_step (nextTok_bare rfl rfl hz), rfl⟩
          · cases h
        · split at h
          · rename_i htok
            simp only [Except.ok.injEq, Prod.mk.injEq] at h
            rw [← h.1]
            refine ⟨by decide, ?_⟩
            intro f z hf hz
            obtain ⟨f1, rfl⟩ : ∃ f1, f = f1 + 1 := ⟨f - 1, by omega⟩
            exact ⟨.jtrue, parseValueF_true_step (nextTok_bare rfl rfl hz), rfl⟩
          · cases h
        · split at h
          · rename_i htok
            simp only [Except.ok.injEq, Prod.mk.injEq] at h
            rw [← h.1]
            refine ⟨by decide, ?_⟩
            intro f z hf hz
            obtain ⟨f1, rfl⟩ : ∃ f1, f = f1 + 1 := ⟨f - 1, by omega⟩
            exact ⟨.jfalse, parseValueF_false_step (nextTok_bare rfl rfl hz), rfl⟩
          · cases h
        · rename_i heq
          split at h
          · rename_i u0 hu
            simp only [Except.ok.injEq, Prod.mk.injEq] at h
            rw [← h.1]
            obtain ⟨body, hb, hnoterm, htrail, hbody⟩ := strTok_shape hnt heq ⟨u0, hu⟩
            subst hb
            refine ⟨by show 1 ≤ (34 :: body ++ [34]).length; simp, ?_⟩
            intro f z hf hz
            obtain ⟨f1, rfl⟩ : ∃ f1, f = f1 + 1 := ⟨f - 1, by omega⟩
            exact ⟨.jstr (34 :: body ++ [34]),
              parseValueF_str_step (nextTok_string hnoterm htrail) hu, rfl⟩
          · cases h
        · rename_i heq
          have htok91 : tok = [91] := tok_structural_singleton hnt heq rfl
          subst htok91
          obtain ⟨elems, hv⟩ := parseArrF_shape n h
          have hsufr : rest <:+ rest0 := parseArrF_rest_suffix h
          have hspan : spanOf ([91] ++ rest0) rest = [91] ++ spanOf rest0 rest :=
            spanOf_append_left (List.IsSuffix.length_le hsufr)
          have hav : JVal.appendV v = spanOf ([91] ++ rest0) rest := by rw [hv]; rfl
          have hlenav : (JVal.appendV v).length = (spanOf rest0 rest).length + 1 := by
            rw [hav, hspan]
            simp
          refine ⟨by omega, ?_⟩
          intro f z hf hz
          obtain ⟨f1, rfl⟩ : ∃ f1, f = f1 + 1 := ⟨f - 1, by omega⟩
          have hform : JVal.appendV v ++ z = 91 :: (spanOf rest0 rest ++ z) := by
            rw [hav, hspan]
            simp
          obtain ⟨v2, harr, hstrip⟩ := ihA _ _ _ _ _ h (by intro e he; cases he) f1 z
            (91 :: (spanOf rest0 rest ++ z)) [] hz (by omega) rfl rfl
          refine ⟨v2, ?_, hstrip⟩
          rw [hform,
            parseValueF_arr_step (nextTok_structural (show isStructural 91 = true from rfl) _)]
          exact harr
        · rename_i heq
          have htok123 : tok = [123] := tok_structural_singleton hnt heq rfl
          subst htok123
          obtain ⟨fields, hv⟩ := (objShapeAt n).1 _ _ _ _ _ h
          have hsufr : rest <:+ rest0 := parseObjF_rest_suffix h
          have hspan : spanOf ([123] ++ rest0) rest = [123] ++ spanOf rest0 rest :=
            spanOf_append_left (List.IsSuffix.length_le hsufr)
          have hav : JVal.appendV v = spanOf ([123] ++ rest0) rest := by rw [hv]; rfl
          have hlenav : (JVal.appendV v).length = (spanOf rest0 rest).length + 1 := by
            rw [hav, hspan]
            simp
          refine ⟨by omega, ?_⟩
          intro f z hf hz
          obtain ⟨f1, rfl⟩ : ∃ f1, f = f1 + 1 := ⟨f - 1, by omega⟩
          have hform : JVal.appendV v ++ z = 123 :: (spanOf rest0 rest ++ z) := by
            rw [hav, hspan]
            simp
          obtain ⟨v2, hobj, hstrip⟩ := ihO _ _ _ _ _ h (by intro e he; cases he) f1 z
            (123 :: (spanOf rest0 rest ++ z)) [] hz (by omega) rfl rfl
          refine ⟨v2, ?_, hstrip⟩
          rw [hform,
            parseValueF_obj_step (nextTok_structural (show isStructural 123 = true from rfl) _)]
          exact hobj
        · cases h
        · cases h
        · rename_i c hne1 hne2 hne3 hne4 hne5 hne6 hne7 hne8 heq
          split at h
          · rename_i hdig
            split at h
            · rename_i hvn
              simp only [Except.ok.injEq, Prod.mk.injEq] at h
              rw [← h.1]
              obtain ⟨tr, htr, hall⟩ := numTok_shape hnt heq hdig
              subst htr
              have h1 := hall
              rw [List.all_cons, Bool.and_eq_true] at h1
              have hdc : isDelim c = false := by
                have h2 := h1.1
                simp only [Bool.not_eq_true'] at h2
                exact h2
              refine ⟨by show 1 ≤ (c :: tr).length; simp, ?_⟩
              intro f z hf hz
              obtain ⟨f1, rfl⟩ : ∃ f1, f = f1 + 1 := ⟨f - 1, by omega⟩
              exact ⟨.jnum (c :: tr),
                parseValueF_num_step hdig hvn (nextTok_bare hdc h1.2 hz), rfl⟩
            · cases h
          · cases h
        · cases h
    have hA : ∀ start json acc v rest, parseArrF (n + 1) start json acc = .ok (v, rest) →
        (∀ e ∈ acc, SVrP e) →
        ∀ f z start2 acc2, zOk z = true → (spanOf json rest).length < f →
          stripL acc2 = stripL acc → acc2.isEmpty = acc.isEmpty →
          ∃ v2, parseArrF f start2 (spanOf json rest ++ z) acc2 = .ok (v2, z) ∧
            v2.strip = v.strip := by
      intro start json acc v rest h hsv f z start2 acc2 hz hf hstr hiso
      rw [parseArrF] at h
      split at h
      · rename_i hemp
        have hacc : acc = [] := eq_nil_of_isEmpty hemp
        have hacc2 : acc2 = [] := eq_nil_of_isEmpty (by rw [hiso, hemp])
        subst hacc
        subst hacc2
        split at h
        · rename_i rest1 hpe
          simp only [Except.ok.injEq, Prod.mk.injEq] at h
          obtain ⟨hv, hr⟩ := h
          subst hr
          have hnt93 := (noEndArrAt n).1 _ _ hpe
          obtain ⟨w, hw, hspan, hjson⟩ := spanOf_nextTok hnt93
          have hlsp : 1 ≤ (spanOf json rest1).length := by
            rw [hspan]
            simp
          obtain ⟨f1, rfl⟩ : ∃ f1, f = f1 + 1 := ⟨f - 1, by omega⟩
          obtain ⟨f2, rfl⟩ : ∃ f2, f1 = f2 + 1 := ⟨f1 - 1, by
            rw [hspan] at hf
            simp at hf
            omega⟩
          refine ⟨.jarr (spanOf start2 z) [], ?_, by rw [← hv]; rfl⟩
          have hform : spanOf json rest1 ++ z = w ++ (93 :: z) := by
            rw [hspan]
            simp
          rw [hform, parseArrF,
            if_pos (show List.isEmpty ([] : List JVal) = true from rfl),
            parseValueF_ws hw,
            parseValueF_endArr_step (nextTok_structural (show isStructural 93 = true from rfl) z)]
        · cases h
        · rename_i v0 rest2 hpv
          have hsv0 : SVrP v0 := ihV _ _ _ hpv
          have hav1 : 1 ≤ (JVal.appendV v0).length := hsv0.1
          have hsuf2 : rest2 <:+ json := parseValueF_rest_suffix hpv
          have hsufr : rest <:+ rest2 := parseArrF_rest_suffix h
          have hprogr : rest.length < rest2.length := (progressAt n).2.1 _ _ _ _ _ h
          have hdecomp : spanOf json rest = spanOf json rest2 ++ spanOf rest2 rest :=
            spanOf_trans hsuf2 hsufr
          obtain ⟨w0, hw0, hsp0, hjson0⟩ := spanOf_parse hpv
          have hsp2len : 1 ≤ (spanOf rest2 rest).length := by
            rw [spanOf_length hsufr]
            omega
          have hlsp : (spanOf json rest).length
              = w0.length + (JVal.appendV v0).length + (spanOf rest2 rest).length := by
            rw [hdecomp, hsp0]
            simp [List.length_append]
            omega
          obtain ⟨f1, rfl⟩ : ∃ f1, f = f1 + 1 := ⟨f - 1, by omega⟩
          obtain ⟨t2, r2, c2, hnt2, hh2, hd2⟩ := parseArrF_first_tok h
            (isEmpty_false_append [] v0)
          have hzok2 : zOk (spanOf rest2 rest ++ z) = true := zOk_span hnt2 hh2 hd2 hz _
          obtain ⟨v0n, hpvn, hstrip0⟩ := hsv0.2 f1 (spanOf rest2 rest ++ z)
            (by omega) hzok2
          obtain ⟨v2, harr2, hstrip2⟩ := ihA _ _ _ _ _ h
            (by
              intro e he
              rcases List.mem_append.mp he with he | he
              · cases he
              · rcases List.mem_singleton.mp he with rfl
                exact hsv0)
            f1 z start2 ([] ++ [v0n]) hz (by omega)
            (by rw [stripL_append, stripL_append]
                show stripL [] ++ v0n.strip :: stripL [] = stripL [] ++ v0.strip :: stripL []
                rw [hstrip0])
            (by rfl)
          refine ⟨v2, ?_, hstrip2⟩
          have hform : spanOf json rest ++ z
              = w0 ++ (JVal.appendV v0 ++ (spanOf rest2 rest ++ z)) := by
            rw [hdecomp, hsp0]
            simp
          rw [hform, parseArrF,
            if_pos (show List.isEmpty ([] : List JVal) = true from rfl),
            parseValueF_ws hw0, hpvn]
          exact harr2
      · rename_i hemp
        have hemp2 : acc2.isEmpty = false := by
          rw [hiso]
          exact Bool.eq_false_iff.mpr hemp
        split at h
        · cases h
        · rename_i tok rest1 hnt
          split at h
          · rename_i htok
            subst htok
            simp only [Except.ok.injEq, Prod.mk.injEq] at h
            obtain ⟨hv, hr⟩ := h
            subst hr
            obtain ⟨w, hw, hspan, hjson⟩ := spanOf_nextTok hnt
            obtain ⟨f1, rfl⟩ : ∃ f1, f = f1 + 1 := ⟨f - 1, by omega⟩
            refine ⟨.jarr (spanOf start2 z) acc2, ?_, by
              rw [← hv]
              show JVal.jarr [] (stripL acc2) = JVal.jarr [] (stripL acc)
              rw [hstr]⟩
            have hform : spanOf json rest1 ++ z = w ++ (93 :: z) := by
              rw [hspan]
              simp
            have hntr : nextTok (w ++ (93 :: z)) = some ([93], z) := by
              rw [nextTok_ws_append hw]
              exact nextTok_structural (show isStructural 93 = true from rfl) z
            rw [hform, parseArrF, if_neg (by simp [hemp2]), hntr]
            dsimp only []
            rw [if_pos rfl]
          · split at h
            · rename_i htok44
              subst htok44
              split at h
              · cases h
              · cases h
              · rename_i v0 rest2 hpv
                have hsv0 : SVrP v0 := ihV _ _ _ hpv
                have hav1 : 1 ≤ (JVal.appendV v0).length := hsv0.1
                have hsuf1 : rest1 <:+ json := nextTok_suffix hnt
                have hsuf2 : rest2 <:+ rest1 := parseValueF_rest_suffix hpv
                have hsufr : rest <:+ rest2 := parseArrF_rest_suffix h
                have hprogr : rest.length < rest2.length := (progressAt n).2.1 _ _ _ _ _ h
                have hdecomp : spanOf json rest
                    = spanOf json rest1 ++ (spanOf rest1 rest2 ++ spanOf rest2 rest) := by
                  rw [spanOf_trans hsuf1 (hsufr.trans hsuf2),
                    spanOf_trans hsuf2 hsufr]
                obtain ⟨w, hw, hspan, hjson⟩ := spanOf_nextTok hnt
                obtain ⟨w0, hw0, hsp0, hjson0⟩ := spanOf_parse hpv
                have hsp2len : 1 ≤ (spanOf rest2 rest).length := by
                  rw [spanOf_length hsufr]
                  omega
                have hlsp : (spanOf json rest).length
                    = w.length + 1 + (w0.length + (JVal.appendV v0).length)
                      + (spanOf rest2 rest).length := by
                  rw [hdecomp, hspan, hsp0]
                  simp [List.length_append]
                  omega
                obtain ⟨f1, rfl⟩ : ∃ f1, f = f1 + 1 := ⟨f - 1, by omega⟩
                obtain ⟨t2, r2, c2, hnt2, hh2, hd2⟩ := parseArrF_first_tok h
                  (isEmpty_false_append acc v0)
                have hzok2 : zOk (spanOf rest2 rest ++ z) = true := zOk_span hnt2 hh2 hd2 hz _
                obtain ⟨v0n, hpvn, hstrip0⟩ := hsv0.2 f1 (spanOf rest2 rest ++ z)
                  (by omega) hzok2
                obtain ⟨v2, harr2, hstrip2⟩ := ihA _ _ _ _ _ h
                  (by
                    intro e he
                    rcases List.mem_append.mp he with he | he
                    · exact hsv e he
                    · rcases List.mem_singleton.mp he with rfl
                      exact hsv0)
                  f1 z start2 (acc2 ++ [v0n]) hz (by omega)
                  (by rw [stripL_append, stripL_append, hstr]
                      show stripL acc ++ v0n.strip :: stripL [] = stripL acc ++ v0.strip :: stripL []
                      rw [hstrip0])
                  (by rw [isEmpty_false_append, isEmpty_false_append])
                refine ⟨v2, ?_, hstrip2⟩
                have hform : spanOf json rest ++ z
                    = w ++ (44 :: (w0 ++ (JVal.appendV v0 ++ (spanOf rest2 rest ++ z)))) := by
                  rw [hdecomp, hspan, hsp0]
                  simp
                have hntr : nextTok (w ++ (44 :: (w0 ++ (JVal.appendV v0
                      ++ (spanOf rest2 rest ++ z)))))
                    = some ([44], w0 ++ (JVal.appendV v0 ++ (spanOf rest2 rest ++ z))) := by
                  rw [nextTok_ws_append hw]
                  exact nextTok_structural (show isStructural 44 = true from rfl) _
                rw [hform, parseArrF, if_neg (by simp [hemp2]), hntr]
                dsimp only []
                rw [if_neg (by decide), if_pos rfl, parseValueF_ws hw0, hpvn]
                exact harr2
            · cases h
    have hO : ∀ start json acc v rest, parseObjF (n + 1) start json acc = .ok (v, rest) →
        (∀ e ∈ acc, SVrP e.2) →
        ∀ f z start2 acc2, zOk z = true → (spanOf json rest).length < f →
          stripF acc2 = stripF acc → acc2.isEmpty = acc.isEmpty →
          ∃ v2, parseObjF f start2 (spanOf json rest ++ z) acc2 = .ok (v2, z) ∧
            v2.strip = v.strip := by
      intro start json acc v rest h hsv f z start2 acc2 hz hf hstr hiso
      rw [parseObjF] at h
      split at h
      · cases h
      · rename_i tok rest1 hnt
        split at h
        · rename_i htok
          subst htok
          simp only [Except.ok.injEq, Prod.mk.injEq] at h
          obtain ⟨hv, hr⟩ := h
          subst hr
          obtain ⟨w, hw, hspan, hjson⟩ := spanOf_nextTok hnt
          obtain ⟨f1, rfl⟩ : ∃ f1, f = f1 + 1 := ⟨f - 1, by omega⟩
          refine ⟨.jobj (spanOf start2 z) (sortFields acc2), ?_, by
            rw [← hv]
            show JVal.jobj [] (stripF (sortFields acc2))
              = JVal.jobj [] (stripF (sortFields acc))
            rw [stripF_sortFields_congr hstr]⟩
          have hform : spanOf json rest1 ++ z = w ++ (125 :: z) := by
            rw [hspan]
            simp
          have hntr : nextTok (w ++ (125 :: z)) = some ([125], z) := by
            rw [nextTok_ws_append hw]
            exact nextTok_structural (show isStructural 125 = true from rfl) z
          rw [hform, parseObjF, hntr]
          dsimp only []
          rw [if_pos rfl]
        · split at h
          · rename_i hemp
            obtain ⟨⟨key, hunq⟩, _⟩ := parseFieldF_key_unq h
            obtain ⟨body, hb, hnoterm, htrail, hbody⟩ :=
              strTok_shape hnt (head34_of_unquote hunq) ⟨key, hunq⟩
            have hsuf1 : rest1 <:+ json := nextTok_suffix hnt
            have hsufr : rest <:+ rest1 := parseFieldF_rest_suffix h
            have hdecomp : spanOf json rest = spanOf json rest1 ++ spanOf rest1 rest :=
              spanOf_trans hsuf1 hsufr
            obtain ⟨w, hw, hspan, hjson⟩ := spanOf_nextTok hnt
            have htoklen : 2 ≤ tok.length := by
              rw [hb]
              simp
            have hlsp : (spanOf json rest).length
                = w.length + tok.length + (spanOf rest1 rest).length := by
              rw [hdecomp, hspan]
              simp [List.length_append]
              omega
            have hacc2 : acc2.isEmpty = true := by rw [hiso]; exact hemp
            obtain ⟨f1, rfl⟩ : ∃ f1, f = f1 + 1 := ⟨f - 1, by omega⟩
            have hform : spanOf json rest ++ z = w ++ (tok ++ (spanOf rest1 rest ++ z)) := by
              rw [hdecomp, hspan]
              simp
            have hntk : nextTok (w ++ (tok ++ (spanOf rest1 rest ++ z)))
                = some (tok, spanOf rest1 rest ++ z) := by
              rw [nextTok_ws_append hw, hb]
              exact nextTok_string hnoterm htrail
            obtain ⟨v2, hfe, hstrip⟩ := ihF _ _ _ _ _ _ h hsv f1 z start2 acc2 hz
              (by omega) hstr hiso
            refine ⟨v2, ?_, hstrip⟩
            rw [hform, parseObjF, hntk]
            dsimp only []
            rw [if_neg (by rw [hb]; simp), if_pos hacc2]
            exact hfe
          · split at h
            · rename_i hemp htok44
              subst htok44
              split at h
              · cases h
              · rename_i tok2 rest2 hnt2
                have hemp2 : acc2.isEmpty = false := by
                  rw [hiso]
                  exact Bool.eq_false_iff.mpr hemp
                obtain ⟨⟨key, hunq⟩, _⟩ := parseFieldF_key_unq h
                obtain ⟨body, hb, hnoterm, htrail, hbody⟩ :=
                  strTok_shape hnt2 (head34_of_unquote hunq) ⟨key, hunq⟩
                have hsuf1 : rest1 <:+ json := nextTok_suffix hnt
                have hsuf2 : rest2 <:+ rest1 := nextTok_suffix hnt2
                have hsufr : rest <:+ rest2 := parseFieldF_rest_suffix h
                have hdecomp : spanOf json rest
                    = spanOf json rest1 ++ (spanOf rest1 rest2 ++ spanOf rest2 rest) := by
                  rw [spanOf_trans hsuf1 (hsufr.trans hsuf2),
                    spanOf_trans hsuf2 hsufr]
                obtain ⟨w, hw, hspan, hjson⟩ := spanOf_nextTok hnt
                obtain ⟨w2, hw2, hspan2, hjson2⟩ := spanOf_nextTok hnt2
                have htoklen : 2 ≤ tok2.length := by
                  rw [hb]
                  simp
                have hlsp : (spanOf json rest).length
                    = w.length + 1 + (w2.length + tok2.length)
                      + (spanOf rest2 rest).length := by
                  rw [hdecomp, hspan, hspan2]
                  simp [List.length_append]
                  omega
                obtain ⟨f1, rfl⟩ : ∃ f1, f = f1 + 1 := ⟨f - 1, by omega⟩
                have hform : spanOf json rest ++ z
                    = w ++ (44 :: (w2 ++ (tok2 ++ (spanOf rest2 rest ++ z)))) := by
                  rw [hdecomp, hspan, hspan2]
                  simp
                have hntr : nextTok (w ++ (44 :: (w2 ++ (tok2 ++ (spanOf rest2 rest ++ z)))))
                    = some ([44], w2 ++ (tok2 ++ (spanOf rest2 rest ++ z))) := by
                  rw [nextTok_ws_append hw]
                  exact nextTok_structural (show isStructural 44 = true from rfl) _
                have hntk : nextTok (w2 ++ (tok2 ++ (spanOf rest2 rest ++ z)))
                    = some (tok2, spanOf rest2 rest ++ z) := by
                  rw [nextTok_ws_append hw2, hb]
                  exact nextTok_string hnoterm htrail
                obtain ⟨v2, hfe, hstrip⟩ := ihF _ _ _ _ _ _ h hsv f1 z start2 acc2 hz
                  (by omega) hstr hiso
                refine ⟨v2, ?_, hstrip⟩
                rw [hform, parseObjF, hntr]
                dsimp only []
                rw [if_neg (by decide), if_neg (by simp [hemp2]), if_pos rfl, hntk]
                dsimp only []
                exact hfe
            · cases h
    have hF : ∀ start keyTok json acc v rest,
        parseFieldF (n + 1) start keyTok json acc = .ok (v, rest) →
        (∀ e ∈ acc, SVrP e.2) →
        ∀ f z start2 acc2, zOk z = true → (spanOf json rest).length < f →
          stripF acc2 = stripF acc → acc2.isEmpty = acc.isEmpty →
          ∃ v2, parseFieldF f start2 keyTok (spanOf json rest ++ z) acc2 = .ok (v2, z) ∧
            v2.strip = v.strip := by
      intro start keyTok json acc v rest h hsv f z start2 acc2 hz hf hstr hiso
      rw [parseFieldF] at h
      split at h
      · cases h
      · rename_i key hunq
        split at h
        · cases h
        · rename_i tok rest1 hnt
          split at h
          · rename_i htok58
            subst htok58
            split at h
            · rename_i v0 rest2 hpv
              have hsv0 : SVrP v0 := ihV _ _ _ hpv
              have hav1 : 1 ≤ (JVal.appendV v0).length := hsv0.1
              have hsuf1 : rest1 <:+ json := nextTok_suffix hnt
              have hsuf2 : rest2 <:+ rest1 := parseValueF_rest_suffix hpv
              have hsufr : rest <:+ rest2 := parseObjF_rest_suffix h
              have hprogr : rest.length < rest2.length := (progressAt n).2.2.1 _ _ _ _ _ h
              have hdecomp : spanOf json rest
                  = spanOf json rest1 ++ (spanOf rest1 rest2 ++ spanOf rest2 rest) := by
                rw [spanOf_trans hsuf1 (hsufr.trans hsuf2),
                  spanOf_trans hsuf2 hsufr]
              obtain ⟨w1, hw1, hspan1, hjson1⟩ := spanOf_nextTok hnt
              obtain ⟨w2, hw2, hsp0, hjson2⟩ := spanOf_parse hpv
              have hsp2len : 1 ≤ (spanOf rest2 rest).length := by
                rw [spanOf_length hsufr]
                omega
              have hlsp : (spanOf json rest).length
                  = w1.length + 1 + (w2.length + (JVal.appendV v0).length)
                    + (spanOf rest2 rest).length := by
                rw [hdecomp, hspan1, hsp0]
                simp [List.length_append]
                omega
              obtain ⟨f1, rfl⟩ : ∃ f1, f = f1 + 1 := ⟨f - 1, by omega⟩
              obtain ⟨t2, r2, c2, hnt2, hh2, hd2⟩ := parseObjF_first_tok h
              have hzok2 : zOk (spanOf rest2 rest ++ z) = true := zOk_span hnt2 hh2 hd2 hz _
              obtain ⟨v0n, hpvn, hstrip0⟩ := hsv0.2 f1 (spanOf rest2 rest ++ z)
                (by omega) hzok2
              obtain ⟨v2, hobj, hstrip2⟩ := ihO _ _ _ _ _ h
                (by
                  intro e he
                  rcases List.mem_append.mp he with he | he
                  · exact hsv e he
                  · rcases List.mem_singleton.mp he with rfl
                    exact hsv0)
                f1 z start2 (acc2 ++ [(key, v0n)]) hz (by omega)
                (by rw [stripF_append, stripF_append, hstr]
                    show stripF acc ++ (key, v0n.strip) :: stripF []
                      = stripF acc ++ (key, v0.strip) :: stripF []
                    rw [hstrip0])
                (by rw [isEmpty_false_append, isEmpty_false_append])
              refine ⟨v2, ?_, hstrip2⟩
              have hform : spanOf json rest ++ z
                  = w1 ++ (58 :: (w2 ++ (JVal.appendV v0 ++ (spanOf rest2 rest ++ z)))) := by
                rw [hdecomp, hspan1, hsp0]
                simp
              have hntr : nextTok (w1 ++ (58 :: (w2 ++ (JVal.appendV v0
                    ++ (spanOf rest2 rest ++ z)))))
                  = some ([58], w2 ++ (JVal.appendV v0 ++ (spanOf rest2 rest ++ z))) := by
                rw [nextTok_ws_append hw1]
                exact nextTok_structural (show isStructural 58 = true from rfl) _
              rw [hform, parseFieldF, hunq]
              dsimp only []
              rw [hntr]
              dsimp only []
              rw [if_pos rfl, parseValueF_ws hw2, hpvn]
              exact hobj
            · cases h
          · cases h
    exact ⟨hV, hA, hO, hF⟩

/-- Hereditary reparseability: the value and all container subvalues carry
raw spans that reparse structurally equal. -/
inductive RawOk : JVal → Prop where
  | rnull : RawOk .jnull
  | rtrue : RawOk .jtrue
  | rfalse : RawOk .jfalse
  | rnum (raw : List Nat) : RawOk (.jnum raw)
  | rstr (raw : List Nat) : RawOk (.jstr raw)
  | rarr (cached : List Nat) (elems : List JVal) :
      SVrP (.jarr cached elems) → (∀ e ∈ elems, RawOk e) → RawOk (.jarr cached elems)
  | robj (cached : List Nat) (fs : List (List Nat × JVal)) :
      SVrP (.jobj cached fs) → (∀ f ∈ fs, RawOk f.2) → RawOk (.jobj cached fs)

def HerInvAt (fuel : Nat) : Prop :=
  (∀ s v rest, parseValueF fuel s = .ok (v, rest) → RawOk v) ∧
  (∀ start json acc v rest, parseArrF fuel start json acc = .ok (v, rest) →
    (∀ e ∈ acc, RawOk e) → ∀ cached elems, v = .jarr cached elems → ∀ e ∈ elems, RawOk e) ∧
  (∀ start json acc v rest, parseObjF fuel start json acc = .ok (v, rest) →
    (∀ e ∈ acc, RawOk e.2) → ∀ cached fs, v = .jobj cached fs → ∀ e ∈ fs, RawOk e.2) ∧
  (∀ start keyTok json acc v rest, parseFieldF fuel start keyTok json acc = .ok (v, rest) →
    (∀ e ∈ acc, RawOk e.2) → ∀ cached fs, v = .jobj cached fs → ∀ e ∈ fs, RawOk e.2)

theorem herInvAt (fuel : Nat) : HerInvAt fuel := by
  induction fuel with
  | zero =>
    refine ⟨?_, ?_, ?_, ?_⟩
    · intro s v rest h; rw [parseValueF] at h; cases h
    · intro start json acc v rest h; rw [parseArrF] at h; cases h
    · intro start json acc v rest h; rw [parseObjF] at h; cases h
    · intro start keyTok json acc v rest h; rw [parseFieldF] at h; cases h
  | succ n ih =>
    obtain ⟨ihV, ihA, ihO, ihF⟩ := ih
    have hV : ∀ s v rest, parseValueF (n + 1) s = .ok (v, rest) → RawOk v := by
      intro s v rest h
      have h0 := h
      rw [parseValueF] at h
      split at h
      · cases h
      · rename_i tok rest0 hnt
        split at h
        · split at h
          · simp only [Except.ok.injEq, Prod.mk.injEq] at h
            rw [← h.1]
            exact .rnull
          · cases h
        · split at h
          · simp only [Except.ok.injEq, Prod.mk.injEq] at h
            rw [← h.1]
            exact .rtrue
          · cases h
        · split at h
          · simp only [Except.ok.injEq, Prod.mk.injEq] at h
            rw [← h.1]
            exact .rfalse
          · cases h
        · split at h
          · simp only [Except.ok.injEq, Prod.mk.injEq] at h
            rw [← h.1]
            exact .rstr _
          · cases h
        · obtain ⟨elems, hv⟩ := parseArrF_shape n h
          subst hv
          exact .rarr _ _ ((rawInvAt (n + 1)).1 _ _ _ h0)
            (ihA _ _ _ _ _ h (by intro e he; cases he) _ _ rfl)
        · obtain ⟨fields, hv⟩ := (objShapeAt n).1 _ _ _ _ _ h
          subst hv
          exact .robj _ _ ((rawInvAt (n + 1)).1 _ _ _ h0)
            (ihO _ _ _ _ _ h (by intro e he; cases he) _ _ rfl)
        · cases h
        · cases h
        · split at h
          · split at h
            · simp only [Except.ok.injEq, Prod.mk.injEq] at h
              rw [← h.1]
              exact .rnum _
            · cases h
          · cases h
        · cases h
    have hA : ∀ start json acc v rest, parseArrF (n + 1) start json acc = .ok (v, rest) →
        (∀ e ∈ acc, RawOk e) → ∀ cached elems, v = .jarr cached elems →
        ∀ e ∈ elems, RawOk e := by
      intro start json acc v rest h hacc cached elems hveq
      subst hveq
      rw [parseArrF] at h
      split at h
      · rename_i hemp
        have hacc0 : acc = [] := eq_nil_of_isEmpty hemp
        subst hacc0
        split at h
        · simp only [Except.ok.injEq, Prod.mk.injEq, JVal.jarr.injEq] at h
          intro e he
          rw [← h.1.2] at he
          cases he
        · cases h
        · rename_i v0 rest2 hpv
          exact ihA _ _ _ _ _ h (by
            intro e he
            rcases List.mem_append.mp he with he | he
            · exact hacc e he
            · rcases List.mem_singleton.mp he with rfl
              exact ihV _ _ _ hpv) _ _ rfl
      · split at h
        · cases h
        · split at h
          · simp only [Except.ok.injEq, Prod.mk.injEq, JVal.jarr.injEq] at h
            intro e he
            rw [← h.1.2] at he
            exact hacc e he
          · split at h
            · split at h
              · cases h
              · cases h
              · rename_i v0 rest2 hpv
                exact ihA _ _ _ _ _ h (by
                  intro e he
                  rcases List.mem_append.mp he with he | he
                  · exact hacc e he
                  · rcases List.mem_singleton.mp he with rfl
                    exact ihV _ _ _ hpv) _ _ rfl
            · cases h
    have hO : ∀ start json acc v rest, parseObjF (n + 1) start json acc = .ok (v, rest) →
        (∀ e ∈ acc, RawOk e.2) → ∀ cached fs, v = .jobj cached fs →
        ∀ e ∈ fs, RawOk e.2 := by
      intro start json acc v rest h hacc cached fs hveq
      subst hveq
      rw [parseObjF] at h
      split at h
      · cases h
      · split at h
        · simp only [Except.ok.injEq, Prod.mk.injEq, JVal.jobj.injEq] at h
          intro e he
          rw [← h.1.2] at he
          exact hacc e ((sortFields_perm acc).mem_iff.mp he)
        · split at h
          · exact ihF _ _ _ _ _ _ h hacc _ _ rfl
          · split at h
            · split at h
              · cases h
              · exact ihF _ _ _ _ _ _ h hacc _ _ rfl
            · cases h
    have hF : ∀ start keyTok json acc v rest,
        parseFieldF (n + 1) start keyTok json acc = .ok (v, rest) →
        (∀ e ∈ acc, RawOk e.2) → ∀ cached fs, v = .jobj cached fs →
        ∀ e ∈ fs, RawOk e.2 := by
      intro start keyTok json acc v rest h hacc cached fs hveq
      subst hveq
      rw [parseFieldF] at h
      split at h
      · cases h
      · rename_i key hunq
        split at h
        · cases h
        · split at h
          · split at h
            · rename_i v0 rest2 hpv
              exact ihO _ _ _ _ _ h (by
                intro e he
                rcases List.mem_append.mp he with he | he
                · exact hacc e he
                · rcases List.mem_singleton.mp he with rfl
                  exact ihV _ _ _ hpv) _ _ rfl
            · cases h
          · cases h
    exact ⟨hV, hA, hO, hF⟩

/-! ### ParseMaxDepth (spec-modelled): the code of ParseMaxDepth is not under
src/, so the lazy-placeholder representation is modelled from the spec: the
parse tree is built eagerly down to the depth limit, and a container nested
beyond it is represented by a placeholder holding its raw JSON text; a
structural access re-parses the placeholder text, while the raw-text accessor
returns the held text without parsing. -/

inductive JValD where
  | dnull : JValD
  | dtrue : JValD
  | dfalse : JValD
  | dnum (raw : List Nat) : JValD
  | dstr (raw : List Nat) : JValD
  | darr (cached : List Nat) (elems : List JValD) : JValD
  | dobj (cached : List Nat) (fields : List (List Nat × JValD)) : JValD
  | dlazy (raw : List Nat) : JValD
  deriving Repr

mutual

/-- Modelled from the spec: the tree ParseMaxDepth(D, d) produces, as a
transform of the eager parse: identical down to depth d, with every container
at the limit replaced by a placeholder holding its raw text. -/
def JVal.cutAt : Nat → JVal → JValD
  | _, .jnull => .dnull
  | _, .jtrue => .dtrue
  | _, .jfalse => .dfalse
  | _, .jnum raw => .dnum raw
  | _, .jstr raw => .dstr raw
  | 0, .jarr cached _ => .dlazy cached
  | 0, .jobj cached _ => .dlazy cached
  | d + 1, .jarr cached elems => .darr cached (cutL d elems)
  | d + 1, .jobj cached fs => .dobj cached (cutF d fs)

def cutL : Nat → List JVal → List JValD
  | _, [] => []
  | d, v :: r => v.cutAt d :: cutL d r

def cutF : Nat → List (List Nat × JVal) → List (List Nat × JValD)
  | _, [] => []
  | d, f :: r => (f.1, f.2.cutAt d) :: cutF d r

end

mutual

/-- Modelled from the spec: reading a lazy value through the structural
accessors: a placeholder transparently re-parses its raw text on first
structural access; everything else reads off the tree. -/
def forceD : JValD → Except PErr JVal
  | .dnull => .ok .jnull
  | .dtrue => .ok .jtrue
  | .dfalse => .ok .jfalse
  | .dnum raw => .ok (.jnum raw)
  | .dstr raw => .ok (.jstr raw)
  | .darr cached elems =>
    match forceL elems with
    | .ok l => .ok (.jarr cached l)
    | .error e => .error e
  | .dobj cached fs =>
    match forceF fs with
    | .ok l => .ok (.jobj cached l)
    | .error e => .error e
  | .dlazy raw => ParseJ raw

def forceL : List JValD → Except PErr (List JVal)
  | [] => .ok []
  | v :: r =>
    match forceD v, forceL r with
    | .ok w, .ok l => .ok (w :: l)
    | .error e, _ => .error e
    | _, .error e => .error e

def forceF : List (List Nat × JValD) → Except PErr (List (List Nat × JVal))
  | [] => .ok []
  | f :: r =>
    match forceD f.2, forceF r with
    | .ok w, .ok l => .ok ((f.1, w) :: l)
    | .error e, _ => .error e
    | _, .error e => .error e

end

/-- The raw-text accessor of the lazy tree: a placeholder returns its held
text without any parsing. -/
def JValD.appendD : JValD → List Nat
  | .dnull => nullTok
  | .dtrue => trueTok
  | .dfalse => falseTok
  | .dnum raw => raw
  | .dstr raw => raw
  | .darr cached _ => cached
  | .dobj cached _ => cached
  | .dlazy raw => raw

theorem appendD_cut (d : Nat) (v : JVal) :
    (JVal.cutAt d v).appendD = JVal.appendV v := by
  cases d <;> cases v <;> rfl

theorem SVrP_parse {v : JVal} (h : SVrP v) :
    ∃ v2, ParseJ (JVal.appendV v) = .ok v2 ∧ v2.strip = v.strip := by
  obtain ⟨v2, hp, hstrip⟩ := h.2 ((JVal.appendV v).length + 1) [] (by omega) rfl
  rw [List.append_nil] at hp
  exact ⟨v2, ParseJ_ok.mpr ⟨[], hp, rfl⟩, hstrip⟩

theorem forceL_cut (d : Nat) : ∀ el : List JVal,
    (∀ e ∈ el, ∃ v2, forceD (JVal.cutAt d e) = .ok v2 ∧ v2.strip = e.strip) →
    ∃ l, forceL (cutL d el) = .ok l ∧ stripL l = stripL el := by
  intro el
  induction el with
  | nil => intro _; exact ⟨[], rfl, rfl⟩
  | cons e r ihr =>
    intro h
    obtain ⟨w, hw, hs⟩ := h e (by simp)
    obtain ⟨l, hl, hls⟩ := ihr (fun x hx => h x (by simp [hx]))
    refine ⟨w :: l, ?_, ?_⟩
    · show (match forceD (JVal.cutAt d e), forceL (cutL d r) with
        | .ok w, .ok l => (Except.ok (w :: l) : Except PErr (List JVal))
        | .error e2, _ => .error e2
        | _, .error e2 => .error e2) = .ok (w :: l)
      rw [hw, hl]
    · show w.strip :: stripL l = e.strip :: stripL r
      rw [hs, hls]

theorem forceF_cut (d : Nat) : ∀ fs : List (List Nat × JVal),
    (∀ f ∈ fs, ∃ v2, forceD (JVal.cutAt d f.2) = .ok v2 ∧ v2.strip = f.2.strip) →
    ∃ l, forceF (cutF d fs) = .ok l ∧ stripF l = stripF fs := by
  intro fs
  induction fs with
  | nil => intro _; exact ⟨[], rfl, rfl⟩
  | cons f r ihr =>
    intro h
    obtain ⟨w, hw, hs⟩ := h f (by simp)
    obtain ⟨l, hl, hls⟩ := ihr (fun x hx => h x (by simp [hx]))
    refine ⟨(f.1, w) :: l, ?_, ?_⟩
    · show (match forceD (JVal.cutAt d f.2), forceF (cutF d r) with
        | .ok w, .ok l => (Except.ok ((f.1, w) :: l) : Except PErr (List (List Nat × JVal)))
        | .error e2, _ => .error e2
        | _, .error e2 => .error e2) = .ok ((f.1, w) :: l)
      rw [hw, hl]
    · show (f.1, w.strip) :: stripF l = (f.1, f.2.strip) :: stripF r
      rw [hs, hls]

theorem force_cut {v : JVal} (h : RawOk v) :
    ∀ d, ∃ v2, forceD (JVal.cutAt d v) = .ok v2 ∧ v2.strip = v.strip := by
  induction h with
  | rnull => intro d; cases d <;> exact ⟨.jnull, rfl, rfl⟩
  | rtrue => intro d; cases d <;> exact ⟨.jtrue, rfl, rfl⟩
  | rfalse => intro d; cases d <;> exact ⟨.jfalse, rfl, rfl⟩
  | rnum raw => intro d; cases d <;> exact ⟨.jnum raw, rfl, rfl⟩
  | rstr raw => intro d; cases d <;> exact ⟨.jstr raw, rfl, rfl⟩
  | rarr cached elems hsv hall ih =>
    intro d
    cases d with
    | zero => exact SVrP_parse hsv
    | succ d2 =>
      obtain ⟨l, hl, hls⟩ := forceL_cut d2 elems (fun e he => ih e he d2)
      refine ⟨.jarr cached l, ?_, ?_⟩
      · show (match forceL (cutL d2 elems) with
          | .ok l => (Except.ok (JVal.jarr cached l) : Except PErr JVal)
          | .error e => .error e) = .ok (.jarr cached l)
        rw [hl]
      · show JVal.jarr [] (stripL l) = JVal.jarr [] (stripL elems)
        rw [hls]
  | robj cached fs hsv hall ih =>
    intro d
    cases d with
    | zero => exact SVrP_parse hsv
    | succ d2 =>
      obtain ⟨l, hl, hls⟩ := forceF_cut d2 fs (fun f hf => ih f hf d2)
      refine ⟨.jobj cached l, ?_, ?_⟩
      · show (match forceF (cutF d2 fs) with
          | .ok l => (Except.ok (JVal.jobj cached l) : Except PErr JVal)
          | .error e => .error e) = .ok (.jobj cached l)
        rw [hl]
      · show JVal.jobj [] (stripF l) = JVal.jobj [] (stripF fs)
        rw [hls]

/-- C4: for every document D that Parse accepts and every depth d, the lazy
tree modelled for ParseMaxDepth(D, d) behaves transparently: the raw-text
accessor returns exactly the raw text Append would produce, without forcing,
and forcing the tree through the structural accessors (re-parsing each
placeholder's raw text on first access) succeeds and yields a value
structurally equal to Parse(D). -/
theorem c4_lazy_depth_transparent (s : List Nat) (v : JVal) (d : Nat)
    (h : ParseJ s = .ok v) :
    (JVal.cutAt d v).appendD = JVal.appendV v ∧
    ∃ v2, forceD (JVal.cutAt d v) = .ok v2 ∧ v2.strip = v.strip := by
  obtain ⟨rest, hp, hn⟩ := ParseJ_ok.mp h
  have hraw : RawOk v := (herInvAt (s.length + 1)).1 _ _ _ hp
  exact ⟨appendD_cut d v, force_cut hraw d⟩

/-- Witness for C4 at the document "[1]" and depth 0: the whole array is a
placeholder whose raw accessor returns the document text and whose forced
value is structurally equal to the eager parse. -/
theorem c4_lazy_depth_transparent_witness :
    (JVal.cutAt 0 (.jarr [91, 49, 93] [.jnum [49]])).appendD
      = JVal.appendV (.jarr [91, 49, 93] [.jnum [49]]) ∧
    ∃ v2, forceD (JVal.cutAt 0 (.jarr [91, 49, 93] [.jnum [49]])) = .ok v2 ∧
      v2.strip = (JVal.jarr [91, 49, 93] [.jnum [49]]).strip :=
  c4_lazy_depth_transparent [91, 49, 93] (.jarr [91, 49, 93] [.jnum [49]]) 0 (by rfl)

end Jsonlite
